import Mathlib

/-!
Verification development for mdu (src/mdu.c), a multi-threaded disk-usage
counter.  The program takes a list of root paths, seeds a shared LIFO work
queue with the roots that are directories (initialize / initialize_files),
and runs a pool of worker threads (thread_func) that pop pending
directories, expand them (get_directory_size / get_available_file_size),
push discovered subdirectories back onto the queue, and accumulate per-root
block totals (total_sizes), until a distributed termination protocol
declares that the queue is empty and all workers are idle.

The development has two layers:

1. a functional (sequential) embedding of the filesystem probing and
   expansion code, used for the per-item claims (what an expansion step
   contributes, what is logged, how roots are seeded);

2. a small-step interleaving transition system for the worker pool
   (one step per access to shared state, faithful to which accesses are
   protected by which lock in the C code), used for the concurrency claims
   (termination, unique termination declaration, queue/semaphore
   invariants, schedule-independence of the totals).
-/

namespace Mdu

/--
Model of one filesystem node as observed by mdu through lstat / opendir /
readdir / closedir.  Sizes are allocated block counts (st_blocks).
A node is either a regular (non-directory) entry that stats successfully,
an entry whose lstat fails, or a directory with fixed outcomes for the
syscalls mdu performs on it: `restatOk` is the outcome of the lstat that
get_directory_size performs on the directory itself (line 209), `openOk`
the outcome of opendir (line 219), `closeOk` the outcome of closedir
(line 237), and `entries` the children returned by readdir (the "." and
".." pseudo-entries, which the code skips at line 260, are not modelled).
-/
inductive Entry : Type where
  | file (name : String) (blocks : Nat)
  | statFail (name : String)
  | dir (name : String) (blocks : Nat) (restatOk openOk closeOk : Bool) (entries : List Entry)

/-- Name of an entry (the directory-entry name used to build child paths). -/
def entryName : Entry → String
  | .file n _ => n
  | .statFail n => n
  | .dir n _ _ _ _ _ => n

/-- Whether the entry really is a directory (S_ISDIR on a successful stat). -/
def isRealDir : Entry → Bool
  | .dir _ _ _ _ _ _ => true
  | _ => false

/-- Allocated block count reported by a successful lstat of the entry. -/
def blocksOf : Entry → Nat
  | .file _ b => b
  | .statFail _ => 0
  | .dir _ b _ _ _ _ => b

mutual

/--
Net contribution of one directory entry to its root's final total, as the
code computes it: get_available_file_size returns the entry's own st_blocks
(line 295) — also for subdirectories, which are additionally pushed onto the
queue and whose later expansion contributes `dirSum` — and returns 0 for an
entry whose lstat fails (line 278).
-/
def entrySum : Entry → Nat
  | .file _ b => b
  | .statFail _ => 0
  | .dir _ b ro oo _ es => b + dirSum ro oo es

/--
Net contribution of expanding a queued directory (get_directory_size): 0 if
the re-stat of the directory (line 209) or opendir (line 219) fails, and
otherwise the sum of the contributions of its entries.  A closedir failure
does not change the returned size (line 237-244).
-/
def dirSum : Bool → Bool → List Entry → Nat
  | ro, oo, es => if ro && oo then listSum es else 0

/-- Sum of the contributions of a list of directory entries (readdir loop, line 230-232). -/
def listSum : List Entry → Nat
  | [] => 0
  | e :: es => entrySum e + listSum es

end

mutual

/--
Whether handling this directory entry (and the subtree the program actually
visits below it) ever records an error in exit_status.
-/
def entryErr : Entry → Bool
  | .file _ _ => false
  | .statFail _ => true
  | .dir _ _ ro oo co es => dirErr ro oo co es

/--
Whether expanding a queued directory records an error: a failing re-stat or
opendir does (and then nothing below is visited); otherwise an error occurs
if some entry produces one or closedir fails.
-/
def dirErr : Bool → Bool → Bool → List Entry → Bool
  | ro, oo, co, es =>
    if !ro then true
    else if !oo then true
    else listErr es || !co

/-- Whether handling some entry of the list records an error. -/
def listErr : List Entry → Bool
  | [] => false
  | e :: es => entryErr e || listErr es

end

mutual

/--
Modelled from the spec: "the sum of allocated-block counts of every
filesystem entry reachable from any root (files counted once, directories'
own block cost counted once)".  This is the value the spec claims for a
root's accumulator; it ignores the error outcomes recorded in the tree.
-/
def specReachSum : Entry → Nat
  | .file _ b => b
  | .statFail _ => 0
  | .dir _ b _ _ _ es => b + specListSum es

/-- Modelled from the spec: reachable-sum of a list of children. -/
def specListSum : List Entry → Nat
  | [] => 0
  | e :: es => specReachSum e + specListSum es

end

mutual

/--
Well-formedness of a modelled filesystem tree: every node stats
successfully and every directory opens and closes successfully (the
error-free situation the spec's totals property describes).
-/
def WellFormed : Entry → Prop
  | .file _ _ => True
  | .statFail _ => False
  | .dir _ _ ro oo co es => ro = true ∧ oo = true ∧ co = true ∧ WellFormedList es

/-- Well-formedness of a list of children. -/
def WellFormedList : List Entry → Prop
  | [] => True
  | e :: es => WellFormed e ∧ WellFormedList es

end

/--
Content of the stack-allocated `struct stat file_stat` in initialize_files
when lstat fails and leaves it uninitialized (line 409-415 of mdu.c): the
code then still reads `file_stat.st_blocks` and `file_stat.st_mode`.  The
two fields are indeterminate, so the model takes them as parameters.
-/
structure Junk : Type where
  blocks : Nat
  isDir : Bool

/-- Block count that initialize_files reads for a root path (line 415). -/
def seedBlocks (j : Junk) : Entry → Nat
  | .file _ b => b
  | .statFail _ => j.blocks
  | .dir _ b _ _ _ _ => b

/-- Directory test that initialize_files performs on a root path (line 419). -/
def seedIsDir (j : Junk) : Entry → Bool
  | .file _ _ => false
  | .statFail _ => j.isDir
  | .dir _ _ _ _ _ _ => true

/-- Whether seeding this root records an error (lstat failure, line 409-413). -/
def seedErr : Entry → Bool
  | .statFail _ => true
  | _ => false

/--
A queued work item, modelling `struct dir_info`: the owning root's id
(`parent_id`) and the filesystem node the queued path refers to (the C
struct stores the path string; the model stores the node it denotes).
-/
def Item : Type := Nat × Entry

/-- Push onto the global `available_files` LIFO stack (set_available_file, line 324-333): the C code appends at index nr_available_files - 1, the top of the stack, which the model keeps at the head of the list. -/
def set_available_file (f : Item) (q : List Item) : List Item := f :: q

/-- State built up by initialize (line 343-396): per-root totals in root-id order, the seeded work stack, and the exit-status error flag. -/
structure SeedSt : Type where
  total_sizes : List Nat
  available_files : List Item
  exit_status : Bool

/--
Seeding of one root path (initialize_files, line 406-426): record the
root's block count in its accumulator slot — reading the uninitialized stat
buffer `j` if lstat failed, which also sets exit_status — and push the root
onto the work stack when the (possibly garbage) mode bits classify it as a
directory.
-/
def initialize_files (j : Junk) (id : Nat) (e : Entry) (st : SeedSt) : SeedSt :=
  { total_sizes := st.total_sizes ++ [seedBlocks j e]
    available_files :=
      if seedIsDir j e then set_available_file (id, e) st.available_files
      else st.available_files
    exit_status := st.exit_status || seedErr e }

/-- Loop of initialize over the command-line paths (line 375-395), assigning consecutive root ids starting at `id`. -/
def seedLoop (j : Junk) (id : Nat) : List Entry → SeedSt → SeedSt
  | [], st => st
  | e :: es, st => seedLoop j (id + 1) es (initialize_files j id e st)

/-- Full seeding pass of initialize over all root paths (ids from 0). -/
def seedAll (j : Junk) (roots : List Entry) : SeedSt :=
  seedLoop j 0 roots { total_sizes := [], available_files := [], exit_status := false }

/-- Guard in main (line 88-90): worker threads are created only when seeding left the work stack non-empty (nr_available_files > 0). -/
def main_runs_threads (j : Junk) (roots : List Entry) : Bool :=
  (seedAll j roots).available_files.length > 0

/-- Output of print (line 436-442) in the case where no worker threads ran: each root's seeded total, halved from 512-byte to 1024-byte units. -/
def printed_without_pool (j : Junk) (roots : List Entry) : List Nat :=
  (seedAll j roots).total_sizes.map (fun n => n / 2)

/--
One message written to the error stream by the expansion code.  The code
has three shapes: "unable to stat: '<path>'" (lines 210 and 272), "du:
cannot read directory '<path>'" (line 220), and "closedir error: " — with
no path — (line 238).
-/
inductive LogEvent : Type where
  | statErr (path : String)
  | openErr (path : String)
  | closeErr

/-- Result of the per-entry handling in get_available_file_size: the size added to the caller's running total, the items pushed onto the work queue, the error-stream messages, and whether exit_status was set. -/
structure GafsOut : Type where
  size : Nat
  pushes : List Item
  log : List LogEvent
  err : Bool

/--
Handling of one readdir entry (get_available_file_size, line 256-296),
for an entry of directory `ppath` on behalf of root `rootId`: a child whose
lstat fails is logged — with the PARENT path `ppath`, since line 272 prints
`file.name` rather than the joined child path — sets exit_status, and
contributes 0; a child directory is pushed onto the work queue with the
same root id (line 283-289) and its own st_blocks are returned (line 295),
exactly like a regular file's.
-/
def get_available_file_size (rootId : Nat) (ppath : String) : Entry → GafsOut
  | .statFail _ => { size := 0, pushes := [], log := [.statErr ppath], err := true }
  | .file _ b => { size := b, pushes := [], log := [], err := false }
  | .dir n b ro oo co es =>
      { size := b, pushes := [(rootId, .dir n b ro oo co es)], log := [], err := false }

/-- Concatenation of per-entry results in readdir order (the while loop at line 230-232 of get_directory_size). -/
def readLoop (rootId : Nat) (path : String) : List Entry → GafsOut
  | [] => { size := 0, pushes := [], log := [], err := false }
  | e :: es =>
      let r := get_available_file_size rootId path e
      let rest := readLoop rootId path es
      { size := r.size + rest.size
        pushes := r.pushes ++ rest.pushes
        log := r.log ++ rest.log
        err := r.err || rest.err }

/--
Expansion of one queued directory (get_directory_size, line 200-245),
identified by its path, syscall outcomes and entries: a failing re-stat or
opendir is logged with the directory's own path, sets exit_status, and
yields size 0; otherwise the entries are handled in order and a closedir
failure is logged (with no path) and sets exit_status but keeps the size.
-/
def get_directory_size (rootId : Nat) (path : String) (ro oo co : Bool) (es : List Entry) : GafsOut :=
  if !ro then { size := 0, pushes := [], log := [.statErr path], err := true }
  else if !oo then { size := 0, pushes := [], log := [.openErr path], err := true }
  else
    let r := readLoop rootId path es
    { size := r.size
      pushes := r.pushes
      log := r.log ++ (if co then [] else [.closeErr])
      err := r.err || !co }

/--
Program counter of one worker thread running thread_func (line 139-189),
with one value per access to shared state.  The names refer to mdu.c:
`lock` is the loop head about to take available_lock (line 150); `markIdle`
writes done_threads of this worker (line 151); `checkNr` reads
nr_available_files (line 152); `setDone` writes done := true (line 153);
`scan i` is the check loop over done_threads (line 154-159) about to read
index i; `resetDone` writes done := false (line 156); `declare i` is the
wake-up loop (line 163-165) having posted i of the K signals; `unlockT`
releases the lock before breaking out (line 166-167); `unlockW` releases
the lock on the non-terminating path (line 170); `wait` blocks on
available_sem (line 172); `checkDone` reads done without the lock
(line 174); `markBusy` writes done_threads false without the lock
(line 178); `pop` is get_available_file (line 181); the remaining values
are the expansion of the popped item: `work r rem acc c` is the readdir
loop for root r with entries rem still to handle, running size acc and
closedir outcome c; `postPending` is between set_available_file and the
sem_post of line 288; `errItem` sets exit_status after a failed re-stat or
opendir of the popped item; `errClose` sets exit_status after a failed
closedir; `addSize r acc` adds acc to total_sizes[r] under size_lock
(line 183-185); `term` is a worker that left the loop.
-/
inductive Pc : Type where
  | lock
  | markIdle
  | checkNr
  | setDone
  | scan (i : Nat)
  | resetDone
  | declare (i : Nat)
  | unlockT
  | unlockW
  | wait
  | checkDone
  | markBusy
  | pop
  | errItem (r : Nat)
  | work (r : Nat) (rem : List Entry) (acc : Nat) (c : Bool)
  | postPending (r : Nat) (rem : List Entry) (acc : Nat) (c : Bool)
  | errClose (r : Nat) (acc : Nat)
  | addSize (r : Nat) (acc : Nat)
  | term

/--
Shared state of the pool with K workers, mirroring the globals of mdu.c,
plus one program counter per worker and four history (ghost) fields —
`pushed`, `popped`, `declares`, `postedReal` — that record events for the
statements of the claims and influence no transition.
nr_available_files is an int in C, hence ℤ here.
-/
structure St (K : Nat) : Type where
  available_files : List Item
  nr_available_files : Int
  available_sem : Nat
  done : Bool
  done_threads : Fin K → Bool
  lockHolder : Option (Fin K)
  total_sizes : Nat → Nat
  exit_status : Bool
  pcs : Fin K → Pc
  pushed : Multiset Item
  popped : Multiset Item
  declares : Nat
  postedReal : Nat

/--
Interleaving small-step semantics of the worker pool: each constructor is
one access to shared state by one worker w (or a purely local step), at the
source line its Pc value names.  Steps inside an available_lock critical
section do not re-check the lock (the mutual-exclusion invariant is proved,
not assumed), while the atomic lock/unlock boundaries and the
lock-protected queue operations require `lockHolder = none` to fire.
get_available_file and set_available_file are single steps because the
queue and nr_available_files have no lock-free readers or writers in the C
code; `done` and `done_threads` do have lock-free accesses (lines 174 and
178), so every access to them is a separate step.
-/
inductive Step {K : Nat} : St K → St K → Prop where
  | lockAcq {s : St K} (w : Fin K)
      (hpc : s.pcs w = .lock) (hl : s.lockHolder = none) :
      Step s { s with lockHolder := some w, pcs := Function.update s.pcs w .markIdle }
  | markIdleStep {s : St K} (w : Fin K)
      (hpc : s.pcs w = .markIdle) :
      Step s { s with done_threads := Function.update s.done_threads w true
                      pcs := Function.update s.pcs w .checkNr }
  | checkNrZero {s : St K} (w : Fin K)
      (hpc : s.pcs w = .checkNr) (h0 : s.nr_available_files = 0) :
      Step s { s with pcs := Function.update s.pcs w .setDone }
  | checkNrPos {s : St K} (w : Fin K)
      (hpc : s.pcs w = .checkNr) (h0 : s.nr_available_files ≠ 0) :
      Step s { s with pcs := Function.update s.pcs w .unlockW }
  | setDoneStep {s : St K} (w : Fin K)
      (hpc : s.pcs w = .setDone) :
      Step s { s with done := true, pcs := Function.update s.pcs w (.scan 0) }
  | scanTrue {s : St K} (w : Fin K) (i : Nat)
      (hpc : s.pcs w = .scan i) (hi : i < K)
      (ht : s.done_threads ⟨i, hi⟩ = true) :
      Step s { s with pcs := Function.update s.pcs w (.scan (i + 1)) }
  | scanFalse {s : St K} (w : Fin K) (i : Nat)
      (hpc : s.pcs w = .scan i) (hi : i < K)
      (hf : s.done_threads ⟨i, hi⟩ = false) :
      Step s { s with pcs := Function.update s.pcs w .resetDone }
  | scanDone {s : St K} (w : Fin K)
      (hpc : s.pcs w = .scan K) :
      Step s { s with pcs := Function.update s.pcs w (.declare 0)
                      declares := s.declares + 1 }
  | declarePost {s : St K} (w : Fin K) (i : Nat)
      (hpc : s.pcs w = .declare i) (hi : i < K) :
      Step s { s with available_sem := s.available_sem + 1
                      pcs := Function.update s.pcs w (.declare (i + 1)) }
  | declareFin {s : St K} (w : Fin K)
      (hpc : s.pcs w = .declare K) :
      Step s { s with pcs := Function.update s.pcs w .unlockT }
  | unlockTStep {s : St K} (w : Fin K)
      (hpc : s.pcs w = .unlockT) :
      Step s { s with lockHolder := none, pcs := Function.update s.pcs w .term }
  | resetDoneStep {s : St K} (w : Fin K)
      (hpc : s.pcs w = .resetDone) :
      Step s { s with done := false, pcs := Function.update s.pcs w .unlockW }
  | unlockWStep {s : St K} (w : Fin K)
      (hpc : s.pcs w = .unlockW) :
      Step s { s with lockHolder := none, pcs := Function.update s.pcs w .wait }
  | semWait {s : St K} (w : Fin K)
      (hpc : s.pcs w = .wait) (hs : 0 < s.available_sem) :
      Step s { s with available_sem := s.available_sem - 1
                      pcs := Function.update s.pcs w .checkDone }
  | checkDoneTrue {s : St K} (w : Fin K)
      (hpc : s.pcs w = .checkDone) (hd : s.done = true) :
      Step s { s with pcs := Function.update s.pcs w .term }
  | checkDoneFalse {s : St K} (w : Fin K)
      (hpc : s.pcs w = .checkDone) (hd : s.done = false) :
      Step s { s with pcs := Function.update s.pcs w .markBusy }
  | markBusyStep {s : St K} (w : Fin K)
      (hpc : s.pcs w = .markBusy) :
      Step s { s with done_threads := Function.update s.done_threads w false
                      pcs := Function.update s.pcs w .pop }
  | popDir {s : St K} (w : Fin K) (r : Nat) (n : String) (b : Nat) (co : Bool)
      (es : List Entry) (rest : List Item)
      (hpc : s.pcs w = .pop) (hl : s.lockHolder = none)
      (hq : s.available_files = (r, .dir n b true true co es) :: rest) :
      Step s { s with available_files := rest
                      nr_available_files := s.nr_available_files - 1
                      popped := s.popped + {(r, .dir n b true true co es)}
                      pcs := Function.update s.pcs w (.work r es 0 co) }
  | popDirFail {s : St K} (w : Fin K) (r : Nat) (n : String) (b : Nat)
      (ro oo co : Bool) (es : List Entry) (rest : List Item)
      (hpc : s.pcs w = .pop) (hl : s.lockHolder = none)
      (hq : s.available_files = (r, .dir n b ro oo co es) :: rest)
      (hbad : (ro && oo) = false) :
      Step s { s with available_files := rest
                      nr_available_files := s.nr_available_files - 1
                      popped := s.popped + {(r, .dir n b ro oo co es)}
                      pcs := Function.update s.pcs w (.errItem r) }
  | popStatFail {s : St K} (w : Fin K) (r : Nat) (n : String) (rest : List Item)
      (hpc : s.pcs w = .pop) (hl : s.lockHolder = none)
      (hq : s.available_files = (r, .statFail n) :: rest) :
      Step s { s with available_files := rest
                      nr_available_files := s.nr_available_files - 1
                      popped := s.popped + {(r, .statFail n)}
                      pcs := Function.update s.pcs w (.errItem r) }
  | workFile {s : St K} (w : Fin K) (r : Nat) (n : String) (b : Nat)
      (rem : List Entry) (acc : Nat) (c : Bool)
      (hpc : s.pcs w = .work r (.file n b :: rem) acc c) :
      Step s { s with pcs := Function.update s.pcs w (.work r rem (acc + b) c) }
  | workStatFail {s : St K} (w : Fin K) (r : Nat) (n : String)
      (rem : List Entry) (acc : Nat) (c : Bool)
      (hpc : s.pcs w = .work r (.statFail n :: rem) acc c) :
      Step s { s with exit_status := true
                      pcs := Function.update s.pcs w (.work r rem acc c) }
  | workPush {s : St K} (w : Fin K) (r : Nat) (n : String) (b : Nat)
      (ro oo co : Bool) (es : List Entry)
      (rem : List Entry) (acc : Nat) (c : Bool)
      (hpc : s.pcs w = .work r (.dir n b ro oo co es :: rem) acc c)
      (hl : s.lockHolder = none) :
      Step s { s with available_files := set_available_file (r, .dir n b ro oo co es) s.available_files
                      nr_available_files := s.nr_available_files + 1
                      pushed := s.pushed + {(r, .dir n b ro oo co es)}
                      pcs := Function.update s.pcs w (.postPending r rem (acc + b) c) }
  | postStep {s : St K} (w : Fin K) (r : Nat)
      (rem : List Entry) (acc : Nat) (c : Bool)
      (hpc : s.pcs w = .postPending r rem acc c) :
      Step s { s with available_sem := s.available_sem + 1
                      postedReal := s.postedReal + 1
                      pcs := Function.update s.pcs w (.work r rem acc c) }
  | workClose {s : St K} (w : Fin K) (r : Nat) (acc : Nat)
      (hpc : s.pcs w = .work r [] acc true) :
      Step s { s with pcs := Function.update s.pcs w (.addSize r acc) }
  | workCloseFail {s : St K} (w : Fin K) (r : Nat) (acc : Nat)
      (hpc : s.pcs w = .work r [] acc false) :
      Step s { s with pcs := Function.update s.pcs w (.errClose r acc) }
  | errCloseStep {s : St K} (w : Fin K) (r : Nat) (acc : Nat)
      (hpc : s.pcs w = .errClose r acc) :
      Step s { s with exit_status := true
                      pcs := Function.update s.pcs w (.addSize r acc) }
  | errItemStep {s : St K} (w : Fin K) (r : Nat)
      (hpc : s.pcs w = .errItem r) :
      Step s { s with exit_status := true
                      pcs := Function.update s.pcs w (.addSize r 0) }
  | addSizeStep {s : St K} (w : Fin K) (r : Nat) (acc : Nat)
      (hpc : s.pcs w = .addSize r acc) :
      Step s { s with total_sizes := fun x => if x = r then s.total_sizes x + acc else s.total_sizes x
                      pcs := Function.update s.pcs w .lock }

/--
State of the system when the worker pool starts: the queue, semaphore
count, totals and error flag left by the seeding pass of initialize (which
runs on the main thread before pthread_create, each seed push followed by
its sem_post), done_threads all false (line 370-372), done false (C global,
zero-initialized), every worker about to enter its loop.
-/
def initSt (K : Nat) (j : Junk) (roots : List Entry) : St K :=
  { available_files := (seedAll j roots).available_files
    nr_available_files := ((seedAll j roots).available_files.length : Int)
    available_sem := (seedAll j roots).available_files.length
    done := false
    done_threads := fun _ => false
    lockHolder := none
    total_sizes := fun r => (seedAll j roots).total_sizes.getD r 0
    exit_status := (seedAll j roots).exit_status
    pcs := fun _ => .lock
    pushed := 0
    popped := 0
    declares := 0
    postedReal := 0 }

/-- Reachability of a pool state from another by any interleaving of worker steps. -/
def Reach {K : Nat} (s s' : St K) : Prop := Relation.ReflTransGen Step s s'

/-- All K workers have left their loops. -/
def AllTerm {K : Nat} (s : St K) : Prop := ∀ w : Fin K, s.pcs w = .term

mutual

/-- Termination weight of one readdir entry: the number of steps (suitably padded) that handling it and everything below it can still cost a pool of K workers. -/
def eW (K : Nat) : Entry → Nat
  | .file _ _ => 1
  | .statFail _ => 1
  | .dir _ _ _ _ _ es => 3 * K + 37 + lW K es

/-- Termination weight of a list of readdir entries. -/
def lW (K : Nat) : List Entry → Nat
  | [] => 0
  | e :: es => eW K e + lW K es

end

/-- Termination weight of one queued item. -/
def qW (K : Nat) : Entry → Nat
  | .dir _ _ _ _ _ es => 3 * K + 34 + lW K es
  | _ => 3 * K + 34

/-- Termination weight of the work queue. -/
def qListW (K : Nat) : List Item → Nat
  | [] => 0
  | it :: q => qW K it.2 + qListW K q

/-- Rank of a worker's program counter: strictly decreasing along every code path of thread_func between interactions with the work queue. -/
def rank (K : Nat) : Pc → Nat
  | .term => 0
  | .unlockT => 1
  | .declare i => 2 * (K - i) + 2
  | .pop => 3
  | .markBusy => 4
  | .checkDone => 5
  | .wait => 6
  | .unlockW => 7
  | .resetDone => 8
  | .scan i => 3 * K + 12 - i
  | .setDone => 3 * K + 13
  | .checkNr => 3 * K + 14
  | .markIdle => 3 * K + 15
  | .lock => 3 * K + 16
  | .addSize _ _ => 3 * K + 17
  | .errItem _ => 3 * K + 18
  | .errClose _ _ => 3 * K + 18
  | .work _ rem _ _ => 3 * K + 19 + lW K rem
  | .postPending _ rem _ _ => 3 * K + 21 + lW K rem

/-- Sum of the ranks of all workers. -/
def rankSum {K : Nat} (f : Fin K → Pc) : Nat :=
  Finset.univ.sum fun v => rank K (f v)

/-- Global termination measure: weight of the queued work, plus the rank of every worker, plus the semaphore count. -/
def mu {K : Nat} (s : St K) : Nat :=
  qListW K s.available_files + rankSum s.pcs + s.available_sem

/-- Whether a worker at this program counter has announced itself idle: done_threads[w] is written true at line 151 (markIdle) and false at line 178 (markBusy, taking effect when the step fires). -/
def IdlePc : Pc → Prop
  | .checkNr => True
  | .setDone => True
  | .scan _ => True
  | .resetDone => True
  | .declare _ => True
  | .unlockT => True
  | .unlockW => True
  | .wait => True
  | .checkDone => True
  | .markBusy => True
  | .term => True
  | _ => False

/-- Whether a worker at this program counter holds available_lock (inside the critical section of lines 150-170, or the pop/push regions modelled atomically do not count). -/
def CSPc : Pc → Prop
  | .markIdle => True
  | .checkNr => True
  | .setDone => True
  | .scan _ => True
  | .resetDone => True
  | .declare _ => True
  | .unlockT => True
  | .unlockW => True
  | _ => False

/-- Whether a worker at this program counter has begun or completed declaring global termination. -/
def DeclPc : Pc → Prop
  | .declare _ => True
  | .unlockT => True
  | .term => True
  | _ => False

/-- Whether a worker at this program counter is in the scan-or-reset part of the critical section (relevant as the only writers of `done`). -/
def ScanLike : Pc → Prop
  | .scan _ => True
  | .resetDone => True
  | .declare _ => True
  | .unlockT => True
  | _ => False

/-- Program counters a worker can occupy once some worker has begun declaring termination. -/
def WPc : Pc → Prop
  | .wait => True
  | .checkDone => True
  | .declare _ => True
  | .unlockT => True
  | .term => True
  | _ => False

/-- No worker has begun declaring termination. -/
def NoDecl {K : Nat} (s : St K) : Prop := ∀ w : Fin K, ¬ DeclPc (s.pcs w)

/-- Indicator of a worker holding one claimed-but-unconsumed semaphore token: it passed sem_wait (line 172) but has not yet completed get_available_file. -/
def winInd : Pc → Nat
  | .checkDone => 1
  | .markBusy => 1
  | .pop => 1
  | _ => 0

/-- Indicator of a worker that has pushed an item (line 287) but not yet posted its semaphore signal (line 288). -/
def pendInd : Pc → Nat
  | .postPending _ _ _ _ => 1
  | _ => 0

/-- Indicator of a worker blocked (or about to block) in sem_wait. -/
def waitInd : Pc → Nat
  | .wait => 1
  | _ => 0

/-- Number of wake-up signals a declaring worker has still to post (K minus the posts already done in the loop of line 163-165). -/
def declRemOf (K : Nat) : Pc → Nat
  | .declare i => K - i
  | _ => 0

/-- Number of workers holding a claimed-but-unconsumed semaphore token. -/
def winCount {K : Nat} (f : Fin K → Pc) : Nat :=
  Finset.univ.sum fun v => winInd (f v)

/-- Number of workers with a push awaiting its semaphore signal. -/
def pendCount {K : Nat} (f : Fin K → Pc) : Nat :=
  Finset.univ.sum fun v => pendInd (f v)

/-- Number of workers at the sem_wait of line 172. -/
def waitCount {K : Nat} (f : Fin K → Pc) : Nat :=
  Finset.univ.sum fun v => waitInd (f v)

/-- Total number of wake-up signals still to be posted by declaring workers. -/
def declRem {K : Nat} (f : Fin K → Pc) : Nat :=
  Finset.univ.sum fun v => declRemOf K (f v)

/-- Whether the entry is a regular stattable non-directory (never legitimately queued). -/
def isFileE : Entry → Bool
  | .file _ _ => true
  | _ => false

/-- Contribution that the (future) expansion of a queued item will add to its root's total: the item's children sums for an expandable directory, 0 for anything whose re-stat or opendir fails. -/
def procOf : Entry → Nat
  | .dir _ _ ro oo _ es => dirSum ro oo es
  | _ => 0

/-- Part of root r's final total still sitting in the work queue. -/
def queueSum (r : Nat) : List Item → Nat
  | [] => 0
  | it :: q => (if it.1 = r then procOf it.2 else 0) + queueSum r q

/-- Part of root r's final total held by a worker at this program counter (its running local size plus what its unprocessed entries will contribute). -/
def wRest (r : Nat) : Pc → Nat
  | .work r' rem acc _ => if r' = r then acc + listSum rem else 0
  | .postPending r' rem acc _ => if r' = r then acc + listSum rem else 0
  | .errClose r' acc => if r' = r then acc else 0
  | .addSize r' acc => if r' = r then acc else 0
  | _ => 0

/-- Part of root r's final total currently held by the workers. -/
def workerSum {K : Nat} (r : Nat) (f : Fin K → Pc) : Nat :=
  Finset.univ.sum fun v => wRest r (f v)

/-- Final total of one root: its seeded block count plus, when it was enqueued, what its expansion contributes. -/
def rootTarget (j : Junk) (e : Entry) : Nat := seedBlocks j e + procOf e

/-- Final value of total_sizes[r] once the pool has drained the queue. -/
def targets (j : Junk) (roots : List Entry) (r : Nat) : Nat :=
  match roots.get? r with
  | some e => rootTarget j e
  | none => 0

/-- Whether expanding some queued item will still record an error. -/
def queueErr : List Item → Bool
  | [] => false
  | it :: q => entryErr it.2 || queueErr q

/-- Whether the work a worker at this program counter still has in hand will record an error (including a pending exit_status write at errItem/errClose). -/
def wErr : Pc → Bool
  | .work _ rem _ c => listErr rem || !c
  | .postPending _ rem _ c => listErr rem || !c
  | .errItem _ => true
  | .errClose _ _ => true
  | _ => false

/-- Whether seeding or traversal of one root records an error at some point of the run. -/
def rootErrT (j : Junk) (e : Entry) : Bool :=
  seedErr e || (seedIsDir j e && entryErr e)

/-- Whether the whole run records any error (the final value of exit_status ≠ 0). -/
def targetErr (j : Junk) (roots : List Entry) : Bool := roots.any (rootErrT j)

/-- Multiset of the items seeded by initialize before the pool starts. -/
def seedsMS (j : Junk) (roots : List Entry) : Multiset Item :=
  ((seedAll j roots).available_files : Multiset Item)

/--
Inductive invariant of the pool, modelling everything the claims need:
queue bookkeeping (nrEq, qshape), the meaning of done_threads (dt), mutual
exclusion for available_lock (lk1, lk2), semaphore/token conservation
before any declaration (tokens), what a worker inside the check-loop part
of the critical section knows (scanF, setDoneF, declF, rdF, uwF), where
`done = true` can come from (doneSrc), the post-declaration lockdown (ts),
enough signals for every blocked worker after a declaration (dinv),
impossibility of the all-blocked configuration (ns), per-root total
conservation (acc), error-flag conservation (errI), and the history facts
(ghost, dcl0, dcl1).
-/
structure Inv (K : Nat) (j : Junk) (roots : List Entry) (s : St K) : Prop where
  hK : 0 < K
  nrEq : s.nr_available_files = (s.available_files.length : Int)
  qshape : ∀ it ∈ s.available_files, isFileE it.2 = false
  dt : ∀ w, s.done_threads w = true ↔ IdlePc (s.pcs w)
  lk1 : ∀ w, s.lockHolder = some w → CSPc (s.pcs w)
  lk2 : ∀ w, CSPc (s.pcs w) → s.lockHolder = some w
  tokens : NoDecl s →
    s.available_sem + pendCount s.pcs + winCount s.pcs = s.available_files.length
  scanF : ∀ w i, s.pcs w = .scan i → i ≤ K ∧ s.available_files = [] ∧ s.done = true ∧
    ∀ v : Fin K, (v : Nat) < i → s.done_threads v = true
  setDoneF : ∀ w, s.pcs w = .setDone → s.available_files = []
  declF : ∀ w i, s.pcs w = .declare i → i ≤ K
  rdF : ∀ w, s.pcs w = .resetDone →
    s.available_files = [] ∧ ∃ v, s.done_threads v = false
  uwF : ∀ w, s.pcs w = .unlockW →
    s.available_files ≠ [] ∨ ∃ v, s.done_threads v = false
  doneSrc : s.done = true → (∃ w, ScanLike (s.pcs w)) ∨ (∃ w, s.pcs w = .term)
  ts : ∀ w, DeclPc (s.pcs w) →
    (∀ v, WPc (s.pcs v)) ∧ s.done = true ∧ s.available_files = []
  dinv : ∀ w, DeclPc (s.pcs w) →
    waitCount s.pcs ≤ s.available_sem + declRem s.pcs
  ns : (∀ w, s.pcs w = .wait) → s.available_files ≠ [] ∨ s.available_sem ≠ 0
  acc : ∀ r, s.total_sizes r + queueSum r s.available_files + workerSum r s.pcs
    = targets j roots r
  errI : (s.exit_status = true ∨ queueErr s.available_files = true ∨
      ∃ w, wErr (s.pcs w) = true) ↔ targetErr j roots = true
  ghost : seedsMS j roots + s.pushed = s.popped + (s.available_files : Multiset Item)
  dcl0 : s.declares = 0 ↔ NoDecl s
  dcl1 : s.declares ≤ 1

/-- A worker program counter inside the expansion phase (or the loop head): not idle, outside the critical section, not declaring, not in the sem_wait window. -/
def BusyPc (K : Nat) : Pc → Prop := fun q =>
  ¬ IdlePc q ∧ ¬ CSPc q ∧ ¬ DeclPc q ∧ ¬ WPc q ∧ ¬ ScanLike q ∧
  winInd q = 0 ∧ pendInd q = 0 ∧ waitInd q = 0 ∧ declRemOf K q = 0

/-- Fixed content of the uninitialized stat buffer used by the concrete executions below. -/
def witJ : Junk := ⟨0, false⟩

/-- A single regular-file root of 5 blocks: input of the concrete terminating execution. -/
def witRoots : List Entry := [.file "x" 5]

/-- Concrete K = 1 execution, start state: nothing was enqueued, the worker is at its loop head. -/
def wit0 : St 1 := initSt 1 witJ witRoots

/-- After taking available_lock (line 150). -/
def wit1 : St 1 :=
  { wit0 with lockHolder := some 0, pcs := Function.update wit0.pcs 0 .markIdle }

/-- After writing done_threads[0] := 1 (line 151). -/
def wit2 : St 1 :=
  { wit1 with done_threads := Function.update wit1.done_threads 0 true
              pcs := Function.update wit1.pcs 0 .checkNr }

/-- After reading nr_available_files = 0 (line 152). -/
def wit3 : St 1 := { wit2 with pcs := Function.update wit2.pcs 0 .setDone }

/-- After writing done := 1 (line 153). -/
def wit4 : St 1 :=
  { wit3 with done := true, pcs := Function.update wit3.pcs 0 (.scan 0) }

/-- After finding done_threads[0] set in the scan loop (line 154-159). -/
def wit5 : St 1 := { wit4 with pcs := Function.update wit4.pcs 0 (.scan 1) }

/-- After the scan loop completes: the worker begins declaring termination (line 161). -/
def wit6 : St 1 :=
  { wit5 with pcs := Function.update wit5.pcs 0 (.declare 0)
              declares := wit5.declares + 1 }

/-- After posting the single wake-up signal (line 163-165). -/
def wit7 : St 1 :=
  { wit6 with available_sem := wit6.available_sem + 1
              pcs := Function.update wit6.pcs 0 (.declare 1) }

/-- After the wake-up loop finishes. -/
def wit8 : St 1 := { wit7 with pcs := Function.update wit7.pcs 0 .unlockT }

/-- After releasing the lock and breaking out (line 166-167): the pool is fully terminated. -/
def wit9 : St 1 :=
  { wit8 with lockHolder := none, pcs := Function.update wit8.pcs 0 .term }

/-- Two-worker execution on the same single-file input, start state. -/
def dw0 : St 2 := initSt 2 witJ witRoots

/-- Worker 0 takes available_lock (line 150). -/
def dw1 : St 2 :=
  { dw0 with lockHolder := some 0, pcs := Function.update dw0.pcs 0 .markIdle }

/-- Worker 0 writes done_threads[0] := 1 (line 151). -/
def dw2 : St 2 :=
  { dw1 with done_threads := Function.update dw1.done_threads 0 true
             pcs := Function.update dw1.pcs 0 .checkNr }

/-- Worker 0 reads nr_available_files = 0 (line 152). -/
def dw3 : St 2 := { dw2 with pcs := Function.update dw2.pcs 0 .setDone }

/-- Worker 0 writes done := 1 (line 153). -/
def dw4 : St 2 :=
  { dw3 with done := true, pcs := Function.update dw3.pcs 0 (.scan 0) }

/-- Worker 0's scan finds done_threads[0] set. -/
def dw5 : St 2 := { dw4 with pcs := Function.update dw4.pcs 0 (.scan 1) }

/-- Worker 0's scan finds done_threads[1] clear (line 155). -/
def dw6 : St 2 := { dw5 with pcs := Function.update dw5.pcs 0 .resetDone }

/-- Worker 0 writes done := 0 (line 156). -/
def dw7 : St 2 :=
  { dw6 with done := false, pcs := Function.update dw6.pcs 0 .unlockW }

/-- Worker 0 releases the lock (line 170). -/
def dw8 : St 2 :=
  { dw7 with lockHolder := none, pcs := Function.update dw7.pcs 0 .wait }

/-- Worker 1 takes available_lock (line 150). -/
def dw9 : St 2 :=
  { dw8 with lockHolder := some 1, pcs := Function.update dw8.pcs 1 .markIdle }

/-- Worker 1 writes done_threads[1] := 1 (line 151). -/
def dw10 : St 2 :=
  { dw9 with done_threads := Function.update dw9.done_threads 1 true
             pcs := Function.update dw9.pcs 1 .checkNr }

/-- Worker 1 reads nr_available_files = 0 (line 152). -/
def dw11 : St 2 := { dw10 with pcs := Function.update dw10.pcs 1 .setDone }

/-- Worker 1 writes done := 1 (line 153). -/
def dw12 : St 2 :=
  { dw11 with done := true, pcs := Function.update dw11.pcs 1 (.scan 0) }

/-- Worker 1's scan finds done_threads[0] set. -/
def dw13 : St 2 := { dw12 with pcs := Function.update dw12.pcs 1 (.scan 1) }

/-- Worker 1's scan finds done_threads[1] set. -/
def dw14 : St 2 := { dw13 with pcs := Function.update dw13.pcs 1 (.scan 2) }

/-- Worker 1's scan completes: it declares termination (line 161). -/
def dw15 : St 2 :=
  { dw14 with pcs := Function.update dw14.pcs 1 (.declare 0)
              declares := dw14.declares + 1 }

/-- Worker 1 posts the first wake-up signal (line 163-165). -/
def dw16 : St 2 :=
  { dw15 with available_sem := dw15.available_sem + 1
              pcs := Function.update dw15.pcs 1 (.declare 1) }

/-- Worker 1 posts the second wake-up signal. -/
def dw17 : St 2 :=
  { dw16 with available_sem := dw16.available_sem + 1
              pcs := Function.update dw16.pcs 1 (.declare 2) }

/-- Worker 1's wake-up loop finishes. -/
def dw18 : St 2 := { dw17 with pcs := Function.update dw17.pcs 1 .unlockT }

/-- Worker 1 releases the lock and exits (line 166-167). -/
def dw19 : St 2 :=
  { dw18 with lockHolder := none, pcs := Function.update dw18.pcs 1 .term }

/-- Worker 0's sem_wait succeeds on a wake-up signal (line 172). -/
def dw20 : St 2 :=
  { dw19 with available_sem := dw19.available_sem - 1
              pcs := Function.update dw19.pcs 0 .checkDone }

/-- Worker 0 reads done = 1 (line 174) and exits: the pool is fully terminated. -/
def dw21 : St 2 := { dw20 with pcs := Function.update dw20.pcs 0 .term }

/-- A single directory root: input of the concrete execution that separates the semaphore count from the queue length. -/
def crRoots : List Entry := [.dir "a" 8 true true true []]

/-- Semaphore execution, start state: one item queued, semaphore at 1. -/
def cr0 : St 1 := initSt 1 witJ crRoots

/-- After taking available_lock (line 150). -/
def cr1 : St 1 :=
  { cr0 with lockHolder := some 0, pcs := Function.update cr0.pcs 0 .markIdle }

/-- After writing done_threads[0] := 1 (line 151). -/
def cr2 : St 1 :=
  { cr1 with done_threads := Function.update cr1.done_threads 0 true
             pcs := Function.update cr1.pcs 0 .checkNr }

/-- After reading nr_available_files = 1 (line 152): the worker heads for sem_wait. -/
def cr3 : St 1 := { cr2 with pcs := Function.update cr2.pcs 0 .unlockW }

/-- After releasing the lock (line 170). -/
def cr4 : St 1 :=
  { cr3 with lockHolder := none, pcs := Function.update cr3.pcs 0 .wait }

/-- After sem_wait succeeds (line 172): the semaphore is 0 while the queue still holds one item. -/
def cr5 : St 1 :=
  { cr4 with available_sem := cr4.available_sem - 1
             pcs := Function.update cr4.pcs 0 .checkDone }

mutual

/-- On a well-formed tree, the code's contribution equals the spec's reachable sum. -/
theorem entrySum_eq_specReachSum : ∀ e : Entry, WellFormed e → entrySum e = specReachSum e
  | .file _ _, _ => by simp [entrySum, specReachSum]
  | .statFail _, h => by simp [WellFormed] at h
  | .dir n b ro oo co es, h => by
      obtain ⟨hro, hoo, hco, hes⟩ := h
      subst hro; subst hoo
      simp [entrySum, specReachSum, dirSum, listSum_eq_specListSum es hes]

/-- On a well-formed list, the code's contribution equals the spec's reachable sum. -/
theorem listSum_eq_specListSum : ∀ es : List Entry, WellFormedList es → listSum es = specListSum es
  | [], _ => by simp [listSum, specListSum]
  | e :: es, h => by
      obtain ⟨he, hes⟩ := h
      simp [listSum, specListSum, entrySum_eq_specReachSum e he, listSum_eq_specListSum es hes]

end

/-- Totals written by the seeding loop: one slot per root, holding seedBlocks, appended in command-line order. -/
theorem seedLoop_totals (j : Junk) :
    ∀ (es : List Entry) (id : Nat) (st : SeedSt),
      (seedLoop j id es st).total_sizes = st.total_sizes ++ es.map (seedBlocks j)
  | [], id, st => by simp [seedLoop]
  | e :: es, id, st => by
      have ih := seedLoop_totals j es (id + 1) (initialize_files j id e st)
      have hstep : seedLoop j id (e :: es) st
          = seedLoop j (id + 1) es (initialize_files j id e st) := by
        simp [seedLoop]
      rw [hstep, ih]
      simp [initialize_files]

/-- A root is enqueued by the seeder only when (possibly garbage) mode bits classify it as a directory, and such an entry is never a regular file. -/
theorem seedIsDir_not_file (j : Junk) (e : Entry) (h : seedIsDir j e = true) :
    isFileE e = false := by
  cases e with
  | file n b => simp [seedIsDir] at h
  | statFail n => simp [isFileE]
  | dir n b ro oo co es => simp [isFileE]

/-- A root not enqueued by the seeder contributes no expansion total. -/
theorem seedIsDir_false_procOf (j : Junk) (e : Entry) (h : seedIsDir j e = false) :
    procOf e = 0 := by
  cases e with
  | file n b => simp [procOf]
  | statFail n => simp [procOf]
  | dir n b ro oo co es => simp [seedIsDir] at h

/-- A root not enqueued by the seeder leaves no pending traversal error. -/
theorem seedIsDir_false_entryErr (j : Junk) (e : Entry) (h : seedIsDir j e = false) :
    (seedIsDir j e && entryErr e) = false := by
  simp [h]

/-- Items put on the stack by the seeding loop are never regular files. -/
theorem seedLoop_qshape (j : Junk) :
    ∀ (es : List Entry) (id : Nat) (st : SeedSt),
      (∀ it ∈ st.available_files, isFileE it.2 = false) →
      ∀ it ∈ (seedLoop j id es st).available_files, isFileE it.2 = false
  | [], id, st, h => by simpa [seedLoop] using h
  | e :: es, id, st, h => by
      have hstep : seedLoop j id (e :: es) st
          = seedLoop j (id + 1) es (initialize_files j id e st) := by
        simp [seedLoop]
      rw [hstep]
      refine seedLoop_qshape j es (id + 1) (initialize_files j id e st) ?_
      intro it hit
      by_cases hd : seedIsDir j e = true
      · rw [show (initialize_files j id e st).available_files
            = (id, e) :: st.available_files from by
          simp [initialize_files, hd, set_available_file]] at hit
        rcases List.mem_cons.mp hit with h1 | h2
        · rw [h1]; exact seedIsDir_not_file j e hd
        · exact h it h2
      · rw [show (initialize_files j id e st).available_files
            = st.available_files from by
          simp [initialize_files, hd, set_available_file]] at hit
        exact h it hit

/-- Value of getD on a one-element extension of a list. -/
theorem getD_snoc (l : List Nat) (x : Nat) (r : Nat) :
    (l ++ [x]).getD r 0 = if r < l.length then l.getD r 0 else if r = l.length then x else 0 := by
  induction l generalizing r with
  | nil =>
      cases r with
      | zero => simp
      | succ r => simp
  | cons a l ih =>
      cases r with
      | zero => simp
      | succ r => simpa using ih r

/-- Target totals of a cons at index 0. -/
theorem targets_cons_zero (j : Junk) (e : Entry) (es : List Entry) :
    targets j (e :: es) 0 = rootTarget j e := rfl

/-- Target totals of a cons at a positive index. -/
theorem targets_cons_succ (j : Junk) (e : Entry) (es : List Entry) (k : Nat) :
    targets j (e :: es) (k + 1) = targets j es k := rfl

/-- Target totals of the empty root list. -/
theorem targets_nil (j : Junk) (k : Nat) : targets j [] k = 0 := rfl

/--
Conservation through the seeding loop: after seeding, slot r of the totals
plus the expansion totals still queued for root r equal the final target
for root r.
-/
theorem seedLoop_acc (j : Junk) :
    ∀ (es : List Entry) (st : SeedSt) (r : Nat),
      (seedLoop j st.total_sizes.length es st).total_sizes.getD r 0
          + queueSum r (seedLoop j st.total_sizes.length es st).available_files
        = st.total_sizes.getD r 0 + queueSum r st.available_files
          + (if st.total_sizes.length ≤ r then targets j es (r - st.total_sizes.length) else 0)
  | [], st, r => by
      simp [seedLoop, targets_nil]
  | e :: es, st, r => by
      have hlen : (initialize_files j st.total_sizes.length e st).total_sizes.length
          = st.total_sizes.length + 1 := by
        simp [initialize_files]
      have ih := seedLoop_acc j es (initialize_files j st.total_sizes.length e st) r
      rw [hlen] at ih
      have hstep : seedLoop j st.total_sizes.length (e :: es) st
          = seedLoop j (st.total_sizes.length + 1) es
              (initialize_files j st.total_sizes.length e st) := by
        simp [seedLoop]
      rw [hstep, ih]
      have htot : (initialize_files j st.total_sizes.length e st).total_sizes.getD r 0
          = if r < st.total_sizes.length then st.total_sizes.getD r 0
            else if r = st.total_sizes.length then seedBlocks j e else 0 := by
        simp only [initialize_files]
        exact getD_snoc st.total_sizes (seedBlocks j e) r
      have hqs : queueSum r (initialize_files j st.total_sizes.length e st).available_files
          = (if seedIsDir j e = true then
              (if st.total_sizes.length = r then procOf e else 0) else 0)
            + queueSum r st.available_files := by
        by_cases hd : seedIsDir j e = true
        · simp [initialize_files, hd, set_available_file, queueSum]
        · simp [initialize_files, hd, set_available_file, queueSum]
      rw [htot, hqs]
      rcases Nat.lt_trichotomy r st.total_sizes.length with hlt | heq | hgt
      · have h1 : ¬ st.total_sizes.length ≤ r := by omega
        have h2 : ¬ st.total_sizes.length + 1 ≤ r := by omega
        have h3 : st.total_sizes.length ≠ r := by omega
        rw [if_pos hlt, if_neg h1, if_neg h2]
        by_cases hd : seedIsDir j e = true
        · rw [if_pos hd, if_neg h3]; omega
        · rw [if_neg hd]; omega
      · have e1 : ¬ r < st.total_sizes.length := by omega
        have e2 : r = st.total_sizes.length := heq
        have e3 : ¬ st.total_sizes.length + 1 ≤ r := by omega
        have e4 : st.total_sizes.length ≤ r := by omega
        have e5 : r - st.total_sizes.length = 0 := by omega
        have e6 : st.total_sizes.length = r := by omega
        have e7 : st.total_sizes.getD r 0 = 0 :=
          List.getD_eq_default _ _ (by omega)
        rw [if_neg e1, if_pos e2, if_neg e3, if_pos e4, e5, e7, targets_cons_zero]
        unfold rootTarget
        by_cases hd : seedIsDir j e = true
        · rw [if_pos hd, if_pos e6]; omega
        · have hd' : seedIsDir j e = false := by
            cases hx : seedIsDir j e with
            | true => exact absurd hx hd
            | false => rfl
          rw [if_neg hd, seedIsDir_false_procOf j e hd']; omega
      · have h1 : ¬ r < st.total_sizes.length := by omega
        have h2 : st.total_sizes.length ≤ r := by omega
        have h3 : st.total_sizes.length + 1 ≤ r := by omega
        have h4 : r ≠ st.total_sizes.length := by omega
        have h5 : r - st.total_sizes.length = (r - (st.total_sizes.length + 1)) + 1 := by omega
        have h6 : st.total_sizes.length ≠ r := by omega
        have h7 : st.total_sizes.getD r 0 = 0 :=
          List.getD_eq_default _ _ (by omega)
        rw [if_neg h1, if_neg h4, if_pos h2, if_pos h3, h5, targets_cons_succ, h7]
        by_cases hd : seedIsDir j e = true
        · rw [if_pos hd, if_neg h6]; omega
        · rw [if_neg hd]; omega

/-- Conservation of the error flag through the seeding loop. -/
theorem seedLoop_err (j : Junk) :
    ∀ (es : List Entry) (id : Nat) (st : SeedSt),
      ((seedLoop j id es st).exit_status || queueErr (seedLoop j id es st).available_files)
        = (st.exit_status || queueErr st.available_files || es.any (rootErrT j))
  | [], id, st => by simp [seedLoop]
  | e :: es, id, st => by
      have ih := seedLoop_err j es (id + 1) (initialize_files j id e st)
      have hstep : seedLoop j id (e :: es) st
          = seedLoop j (id + 1) es (initialize_files j id e st) := by
        simp [seedLoop]
      rw [hstep, ih]
      have hx : (initialize_files j id e st).exit_status = (st.exit_status || seedErr e) := by
        simp [initialize_files]
      have hq : queueErr (initialize_files j id e st).available_files
          = ((seedIsDir j e && entryErr e) || queueErr st.available_files) := by
        by_cases hd : seedIsDir j e = true
        · simp [initialize_files, hd, set_available_file, queueErr]
        · have hd' : seedIsDir j e = false := by simp at hd; simp [hd]
          simp [initialize_files, hd', set_available_file, queueErr]
      rw [hx, hq]
      simp [rootErrT, List.any_cons]
      cases st.exit_status <;> cases seedErr e <;> cases seedIsDir j e <;>
        cases entryErr e <;> simp

/-- Updating one worker's program counter changes the rank sum by the difference of the two ranks. -/
theorem rankSum_update {K : Nat} (f : Fin K → Pc) (w : Fin K) (p : Pc) :
    rankSum (Function.update f w p) + rank K (f w) = rankSum f + rank K p := by
  have h1 : (fun v => rank K (Function.update f w p v))
      = Function.update (fun v => rank K (f v)) w (rank K p) := by
    funext v
    by_cases hv : v = w
    · subst hv; simp
    · simp [Function.update_noteq hv]
  unfold rankSum
  rw [h1, Finset.sum_update_of_mem (Finset.mem_univ w)]
  rw [← Finset.sum_erase_add Finset.univ _ (Finset.mem_univ w)]
  simp [Finset.sdiff_singleton_eq_erase]
  omega

/-- Every step of the pool strictly decreases the termination measure, so no execution (under any scheduler) can be infinite. -/
theorem mu_lt_of_step {K : Nat} {s s' : St K} (h : Step s s') : mu s' < mu s := by
  cases h with
  | lockAcq w hpc hl =>
      have hr := rankSum_update s.pcs w .markIdle
      rw [hpc] at hr
      simp only [mu, rank] at hr ⊢
      omega
  | markIdleStep w hpc =>
      have hr := rankSum_update s.pcs w .checkNr
      rw [hpc] at hr
      simp only [mu, rank] at hr ⊢
      omega
  | checkNrZero w hpc h0 =>
      have hr := rankSum_update s.pcs w .setDone
      rw [hpc] at hr
      simp only [mu, rank] at hr ⊢
      omega
  | checkNrPos w hpc h0 =>
      have hr := rankSum_update s.pcs w .unlockW
      rw [hpc] at hr
      simp only [mu, rank] at hr ⊢
      omega
  | setDoneStep w hpc =>
      have hr := rankSum_update s.pcs w (.scan 0)
      rw [hpc] at hr
      simp only [mu, rank] at hr ⊢
      omega
  | scanTrue w i hpc hi ht =>
      have hr := rankSum_update s.pcs w (.scan (i + 1))
      rw [hpc] at hr
      simp only [mu, rank] at hr ⊢
      omega
  | scanFalse w i hpc hi hf =>
      have hr := rankSum_update s.pcs w .resetDone
      rw [hpc] at hr
      simp only [mu, rank] at hr ⊢
      omega
  | scanDone w hpc =>
      have hr := rankSum_update s.pcs w (.declare 0)
      rw [hpc] at hr
      simp only [mu, rank] at hr ⊢
      omega
  | declarePost w i hpc hi =>
      have hr := rankSum_update s.pcs w (.declare (i + 1))
      rw [hpc] at hr
      simp only [mu, rank] at hr ⊢
      omega
  | declareFin w hpc =>
      have hr := rankSum_update s.pcs w .unlockT
      rw [hpc] at hr
      simp only [mu, rank] at hr ⊢
      omega
  | unlockTStep w hpc =>
      have hr := rankSum_update s.pcs w .term
      rw [hpc] at hr
      simp only [mu, rank] at hr ⊢
      omega
  | resetDoneStep w hpc =>
      have hr := rankSum_update s.pcs w .unlockW
      rw [hpc] at hr
      simp only [mu, rank] at hr ⊢
      omega
  | unlockWStep w hpc =>
      have hr := rankSum_update s.pcs w .wait
      rw [hpc] at hr
      simp only [mu, rank] at hr ⊢
      omega
  | semWait w hpc hs =>
      have hr := rankSum_update s.pcs w .checkDone
      rw [hpc] at hr
      simp only [mu, rank] at hr ⊢
      omega
  | checkDoneTrue w hpc hd =>
      have hr := rankSum_update s.pcs w .term
      rw [hpc] at hr
      simp only [mu, rank] at hr ⊢
      omega
  | checkDoneFalse w hpc hd =>
      have hr := rankSum_update s.pcs w .markBusy
      rw [hpc] at hr
      simp only [mu, rank] at hr ⊢
      omega
  | markBusyStep w hpc =>
      have hr := rankSum_update s.pcs w .pop
      rw [hpc] at hr
      simp only [mu, rank] at hr ⊢
      omega
  | popDir w r n b co es rest hpc hl hq =>
      have hr := rankSum_update s.pcs w (.work r es 0 co)
      rw [hpc] at hr
      simp only [mu, rank, hq, qListW, qW] at hr ⊢
      omega
  | popDirFail w r n b ro oo co es rest hpc hl hq hbad =>
      have hr := rankSum_update s.pcs w (.errItem r)
      rw [hpc] at hr
      simp only [mu, rank, hq, qListW, qW] at hr ⊢
      omega
  | popStatFail w r n rest hpc hl hq =>
      have hr := rankSum_update s.pcs w (.errItem r)
      rw [hpc] at hr
      simp only [mu, rank, hq, qListW, qW] at hr ⊢
      omega
  | workFile w r n b rem acc c hpc =>
      have hr := rankSum_update s.pcs w (.work r rem (acc + b) c)
      rw [hpc] at hr
      simp only [mu, rank, lW, eW] at hr ⊢
      omega
  | workStatFail w r n rem acc c hpc =>
      have hr := rankSum_update s.pcs w (.work r rem acc c)
      rw [hpc] at hr
      simp only [mu, rank, lW, eW] at hr ⊢
      omega
  | workPush w r n b ro oo co es rem acc c hpc hl =>
      have hr := rankSum_update s.pcs w (.postPending r rem (acc + b) c)
      rw [hpc] at hr
      simp only [mu, rank, lW, eW, set_available_file, qListW, qW] at hr ⊢
      omega
  | postStep w r rem acc c hpc =>
      have hr := rankSum_update s.pcs w (.work r rem acc c)
      rw [hpc] at hr
      simp only [mu, rank] at hr ⊢
      omega
  | workClose w r acc hpc =>
      have hr := rankSum_update s.pcs w (.addSize r acc)
      rw [hpc] at hr
      simp only [mu, rank, lW] at hr ⊢
      omega
  | workCloseFail w r acc hpc =>
      have hr := rankSum_update s.pcs w (.errClose r acc)
      rw [hpc] at hr
      simp only [mu, rank, lW] at hr ⊢
      omega
  | errCloseStep w r acc hpc =>
      have hr := rankSum_update s.pcs w (.addSize r acc)
      rw [hpc] at hr
      simp only [mu, rank] at hr ⊢
      omega
  | errItemStep w r hpc =>
      have hr := rankSum_update s.pcs w (.addSize r 0)
      rw [hpc] at hr
      simp only [mu, rank] at hr ⊢
      omega
  | addSizeStep w r acc hpc =>
      have hr := rankSum_update s.pcs w .lock
      rw [hpc] at hr
      simp only [mu, rank] at hr ⊢
      omega

/-- Updating one worker's program counter changes any indicator sum by the difference of the two indicator values. -/
theorem sum_update_nat {K : Nat} (g : Pc → Nat) (f : Fin K → Pc) (w : Fin K) (p : Pc) :
    (Finset.univ.sum fun v => g (Function.update f w p v)) + g (f w)
      = (Finset.univ.sum fun v => g (f v)) + g p := by
  have h1 : (fun v => g (Function.update f w p v))
      = Function.update (fun v => g (f v)) w (g p) := by
    funext v
    by_cases hv : v = w
    · subst hv; simp
    · simp [Function.update_noteq hv]
  rw [h1, Finset.sum_update_of_mem (Finset.mem_univ w)]
  rw [← Finset.sum_erase_add Finset.univ _ (Finset.mem_univ w)]
  simp [Finset.sdiff_singleton_eq_erase]
  omega

/-- One worker's indicator value is at most the indicator sum over all workers. -/
theorem term_le_sum {K : Nat} (g : Pc → Nat) (f : Fin K → Pc) (w : Fin K) :
    g (f w) ≤ Finset.univ.sum fun v => g (f v) :=
  Finset.single_le_sum (fun i _ => Nat.zero_le (g (f i))) (Finset.mem_univ w)

/-- If any worker sits at a program counter outside the post-declaration set, no worker has begun declaring termination. -/
theorem noDecl_of_nonW {K : Nat} {j : Junk} {roots : List Entry} {s : St K}
    (h : Inv K j roots s) (w : Fin K) (hw : ¬ WPc (s.pcs w)) : NoDecl s :=
  fun u hu => hw ((h.ts u hu).1 w)

/-- Two workers inside the available_lock critical section are the same worker. -/
theorem cs_eq {K : Nat} {j : Junk} {roots : List Entry} {s : St K}
    (h : Inv K j roots s) {w v : Fin K}
    (hw : CSPc (s.pcs w)) (hv : CSPc (s.pcs v)) : w = v := by
  have h1 := h.lk2 w hw
  have h2 := h.lk2 v hv
  rw [h1] at h2
  exact Option.some.inj h2.symm |>.symm

/-- Before any declaration, an empty queue forces the semaphore to zero and every worker out of the window between sem_wait and pop and out of a pending post. -/
theorem empty_tokens {K : Nat} {j : Junk} {roots : List Entry} {s : St K}
    (h : Inv K j roots s) (hnd : NoDecl s) (hqe : s.available_files = []) :
    s.available_sem = 0 ∧ ∀ v, winInd (s.pcs v) = 0 ∧ pendInd (s.pcs v) = 0 := by
  have ht := h.tokens hnd
  rw [hqe] at ht
  simp only [List.length_nil] at ht
  constructor
  · omega
  · intro v
    have h1 := term_le_sum winInd s.pcs v
    have h2 := term_le_sum pendInd s.pcs v
    unfold winCount pendCount at ht
    omega

/-- Updating one worker's program counter leaves an indicator sum unchanged when the indicator agrees on the old and new program counter. -/
theorem sum_update_eq {K : Nat} (g : Pc → Nat) (f : Fin K → Pc) (w : Fin K) (p : Pc)
    (hg : g p = g (f w)) :
    (Finset.univ.sum fun v => g (Function.update f w p v))
      = Finset.univ.sum fun v => g (f v) := by
  have h := sum_update_nat g f w p
  omega

/-- Transfer of the done_threads interpretation across a program-counter update that preserves idleness. -/
theorem dt_transfer {K : Nat} {g : Fin K → Bool} {f : Fin K → Pc}
    (hdt : ∀ v, g v = true ↔ IdlePc (f v)) (w : Fin K) (p : Pc)
    (hp : IdlePc p ↔ IdlePc (f w)) :
    ∀ v, g v = true ↔ IdlePc (Function.update f w p v) := by
  intro v
  by_cases hv : v = w
  · subst hv
    rw [Function.update_same]
    exact (hdt v).trans hp.symm
  · rw [Function.update_noteq hv]
    exact hdt v

/-- Transfer of the source-of-done disjunction across a program-counter update. -/
theorem doneSrc_transfer {K : Nat} {f : Fin K → Pc} (w : Fin K) (p : Pc)
    (h : (∃ v, ScanLike (f v)) ∨ (∃ v, f v = .term))
    (hw : (ScanLike (f w) ∨ f w = .term) → (ScanLike p ∨ p = .term)) :
    (∃ v, ScanLike (Function.update f w p v)) ∨
      (∃ v, Function.update f w p v = .term) := by
  rcases h with ⟨v, hv⟩ | ⟨v, hv⟩
  · by_cases hvw : v = w
    · subst hvw
      rcases hw (Or.inl hv) with hp | hp
      · exact Or.inl ⟨v, by rwa [Function.update_same]⟩
      · exact Or.inr ⟨v, by rwa [Function.update_same]⟩
    · exact Or.inl ⟨v, by rwa [Function.update_noteq hvw]⟩
  · by_cases hvw : v = w
    · subst hvw
      rcases hw (Or.inr hv) with hp | hp
      · exact Or.inl ⟨v, by rwa [Function.update_same]⟩
      · exact Or.inr ⟨v, by rwa [Function.update_same]⟩
    · exact Or.inr ⟨v, by rwa [Function.update_noteq hvw]⟩

/-- Splitting an existential over workers at the updated worker. -/
theorem exists_bool_update {K : Nat} (g : Pc → Bool) (f : Fin K → Pc) (w : Fin K) (p : Pc) :
    (∃ v, g (Function.update f w p v) = true) ↔
      (g p = true ∨ ∃ v, v ≠ w ∧ g (f v) = true) := by
  constructor
  · rintro ⟨v, hv⟩
    by_cases hvw : v = w
    · subst hvw
      rw [Function.update_same] at hv
      exact Or.inl hv
    · rw [Function.update_noteq hvw] at hv
      exact Or.inr ⟨v, hvw, hv⟩
  · rintro (hp | ⟨v, hvw, hv⟩)
    · exact ⟨w, by rwa [Function.update_same]⟩
    · exact ⟨v, by rwa [Function.update_noteq hvw]⟩

/-- Splitting an existential over workers at a distinguished worker. -/
theorem exists_bool_split {K : Nat} (g : Pc → Bool) (f : Fin K → Pc) (w : Fin K) :
    (∃ v, g (f v) = true) ↔ (g (f w) = true ∨ ∃ v, v ≠ w ∧ g (f v) = true) := by
  constructor
  · rintro ⟨v, hv⟩
    by_cases hvw : v = w
    · subst hvw; exact Or.inl hv
    · exact Or.inr ⟨v, hvw, hv⟩
  · rintro (hp | ⟨v, hvw, hv⟩)
    · exact ⟨w, hp⟩
    · exact ⟨v, hv⟩

/-- A worker existential is unchanged by a program-counter update that preserves the tested value. -/
theorem exists_update_congr {K : Nat} (g : Pc → Bool) (f : Fin K → Pc) (w : Fin K) (p : Pc)
    (h : g p = g (f w)) :
    (∃ v, g (Function.update f w p v) = true) ↔ (∃ v, g (f v) = true) := by
  rw [exists_bool_update, exists_bool_split g f w, h]

/-- NoDecl is unchanged by a program-counter update that preserves declaration status. -/
theorem noDecl_update_congr {K : Nat} (f : Fin K → Pc) (w : Fin K) (p : Pc)
    (h : DeclPc p ↔ DeclPc (f w)) :
    (∀ v, ¬ DeclPc (Function.update f w p v)) ↔ (∀ v, ¬ DeclPc (f v)) := by
  constructor
  · intro ha v
    by_cases hvw : v = w
    · subst hvw
      intro hd
      exact ha v (by rwa [Function.update_same, h])
    · have := ha v
      rwa [Function.update_noteq hvw] at this
  · intro ha v
    by_cases hvw : v = w
    · subst hvw
      rw [Function.update_same]
      intro hd
      exact ha v (h.mp hd)
    · rw [Function.update_noteq hvw]
      exact ha v

/--
Master preservation lemma for the purely thread-local expansion steps: a
step that replaces one worker's busy program counter by another busy one,
possibly raising exit_status, and touches nothing else, preserves the
invariant provided it keeps the worker's per-root holdings and transfers
its pending error correctly.
-/
theorem inv_localStep {K : Nat} {j : Junk} {roots : List Entry} {s : St K}
    (h : Inv K j roots s) (w : Fin K) (p : Pc) (e : Bool)
    (hbo : BusyPc K (s.pcs w)) (hbn : BusyPc K p)
    (hwr : ∀ r', wRest r' p = wRest r' (s.pcs w))
    (herr : (e = s.exit_status ∧ wErr p = wErr (s.pcs w)) ∨
      (e = true ∧ wErr (s.pcs w) = true)) :
    Inv K j roots { s with exit_status := e, pcs := Function.update s.pcs w p } := by
  obtain ⟨ho1, ho2, ho3, ho4, ho5, ho6, ho7, ho8, ho9⟩ := hbo
  obtain ⟨hn1, hn2, hn3, hn4, hn5, hn6, hn7, hn8, hn9⟩ := hbn
  have hnd : NoDecl s := noDecl_of_nonW h w ho4
  have hndt : ∀ v, ¬ DeclPc (Function.update s.pcs w p v) := by
    intro v
    by_cases hvw : v = w
    · subst hvw; rwa [Function.update_same]
    · rw [Function.update_noteq hvw]; exact hnd v
  have hlk1 : ∀ v, s.lockHolder = some v → CSPc (Function.update s.pcs w p v) := by
    intro v hv
    have hcs := h.lk1 v hv
    by_cases hvw : v = w
    · subst hvw; exact absurd hcs ho2
    · rwa [Function.update_noteq hvw]
  have hlk2 : ∀ v, CSPc (Function.update s.pcs w p v) → s.lockHolder = some v := by
    intro v hv
    by_cases hvw : v = w
    · subst hvw
      rw [Function.update_same] at hv
      exact absurd hv hn2
    · rw [Function.update_noteq hvw] at hv
      exact h.lk2 v hv
  have htok : (∀ v, ¬ DeclPc (Function.update s.pcs w p v)) →
      s.available_sem + pendCount (Function.update s.pcs w p)
        + winCount (Function.update s.pcs w p) = s.available_files.length := by
    intro _
    have h1 : winCount (Function.update s.pcs w p) = winCount s.pcs := by
      unfold winCount
      exact sum_update_eq winInd s.pcs w p (by omega)
    have h2 : pendCount (Function.update s.pcs w p) = pendCount s.pcs := by
      unfold pendCount
      exact sum_update_eq pendInd s.pcs w p (by omega)
    rw [h1, h2]
    exact h.tokens hnd
  have hscanF : ∀ v i, Function.update s.pcs w p v = .scan i →
      i ≤ K ∧ s.available_files = [] ∧ s.done = true ∧
      ∀ u : Fin K, (u : Nat) < i → s.done_threads u = true := by
    intro v i hv
    by_cases hvw : v = w
    · subst hvw
      rw [Function.update_same] at hv
      exact absurd (show CSPc p by rw [hv]; trivial) hn2
    · rw [Function.update_noteq hvw] at hv
      exact h.scanF v i hv
  have hsetDoneF : ∀ v, Function.update s.pcs w p v = .setDone →
      s.available_files = [] := by
    intro v hv
    by_cases hvw : v = w
    · subst hvw
      rw [Function.update_same] at hv
      exact absurd (show CSPc p by rw [hv]; trivial) hn2
    · rw [Function.update_noteq hvw] at hv
      exact h.setDoneF v hv
  have hdeclF : ∀ v i, Function.update s.pcs w p v = .declare i → i ≤ K := by
    intro v i hv
    by_cases hvw : v = w
    · subst hvw
      rw [Function.update_same] at hv
      exact absurd (show CSPc p by rw [hv]; trivial) hn2
    · rw [Function.update_noteq hvw] at hv
      exact h.declF v i hv
  have hrdF : ∀ v, Function.update s.pcs w p v = .resetDone →
      s.available_files = [] ∧ ∃ u, s.done_threads u = false := by
    intro v hv
    by_cases hvw : v = w
    · subst hvw
      rw [Function.update_same] at hv
      exact absurd (show CSPc p by rw [hv]; trivial) hn2
    · rw [Function.update_noteq hvw] at hv
      exact h.rdF v hv
  have huwF : ∀ v, Function.update s.pcs w p v = .unlockW →
      s.available_files ≠ [] ∨ ∃ u, s.done_threads u = false := by
    intro v hv
    by_cases hvw : v = w
    · subst hvw
      rw [Function.update_same] at hv
      exact absurd (show CSPc p by rw [hv]; trivial) hn2
    · rw [Function.update_noteq hvw] at hv
      exact h.uwF v hv
  have hdoneSrc : s.done = true →
      (∃ v, ScanLike (Function.update s.pcs w p v)) ∨
        (∃ v, Function.update s.pcs w p v = .term) := by
    intro hd
    exact doneSrc_transfer w p (h.doneSrc hd)
      (fun hx => absurd hx (by
        rintro (hs | ht)
        · exact ho5 hs
        · exact ho3 (by rw [ht]; trivial)))
  have hns : (∀ v, Function.update s.pcs w p v = .wait) →
      s.available_files ≠ [] ∨ s.available_sem ≠ 0 := by
    intro hall
    have hww := hall w
    rw [Function.update_same] at hww
    rw [hww] at hn8
    simp [waitInd] at hn8
  have hacc : ∀ r', s.total_sizes r' + queueSum r' s.available_files
      + workerSum r' (Function.update s.pcs w p) = targets j roots r' := by
    intro r'
    have hws : workerSum r' (Function.update s.pcs w p) = workerSum r' s.pcs := by
      unfold workerSum
      exact sum_update_eq (wRest r') s.pcs w p (hwr r')
    rw [hws]
    exact h.acc r'
  have herrI : (e = true ∨ queueErr s.available_files = true ∨
        ∃ v, wErr (Function.update s.pcs w p v) = true) ↔
      targetErr j roots = true := by
    rcases herr with ⟨he, hwe⟩ | ⟨he, hwe⟩
    · subst he
      have hcong := exists_update_congr wErr s.pcs w p hwe
      constructor
      · rintro (hx | hx | hx)
        · exact h.errI.mp (Or.inl hx)
        · exact h.errI.mp (Or.inr (Or.inl hx))
        · exact h.errI.mp (Or.inr (Or.inr (hcong.mp hx)))
      · intro ht
        rcases h.errI.mpr ht with hx | hx | hx
        · exact Or.inl hx
        · exact Or.inr (Or.inl hx)
        · exact Or.inr (Or.inr (hcong.mpr hx))
    · subst he
      constructor
      · intro _
        exact h.errI.mp (Or.inr (Or.inr ⟨w, hwe⟩))
      · intro _
        exact Or.inl rfl
  have hdcl0 : s.declares = 0 ↔ (∀ v, ¬ DeclPc (Function.update s.pcs w p v)) := by
    rw [noDecl_update_congr s.pcs w p (iff_of_false hn3 ho3)]
    exact h.dcl0
  exact
    { hK := h.hK
      nrEq := h.nrEq
      qshape := h.qshape
      dt := dt_transfer h.dt w p (iff_of_false hn1 ho1)
      lk1 := hlk1
      lk2 := hlk2
      tokens := htok
      scanF := hscanF
      setDoneF := hsetDoneF
      declF := hdeclF
      rdF := hrdF
      uwF := huwF
      doneSrc := hdoneSrc
      ts := fun u hu => absurd hu (hndt u)
      dinv := fun u hu => absurd hu (hndt u)
      ns := hns
      acc := hacc
      errI := herrI
      ghost := h.ghost
      dcl0 := hdcl0
      dcl1 := h.dcl1 }

/-- Transfer of the five critical-section pc facts across an update whose new program counter is none of the five shapes, when queue, done and done_threads are unchanged. -/
theorem five_transfer {K : Nat} {j : Junk} {roots : List Entry} {s : St K}
    (h : Inv K j roots s) (w : Fin K) (p : Pc)
    (h1 : ∀ i, p ≠ .scan i) (h2 : p ≠ .setDone) (h3 : ∀ i, p ≠ .declare i)
    (h4 : p ≠ .resetDone) (h5 : p ≠ .unlockW) :
    (∀ v i, Function.update s.pcs w p v = .scan i →
        i ≤ K ∧ s.available_files = [] ∧ s.done = true ∧
        ∀ u : Fin K, (u : Nat) < i → s.done_threads u = true) ∧
    (∀ v, Function.update s.pcs w p v = .setDone → s.available_files = []) ∧
    (∀ v i, Function.update s.pcs w p v = .declare i → i ≤ K) ∧
    (∀ v, Function.update s.pcs w p v = .resetDone →
        s.available_files = [] ∧ ∃ u, s.done_threads u = false) ∧
    (∀ v, Function.update s.pcs w p v = .unlockW →
        s.available_files ≠ [] ∨ ∃ u, s.done_threads u = false) := by
  refine ⟨?_, ?_, ?_, ?_, ?_⟩
  · intro v i hv
    by_cases hvw : v = w
    · subst hvw; rw [Function.update_same] at hv; exact absurd hv (h1 i)
    · rw [Function.update_noteq hvw] at hv; exact h.scanF v i hv
  · intro v hv
    by_cases hvw : v = w
    · subst hvw; rw [Function.update_same] at hv; exact absurd hv h2
    · rw [Function.update_noteq hvw] at hv; exact h.setDoneF v hv
  · intro v i hv
    by_cases hvw : v = w
    · subst hvw; rw [Function.update_same] at hv; exact absurd hv (h3 i)
    · rw [Function.update_noteq hvw] at hv; exact h.declF v i hv
  · intro v hv
    by_cases hvw : v = w
    · subst hvw; rw [Function.update_same] at hv; exact absurd hv h4
    · rw [Function.update_noteq hvw] at hv; exact h.rdF v hv
  · intro v hv
    by_cases hvw : v = w
    · subst hvw; rw [Function.update_same] at hv; exact absurd hv h5
    · rw [Function.update_noteq hvw] at hv; exact h.uwF v hv

/-- When nobody holds available_lock, no worker is inside the critical section. -/
theorem five_noCS {K : Nat} {j : Junk} {roots : List Entry} {s : St K}
    (h : Inv K j roots s) (hl : s.lockHolder = none) :
    ∀ v, ¬ CSPc (s.pcs v) := by
  intro v hv
  have := h.lk2 v hv
  rw [hl] at this
  cases this

/-- No other worker shares the critical section with its holder. -/
theorem cs_only {K : Nat} {j : Junk} {roots : List Entry} {s : St K}
    (h : Inv K j roots s) {w : Fin K} (hw : CSPc (s.pcs w)) :
    ∀ v, v ≠ w → ¬ CSPc (s.pcs v) :=
  fun v hv hcs => hv (cs_eq h hcs hw)

/-- Token conservation carries over any update preserving the two window indicators, before declarations. -/
theorem counts_transfer {K : Nat} {j : Junk} {roots : List Entry} {s : St K}
    (h : Inv K j roots s) (w : Fin K) (p : Pc)
    (hwin : winInd p = winInd (s.pcs w)) (hpend : pendInd p = pendInd (s.pcs w))
    (hnd : NoDecl s) :
    (∀ v, ¬ DeclPc (Function.update s.pcs w p v)) →
      s.available_sem + pendCount (Function.update s.pcs w p)
        + winCount (Function.update s.pcs w p) = s.available_files.length := by
  intro _
  rw [show winCount (Function.update s.pcs w p) = winCount s.pcs from
      sum_update_eq winInd s.pcs w p hwin,
    show pendCount (Function.update s.pcs w p) = pendCount s.pcs from
      sum_update_eq pendInd s.pcs w p hpend]
  exact h.tokens hnd

/-- Per-root accounting carries over any update preserving the worker's per-root holdings. -/
theorem acc_transfer {K : Nat} {j : Junk} {roots : List Entry} {s : St K}
    (h : Inv K j roots s) (w : Fin K) (p : Pc)
    (hp : ∀ r', wRest r' p = wRest r' (s.pcs w)) :
    ∀ r', s.total_sizes r' + queueSum r' s.available_files
      + workerSum r' (Function.update s.pcs w p) = targets j roots r' := by
  intro r'
  rw [show workerSum r' (Function.update s.pcs w p) = workerSum r' s.pcs from
    sum_update_eq (wRest r') s.pcs w p (hp r')]
  exact h.acc r'

/-- Error accounting carries over any update preserving the worker's pending error. -/
theorem errI_transfer {K : Nat} {j : Junk} {roots : List Entry} {s : St K}
    (h : Inv K j roots s) (w : Fin K) (p : Pc)
    (hp : wErr p = wErr (s.pcs w)) :
    (s.exit_status = true ∨ queueErr s.available_files = true ∨
        ∃ v, wErr (Function.update s.pcs w p v) = true) ↔
      targetErr j roots = true := by
  rw [exists_update_congr wErr s.pcs w p hp]
  exact h.errI

/-- The declaration-count fact carries over any update preserving declaration status. -/
theorem dcl0_transfer {K : Nat} {j : Junk} {roots : List Entry} {s : St K}
    (h : Inv K j roots s) (w : Fin K) (p : Pc)
    (hp : DeclPc p ↔ DeclPc (s.pcs w)) :
    s.declares = 0 ↔ ∀ v, ¬ DeclPc (Function.update s.pcs w p v) := by
  rw [noDecl_update_congr s.pcs w p hp]
  exact h.dcl0

/-- No worker declares after an update to a non-declaring program counter, when none did before. -/
theorem ndt_of {K : Nat} {s : St K} (hnd : NoDecl s) (w : Fin K) (p : Pc)
    (hp : ¬ DeclPc p) :
    ∀ v, ¬ DeclPc (Function.update s.pcs w p v) := by
  intro v
  by_cases hvw : v = w
  · subst hvw; rwa [Function.update_same]
  · rw [Function.update_noteq hvw]; exact hnd v

/-- When no other worker is in the critical section, any worker found at a critical-section program counter after the update is the mover itself. -/
theorem shape_absent {K : Nat} (f : Fin K → Pc) (w : Fin K) (p : Pc)
    (hnone : ∀ v, v ≠ w → ¬ CSPc (f v)) :
    ∀ v q, Function.update f w p v = q → CSPc q → v = w ∧ p = q := by
  intro v q hv hq
  by_cases hvw : v = w
  · subst hvw
    rw [Function.update_same] at hv
    exact ⟨rfl, hv⟩
  · rw [Function.update_noteq hvw] at hv
    exact absurd (show CSPc (f v) by rw [hv]; exact hq) (hnone v hvw)

/-- The all-blocked exclusion is vacuous after any update placing the mover at a non-wait program counter. -/
theorem ns_of_nonwait {K : Nat} {s : St K} (w : Fin K) (p : Pc) (hp : p ≠ .wait) :
    (∀ v, Function.update s.pcs w p v = .wait) →
      s.available_files ≠ [] ∨ s.available_sem ≠ 0 := by
  intro hall
  have hww := hall w
  rw [Function.update_same] at hww
  exact absurd hww hp

/-- From an all-at-wait assumption over an update placing the mover at a non-wait program counter, anything follows. -/
theorem ns_any {K : Nat} (f : Fin K → Pc) (w : Fin K) (p : Pc) (hp : p ≠ .wait) {C : Prop}
    (hall : ∀ v, Function.update f w p v = .wait) : C := by
  have hww := hall w
  rw [Function.update_same] at hww
  exact absurd hww hp

/-- Mutual exclusion carries over any update preserving critical-section membership, when the lock holder is unchanged. -/
theorem lk_transfer {K : Nat} {j : Junk} {roots : List Entry} {s : St K}
    (h : Inv K j roots s) (w : Fin K) (p : Pc)
    (hp : CSPc p ↔ CSPc (s.pcs w)) :
    (∀ v, s.lockHolder = some v → CSPc (Function.update s.pcs w p v)) ∧
    (∀ v, CSPc (Function.update s.pcs w p v) → s.lockHolder = some v) := by
  constructor
  · intro v hv
    by_cases hvw : v = w
    · subst hvw
      rw [Function.update_same]
      exact hp.mpr (h.lk1 v hv)
    · rw [Function.update_noteq hvw]
      exact h.lk1 v hv
  · intro v hv
    by_cases hvw : v = w
    · subst hvw
      rw [Function.update_same] at hv
      exact h.lk2 v (hp.mp hv)
    · rw [Function.update_noteq hvw] at hv
      exact h.lk2 v hv

/-- Preservation for the lock acquisition at the loop head (line 150). -/
theorem inv_lockAcq {K : Nat} {j : Junk} {roots : List Entry} {s : St K}
    (h : Inv K j roots s) (w : Fin K)
    (hpc : s.pcs w = .lock) (hl : s.lockHolder = none) :
    Inv K j roots
      { s with lockHolder := some w, pcs := Function.update s.pcs w .markIdle } := by
  have hnd : NoDecl s := noDecl_of_nonW h w (by rw [hpc]; simp [WPc])
  have hfive := five_transfer h w .markIdle (by simp) (by simp) (by simp) (by simp) (by simp)
  have hndt := ndt_of hnd w .markIdle (by simp [DeclPc])
  have hlk1 : ∀ v, (some w : Option (Fin K)) = some v →
      CSPc (Function.update s.pcs w .markIdle v) := by
    intro v hv
    have hvw : w = v := Option.some.inj hv
    subst hvw
    rw [Function.update_same]
    trivial
  have hlk2 : ∀ v, CSPc (Function.update s.pcs w .markIdle v) →
      (some w : Option (Fin K)) = some v := by
    intro v hv
    by_cases hvw : v = w
    · subst hvw; rfl
    · rw [Function.update_noteq hvw] at hv
      have h2 := h.lk2 v hv
      rw [hl] at h2
      cases h2
  have hds : s.done = true →
      (∃ v, ScanLike (Function.update s.pcs w .markIdle v)) ∨
        (∃ v, Function.update s.pcs w .markIdle v = .term) := by
    intro hd
    refine doneSrc_transfer w _ (h.doneSrc hd) ?_
    rw [hpc]
    rintro (hx | hx) <;> simp [ScanLike] at hx
  have hns : (∀ v, Function.update s.pcs w .markIdle v = .wait) →
      s.available_files ≠ [] ∨ s.available_sem ≠ 0 := by
    intro hall
    have hww := hall w
    rw [Function.update_same] at hww
    exact Pc.noConfusion hww
  exact
    { hK := h.hK
      nrEq := h.nrEq
      qshape := h.qshape
      dt := dt_transfer h.dt w .markIdle (by rw [hpc]; simp [IdlePc])
      lk1 := hlk1
      lk2 := hlk2
      tokens := counts_transfer h w .markIdle (by rw [hpc]; simp [winInd])
        (by rw [hpc]; simp [pendInd]) hnd
      scanF := hfive.1
      setDoneF := hfive.2.1
      declF := hfive.2.2.1
      rdF := hfive.2.2.2.1
      uwF := hfive.2.2.2.2
      doneSrc := hds
      ts := fun u hu => absurd hu (hndt u)
      dinv := fun u hu => absurd hu (hndt u)
      ns := hns
      acc := acc_transfer h w .markIdle (by intro r'; rw [hpc]; simp [wRest])
      errI := errI_transfer h w .markIdle (by rw [hpc]; simp [wErr])
      ghost := h.ghost
      dcl0 := dcl0_transfer h w .markIdle (by rw [hpc]; simp [DeclPc])
      dcl1 := h.dcl1 }

/-- Preservation for the done_threads write at line 151. -/
theorem inv_markIdle {K : Nat} {j : Junk} {roots : List Entry} {s : St K}
    (h : Inv K j roots s) (w : Fin K) (hpc : s.pcs w = .markIdle) :
    Inv K j roots
      { s with done_threads := Function.update s.done_threads w true
               pcs := Function.update s.pcs w .checkNr } := by
  have hcsw : CSPc (s.pcs w) := by rw [hpc]; trivial
  have hnd : NoDecl s := noDecl_of_nonW h w (by rw [hpc]; simp [WPc])
  have hsa := shape_absent s.pcs w .checkNr (cs_only h hcsw)
  have hndt := ndt_of hnd w .checkNr (by simp [DeclPc])
  have hdt : ∀ v, Function.update s.done_threads w true v = true ↔
      IdlePc (Function.update s.pcs w .checkNr v) := by
    intro v
    by_cases hvw : v = w
    · subst hvw
      rw [Function.update_same, Function.update_same]
      simp [IdlePc]
    · rw [Function.update_noteq hvw, Function.update_noteq hvw]
      exact h.dt v
  have hds : s.done = true →
      (∃ v, ScanLike (Function.update s.pcs w .checkNr v)) ∨
        (∃ v, Function.update s.pcs w .checkNr v = .term) := by
    intro hd
    refine doneSrc_transfer w _ (h.doneSrc hd) ?_
    rw [hpc]
    rintro (hx | hx) <;> simp [ScanLike] at hx
  have hlk := lk_transfer h w .checkNr (by rw [hpc]; simp [CSPc])
  exact
    { hK := h.hK
      nrEq := h.nrEq
      qshape := h.qshape
      dt := hdt
      lk1 := hlk.1
      lk2 := hlk.2
      tokens := counts_transfer h w .checkNr (by rw [hpc]; simp [winInd])
        (by rw [hpc]; simp [pendInd]) hnd
      scanF := by
        intro v i hv
        obtain ⟨_, hpq⟩ := hsa v _ hv (by trivial)
        exact Pc.noConfusion hpq
      setDoneF := by
        intro v hv
        obtain ⟨_, hpq⟩ := hsa v _ hv (by trivial)
        exact Pc.noConfusion hpq
      declF := by
        intro v i hv
        obtain ⟨_, hpq⟩ := hsa v _ hv (by trivial)
        exact Pc.noConfusion hpq
      rdF := by
        intro v hv
        obtain ⟨_, hpq⟩ := hsa v _ hv (by trivial)
        exact Pc.noConfusion hpq
      uwF := by
        intro v hv
        obtain ⟨_, hpq⟩ := hsa v _ hv (by trivial)
        exact Pc.noConfusion hpq
      doneSrc := hds
      ts := fun u hu => absurd hu (hndt u)
      dinv := fun u hu => absurd hu (hndt u)
      ns := ns_of_nonwait w _ (by simp)
      acc := acc_transfer h w .checkNr (by intro r'; rw [hpc]; simp [wRest])
      errI := errI_transfer h w .checkNr (by rw [hpc]; simp [wErr])
      ghost := h.ghost
      dcl0 := dcl0_transfer h w .checkNr (by rw [hpc]; simp [DeclPc])
      dcl1 := h.dcl1 }

/-- Preservation for the nr_available_files == 0 branch at line 152. -/
theorem inv_checkNrZero {K : Nat} {j : Junk} {roots : List Entry} {s : St K}
    (h : Inv K j roots s) (w : Fin K) (hpc : s.pcs w = .checkNr)
    (h0 : s.nr_available_files = 0) :
    Inv K j roots { s with pcs := Function.update s.pcs w .setDone } := by
  have hqe : s.available_files = [] := by
    have hn := h.nrEq
    rw [h0] at hn
    have : s.available_files.length = 0 := by omega
    exact List.length_eq_zero.mp this
  have hcsw : CSPc (s.pcs w) := by rw [hpc]; trivial
  have hnd : NoDecl s := noDecl_of_nonW h w (by rw [hpc]; simp [WPc])
  have hsa := shape_absent s.pcs w .setDone (cs_only h hcsw)
  have hndt := ndt_of hnd w .setDone (by simp [DeclPc])
  have hds : s.done = true →
      (∃ v, ScanLike (Function.update s.pcs w .setDone v)) ∨
        (∃ v, Function.update s.pcs w .setDone v = .term) := by
    intro hd
    refine doneSrc_transfer w _ (h.doneSrc hd) ?_
    rw [hpc]
    rintro (hx | hx) <;> simp [ScanLike] at hx
  have hlk := lk_transfer h w .setDone (by rw [hpc]; simp [CSPc])
  exact
    { hK := h.hK
      nrEq := h.nrEq
      qshape := h.qshape
      dt := dt_transfer h.dt w .setDone (by rw [hpc]; simp [IdlePc])
      lk1 := hlk.1
      lk2 := hlk.2
      tokens := counts_transfer h w .setDone (by rw [hpc]; simp [winInd])
        (by rw [hpc]; simp [pendInd]) hnd
      scanF := by
        intro v i hv
        obtain ⟨_, hpq⟩ := hsa v _ hv (by trivial)
        exact Pc.noConfusion hpq
      setDoneF := fun v _ => hqe
      declF := by
        intro v i hv
        obtain ⟨_, hpq⟩ := hsa v _ hv (by trivial)
        exact Pc.noConfusion hpq
      rdF := by
        intro v hv
        obtain ⟨_, hpq⟩ := hsa v _ hv (by trivial)
        exact Pc.noConfusion hpq
      uwF := by
        intro v hv
        obtain ⟨_, hpq⟩ := hsa v _ hv (by trivial)
        exact Pc.noConfusion hpq
      doneSrc := hds
      ts := fun u hu => absurd hu (hndt u)
      dinv := fun u hu => absurd hu (hndt u)
      ns := ns_of_nonwait w _ (by simp)
      acc := acc_transfer h w .setDone (by intro r'; rw [hpc]; simp [wRest])
      errI := errI_transfer h w .setDone (by rw [hpc]; simp [wErr])
      ghost := h.ghost
      dcl0 := dcl0_transfer h w .setDone (by rw [hpc]; simp [DeclPc])
      dcl1 := h.dcl1 }

/-- Preservation for the nr_available_files != 0 branch at line 152 (heading for line 170). -/
theorem inv_checkNrPos {K : Nat} {j : Junk} {roots : List Entry} {s : St K}
    (h : Inv K j roots s) (w : Fin K) (hpc : s.pcs w = .checkNr)
    (h0 : s.nr_available_files ≠ 0) :
    Inv K j roots { s with pcs := Function.update s.pcs w .unlockW } := by
  have hne : s.available_files ≠ [] := by
    intro hq
    apply h0
    rw [h.nrEq, hq]
    rfl
  have hcsw : CSPc (s.pcs w) := by rw [hpc]; trivial
  have hnd : NoDecl s := noDecl_of_nonW h w (by rw [hpc]; simp [WPc])
  have hsa := shape_absent s.pcs w .unlockW (cs_only h hcsw)
  have hndt := ndt_of hnd w .unlockW (by simp [DeclPc])
  have hds : s.done = true →
      (∃ v, ScanLike (Function.update s.pcs w .unlockW v)) ∨
        (∃ v, Function.update s.pcs w .unlockW v = .term) := by
    intro hd
    refine doneSrc_transfer w _ (h.doneSrc hd) ?_
    rw [hpc]
    rintro (hx | hx) <;> simp [ScanLike] at hx
  have hlk := lk_transfer h w .unlockW (by rw [hpc]; simp [CSPc])
  exact
    { hK := h.hK
      nrEq := h.nrEq
      qshape := h.qshape
      dt := dt_transfer h.dt w .unlockW (by rw [hpc]; simp [IdlePc])
      lk1 := hlk.1
      lk2 := hlk.2
      tokens := counts_transfer h w .unlockW (by rw [hpc]; simp [winInd])
        (by rw [hpc]; simp [pendInd]) hnd
      scanF := by
        intro v i hv
        obtain ⟨_, hpq⟩ := hsa v _ hv (by trivial)
        exact Pc.noConfusion hpq
      setDoneF := by
        intro v hv
        obtain ⟨_, hpq⟩ := hsa v _ hv (by trivial)
        exact Pc.noConfusion hpq
      declF := by
        intro v i hv
        obtain ⟨_, hpq⟩ := hsa v _ hv (by trivial)
        exact Pc.noConfusion hpq
      rdF := by
        intro v hv
        obtain ⟨_, hpq⟩ := hsa v _ hv (by trivial)
        exact Pc.noConfusion hpq
      uwF := fun v _ => Or.inl hne
      doneSrc := hds
      ts := fun u hu => absurd hu (hndt u)
      dinv := fun u hu => absurd hu (hndt u)
      ns := ns_of_nonwait w _ (by simp)
      acc := acc_transfer h w .unlockW (by intro r'; rw [hpc]; simp [wRest])
      errI := errI_transfer h w .unlockW (by rw [hpc]; simp [wErr])
      ghost := h.ghost
      dcl0 := dcl0_transfer h w .unlockW (by rw [hpc]; simp [DeclPc])
      dcl1 := h.dcl1 }

/-- Preservation for the done := true write at line 153. -/
theorem inv_setDone {K : Nat} {j : Junk} {roots : List Entry} {s : St K}
    (h : Inv K j roots s) (w : Fin K) (hpc : s.pcs w = .setDone) :
    Inv K j roots { s with done := true, pcs := Function.update s.pcs w (.scan 0) } := by
  have hqe : s.available_files = [] := h.setDoneF w hpc
  have hcsw : CSPc (s.pcs w) := by rw [hpc]; trivial
  have hnd : NoDecl s := noDecl_of_nonW h w (by rw [hpc]; simp [WPc])
  have hsa := shape_absent s.pcs w (.scan 0) (cs_only h hcsw)
  have hndt := ndt_of hnd w (.scan 0) (by simp [DeclPc])
  have hlk := lk_transfer h w (.scan 0) (by rw [hpc]; simp [CSPc])
  have hwit : ScanLike (Function.update s.pcs w (.scan 0) w) := by
    rw [Function.update_same]
    trivial
  exact
    { hK := h.hK
      nrEq := h.nrEq
      qshape := h.qshape
      dt := dt_transfer h.dt w (.scan 0) (by rw [hpc]; simp [IdlePc])
      lk1 := hlk.1
      lk2 := hlk.2
      tokens := counts_transfer h w (.scan 0) (by rw [hpc]; simp [winInd])
        (by rw [hpc]; simp [pendInd]) hnd
      scanF := by
        intro v i hv
        obtain ⟨hvw, hpq⟩ := hsa v _ hv (by trivial)
        subst hvw
        have hi0 : i = 0 := by
          cases hpq
          rfl
        subst hi0
        exact ⟨Nat.zero_le K, hqe, rfl, fun u hu => absurd hu (Nat.not_lt_zero _)⟩
      setDoneF := fun v _ => hqe
      declF := by
        intro v i hv
        obtain ⟨_, hpq⟩ := hsa v _ hv (by trivial)
        exact Pc.noConfusion hpq
      rdF := by
        intro v hv
        obtain ⟨_, hpq⟩ := hsa v _ hv (by trivial)
        exact Pc.noConfusion hpq
      uwF := by
        intro v hv
        obtain ⟨_, hpq⟩ := hsa v _ hv (by trivial)
        exact Pc.noConfusion hpq
      doneSrc := fun _ => Or.inl ⟨w, hwit⟩
      ts := fun u hu => absurd hu (hndt u)
      dinv := fun u hu => absurd hu (hndt u)
      ns := ns_of_nonwait w _ (by simp)
      acc := acc_transfer h w (.scan 0) (by intro r'; rw [hpc]; simp [wRest])
      errI := errI_transfer h w (.scan 0) (by rw [hpc]; simp [wErr])
      ghost := h.ghost
      dcl0 := dcl0_transfer h w (.scan 0) (by rw [hpc]; simp [DeclPc])
      dcl1 := h.dcl1 }

/-- The wait indicator is at most one. -/
theorem waitInd_le_one (q : Pc) : waitInd q ≤ 1 := by
  cases q <;> simp [waitInd]

/-- The number of waiting workers is at most K. -/
theorem waitCount_le {K : Nat} (f : Fin K → Pc) : waitCount f ≤ K := by
  unfold waitCount
  calc (Finset.univ.sum fun v => waitInd (f v))
      ≤ Finset.univ.sum (fun _ : Fin K => 1) :=
        Finset.sum_le_sum (fun v _ => waitInd_le_one (f v))
    _ = K := by simp

/-- Preservation for a successful done_threads check in the scan loop (line 155). -/
theorem inv_scanTrue {K : Nat} {j : Junk} {roots : List Entry} {s : St K}
    (h : Inv K j roots s) (w : Fin K) (i : Nat)
    (hpc : s.pcs w = .scan i) (hi : i < K) (ht : s.done_threads ⟨i, hi⟩ = true) :
    Inv K j roots { s with pcs := Function.update s.pcs w (.scan (i + 1)) } := by
  obtain ⟨hiK, hqe, hdone, hpref⟩ := h.scanF w i hpc
  have hcsw : CSPc (s.pcs w) := by rw [hpc]; trivial
  have hnd : NoDecl s := noDecl_of_nonW h w (by rw [hpc]; simp [WPc])
  have hsa := shape_absent s.pcs w (.scan (i + 1)) (cs_only h hcsw)
  have hndt := ndt_of hnd w (.scan (i + 1)) (by simp [DeclPc])
  have hlk := lk_transfer h w (.scan (i + 1)) (by rw [hpc]; simp [CSPc])
  have hwit : ScanLike (Function.update s.pcs w (.scan (i + 1)) w) := by
    rw [Function.update_same]
    trivial
  exact
    { hK := h.hK
      nrEq := h.nrEq
      qshape := h.qshape
      dt := dt_transfer h.dt w (.scan (i + 1)) (by rw [hpc]; simp [IdlePc])
      lk1 := hlk.1
      lk2 := hlk.2
      tokens := counts_transfer h w (.scan (i + 1)) (by rw [hpc]; simp [winInd])
        (by rw [hpc]; simp [pendInd]) hnd
      scanF := by
        intro v i' hv
        obtain ⟨hvw, hpq⟩ := hsa v _ hv (by trivial)
        subst hvw
        obtain rfl := Pc.scan.inj hpq
        refine ⟨by omega, hqe, hdone, ?_⟩
        intro u hu
        by_cases hui : (u : Nat) < i
        · exact hpref u hui
        · have huv : (u : Nat) = i := by omega
          have hufin : u = ⟨i, hi⟩ := Fin.ext huv
          rw [hufin]
          exact ht
      setDoneF := fun v _ => hqe
      declF := by
        intro v i' hv
        obtain ⟨_, hpq⟩ := hsa v _ hv (by trivial)
        exact Pc.noConfusion hpq
      rdF := by
        intro v hv
        obtain ⟨_, hpq⟩ := hsa v _ hv (by trivial)
        exact Pc.noConfusion hpq
      uwF := by
        intro v hv
        obtain ⟨_, hpq⟩ := hsa v _ hv (by trivial)
        exact Pc.noConfusion hpq
      doneSrc := fun _ => Or.inl ⟨w, hwit⟩
      ts := fun u hu => absurd hu (hndt u)
      dinv := fun u hu => absurd hu (hndt u)
      ns := ns_of_nonwait w _ (by simp)
      acc := acc_transfer h w (.scan (i + 1)) (by intro r'; rw [hpc]; simp [wRest])
      errI := errI_transfer h w (.scan (i + 1)) (by rw [hpc]; simp [wErr])
      ghost := h.ghost
      dcl0 := dcl0_transfer h w (.scan (i + 1)) (by rw [hpc]; simp [DeclPc])
      dcl1 := h.dcl1 }

/-- Preservation for a failed done_threads check in the scan loop (heading for done := false). -/
theorem inv_scanFalse {K : Nat} {j : Junk} {roots : List Entry} {s : St K}
    (h : Inv K j roots s) (w : Fin K) (i : Nat)
    (hpc : s.pcs w = .scan i) (hi : i < K) (hf : s.done_threads ⟨i, hi⟩ = false) :
    Inv K j roots { s with pcs := Function.update s.pcs w .resetDone } := by
  obtain ⟨hiK, hqe, hdone, hpref⟩ := h.scanF w i hpc
  have hcsw : CSPc (s.pcs w) := by rw [hpc]; trivial
  have hnd : NoDecl s := noDecl_of_nonW h w (by rw [hpc]; simp [WPc])
  have hsa := shape_absent s.pcs w .resetDone (cs_only h hcsw)
  have hndt := ndt_of hnd w .resetDone (by simp [DeclPc])
  have hlk := lk_transfer h w .resetDone (by rw [hpc]; simp [CSPc])
  have hwit : ScanLike (Function.update s.pcs w .resetDone w) := by
    rw [Function.update_same]
    trivial
  exact
    { hK := h.hK
      nrEq := h.nrEq
      qshape := h.qshape
      dt := dt_transfer h.dt w .resetDone (by rw [hpc]; simp [IdlePc])
      lk1 := hlk.1
      lk2 := hlk.2
      tokens := counts_transfer h w .resetDone (by rw [hpc]; simp [winInd])
        (by rw [hpc]; simp [pendInd]) hnd
      scanF := by
        intro v i' hv
        obtain ⟨_, hpq⟩ := hsa v _ hv (by trivial)
        exact Pc.noConfusion hpq
      setDoneF := fun v _ => hqe
      declF := by
        intro v i' hv
        obtain ⟨_, hpq⟩ := hsa v _ hv (by trivial)
        exact Pc.noConfusion hpq
      rdF := by
        intro v hv
        obtain ⟨hvw, _⟩ := hsa v _ hv (by trivial)
        subst hvw
        exact ⟨hqe, ⟨⟨i, hi⟩, hf⟩⟩
      uwF := by
        intro v hv
        obtain ⟨_, hpq⟩ := hsa v _ hv (by trivial)
        exact Pc.noConfusion hpq
      doneSrc := fun _ => Or.inl ⟨w, hwit⟩
      ts := fun u hu => absurd hu (hndt u)
      dinv := fun u hu => absurd hu (hndt u)
      ns := ns_of_nonwait w _ (by simp)
      acc := acc_transfer h w .resetDone (by intro r'; rw [hpc]; simp [wRest])
      errI := errI_transfer h w .resetDone (by rw [hpc]; simp [wErr])
      ghost := h.ghost
      dcl0 := dcl0_transfer h w .resetDone (by rw [hpc]; simp [DeclPc])
      dcl1 := h.dcl1 }

/-- Preservation for the completed scan: the last idle worker declares termination (line 162) and begins posting the wake-up signals. -/
theorem inv_scanDone {K : Nat} {j : Junk} {roots : List Entry} {s : St K}
    (h : Inv K j roots s) (w : Fin K) (hpc : s.pcs w = .scan K) :
    Inv K j roots
      { s with pcs := Function.update s.pcs w (.declare 0)
               declares := s.declares + 1 } := by
  obtain ⟨hKK, hqe, hdone, hpref⟩ := h.scanF w K hpc
  have hcsw : CSPc (s.pcs w) := by rw [hpc]; trivial
  have hnd : NoDecl s := noDecl_of_nonW h w (by rw [hpc]; simp [WPc])
  have hsa := shape_absent s.pcs w (.declare 0) (cs_only h hcsw)
  have hlk := lk_transfer h w (.declare 0) (by rw [hpc]; simp [CSPc])
  have halltrue : ∀ v : Fin K, s.done_threads v = true := fun v => hpref v v.isLt
  have hallIdle : ∀ v, IdlePc (s.pcs v) := fun v => (h.dt v).mp (halltrue v)
  have hwin := empty_tokens h hnd hqe
  have hothers : ∀ v, v ≠ w → s.pcs v = .wait := by
    intro v hvw
    have hid := hallIdle v
    have hnocs := cs_only h hcsw v hvw
    have hndv := hnd v
    have hwinv := (hwin.2 v).1
    cases hv : s.pcs v <;>
      first
        | rfl
        | (rw [hv] at hid; exact absurd hid id)
        | (rw [hv] at hnocs; exact absurd True.intro hnocs)
        | (rw [hv] at hndv; exact absurd True.intro hndv)
        | (rw [hv] at hwinv; simp [winInd] at hwinv)
  have hallW : ∀ v, WPc (Function.update s.pcs w (.declare 0) v) := by
    intro v
    by_cases hvw : v = w
    · subst hvw; rw [Function.update_same]; trivial
    · rw [Function.update_noteq hvw, hothers v hvw]; trivial
  have hwit : ScanLike (Function.update s.pcs w (.declare 0) w) := by
    rw [Function.update_same]
    trivial
  have hwd : DeclPc (Function.update s.pcs w (.declare 0) w) := by
    rw [Function.update_same]
    trivial
  have hdrem := sum_update_nat (declRemOf K) s.pcs w (.declare 0)
  rw [hpc] at hdrem
  rw [show declRemOf K (Pc.scan K) = 0 from by simp [declRemOf],
    show declRemOf K (Pc.declare 0) = K from by simp [declRemOf]] at hdrem
  exact
    { hK := h.hK
      nrEq := h.nrEq
      qshape := h.qshape
      dt := dt_transfer h.dt w (.declare 0) (by rw [hpc]; simp [IdlePc])
      lk1 := hlk.1
      lk2 := hlk.2
      tokens := fun hnd' => absurd hwd (hnd' w)
      scanF := by
        intro v i' hv
        obtain ⟨_, hpq⟩ := hsa v _ hv (by trivial)
        exact Pc.noConfusion hpq
      setDoneF := fun v _ => hqe
      declF := by
        intro v i' hv
        obtain ⟨_, hpq⟩ := hsa v _ hv (by trivial)
        have := Pc.declare.inj hpq
        omega
      rdF := by
        intro v hv
        obtain ⟨_, hpq⟩ := hsa v _ hv (by trivial)
        exact Pc.noConfusion hpq
      uwF := by
        intro v hv
        obtain ⟨_, hpq⟩ := hsa v _ hv (by trivial)
        exact Pc.noConfusion hpq
      doneSrc := fun _ => Or.inl ⟨w, hwit⟩
      ts := fun u _ => ⟨hallW, hdone, hqe⟩
      dinv := by
        intro u _
        show waitCount (Function.update s.pcs w (.declare 0)) ≤
          s.available_sem + declRem (Function.update s.pcs w (.declare 0))
        have h1 := waitCount_le (Function.update s.pcs w (.declare 0))
        unfold declRem
        omega
      ns := ns_of_nonwait w _ (by simp)
      acc := acc_transfer h w (.declare 0) (by intro r'; rw [hpc]; simp [wRest])
      errI := errI_transfer h w (.declare 0) (by rw [hpc]; simp [wErr])
      ghost := h.ghost
      dcl0 := by
        constructor
        · intro hx
          exact absurd (show s.declares + 1 = 0 from hx) (by omega)
        · intro hx
          exact absurd hwd (hx w)
      dcl1 := by
        show s.declares + 1 ≤ 1
        have hz : s.declares = 0 := h.dcl0.mpr hnd
        omega }

/-- Preservation for one wake-up post in the declaration loop (line 163-165). -/
theorem inv_declarePost {K : Nat} {j : Junk} {roots : List Entry} {s : St K}
    (h : Inv K j roots s) (w : Fin K) (i : Nat)
    (hpc : s.pcs w = .declare i) (hi : i < K) :
    Inv K j roots
      { s with available_sem := s.available_sem + 1
               pcs := Function.update s.pcs w (.declare (i + 1)) } := by
  have hDecl : DeclPc (s.pcs w) := by rw [hpc]; trivial
  have hcsw : CSPc (s.pcs w) := by rw [hpc]; trivial
  obtain ⟨hallW, hdone, hqe⟩ := h.ts w hDecl
  have hsa := shape_absent s.pcs w (.declare (i + 1)) (cs_only h hcsw)
  have hlk := lk_transfer h w (.declare (i + 1)) (by rw [hpc]; simp [CSPc])
  have hwit : ScanLike (Function.update s.pcs w (.declare (i + 1)) w) := by
    rw [Function.update_same]
    trivial
  have hwd : DeclPc (Function.update s.pcs w (.declare (i + 1)) w) := by
    rw [Function.update_same]
    trivial
  have hdne : ¬ s.declares = 0 := fun hz => (h.dcl0.mp hz) w hDecl
  have hdrem := sum_update_nat (declRemOf K) s.pcs w (.declare (i + 1))
  rw [hpc] at hdrem
  rw [show declRemOf K (Pc.declare i) = K - i from by simp [declRemOf],
    show declRemOf K (Pc.declare (i + 1)) = K - (i + 1) from by simp [declRemOf]] at hdrem
  have hwaits : waitCount (Function.update s.pcs w (.declare (i + 1))) = waitCount s.pcs := by
    unfold waitCount
    exact sum_update_eq waitInd s.pcs w _ (by rw [hpc]; simp [waitInd])
  have hallW' : ∀ v, WPc (Function.update s.pcs w (.declare (i + 1)) v) := by
    intro v
    by_cases hvw : v = w
    · subst hvw; rw [Function.update_same]; trivial
    · rw [Function.update_noteq hvw]; exact hallW v
  exact
    { hK := h.hK
      nrEq := h.nrEq
      qshape := h.qshape
      dt := dt_transfer h.dt w (.declare (i + 1)) (by rw [hpc]; simp [IdlePc])
      lk1 := hlk.1
      lk2 := hlk.2
      tokens := fun hnd' => absurd hwd (hnd' w)
      scanF := by
        intro v i' hv
        obtain ⟨_, hpq⟩ := hsa v _ hv (by trivial)
        exact Pc.noConfusion hpq
      setDoneF := fun v _ => hqe
      declF := by
        intro v i' hv
        obtain ⟨_, hpq⟩ := hsa v _ hv (by trivial)
        have := Pc.declare.inj hpq
        omega
      rdF := by
        intro v hv
        obtain ⟨_, hpq⟩ := hsa v _ hv (by trivial)
        exact Pc.noConfusion hpq
      uwF := by
        intro v hv
        obtain ⟨_, hpq⟩ := hsa v _ hv (by trivial)
        exact Pc.noConfusion hpq
      doneSrc := fun _ => Or.inl ⟨w, hwit⟩
      ts := fun u _ => ⟨hallW', hdone, hqe⟩
      dinv := by
        intro u _
        show waitCount (Function.update s.pcs w (.declare (i + 1))) ≤
          s.available_sem + 1 + declRem (Function.update s.pcs w (.declare (i + 1)))
        have hpre := h.dinv w hDecl
        unfold declRem at hpre ⊢
        rw [hwaits]
        omega
      ns := fun hall => ns_any s.pcs w (.declare (i + 1)) (by simp) hall
      acc := acc_transfer h w (.declare (i + 1)) (by intro r'; rw [hpc]; simp [wRest])
      errI := errI_transfer h w (.declare (i + 1)) (by rw [hpc]; simp [wErr])
      ghost := h.ghost
      dcl0 := ⟨fun hz => absurd hz hdne, fun hx => absurd hwd (hx w)⟩
      dcl1 := h.dcl1 }

/-- Preservation for the exit of the declaration loop (about to unlock at line 166). -/
theorem inv_declareFin {K : Nat} {j : Junk} {roots : List Entry} {s : St K}
    (h : Inv K j roots s) (w : Fin K) (hpc : s.pcs w = .declare K) :
    Inv K j roots { s with pcs := Function.update s.pcs w .unlockT } := by
  have hDecl : DeclPc (s.pcs w) := by rw [hpc]; trivial
  have hcsw : CSPc (s.pcs w) := by rw [hpc]; trivial
  obtain ⟨hallW, hdone, hqe⟩ := h.ts w hDecl
  have hsa := shape_absent s.pcs w .unlockT (cs_only h hcsw)
  have hlk := lk_transfer h w .unlockT (by rw [hpc]; simp [CSPc])
  have hwit : ScanLike (Function.update s.pcs w .unlockT w) := by
    rw [Function.update_same]
    trivial
  have hwd : DeclPc (Function.update s.pcs w .unlockT w) := by
    rw [Function.update_same]
    trivial
  have hdne : ¬ s.declares = 0 := fun hz => (h.dcl0.mp hz) w hDecl
  have hdrem := sum_update_nat (declRemOf K) s.pcs w .unlockT
  rw [hpc] at hdrem
  rw [show declRemOf K (Pc.declare K) = 0 from by simp [declRemOf],
    show declRemOf K Pc.unlockT = 0 from by simp [declRemOf]] at hdrem
  have hwaits : waitCount (Function.update s.pcs w .unlockT) = waitCount s.pcs := by
    unfold waitCount
    exact sum_update_eq waitInd s.pcs w _ (by rw [hpc]; simp [waitInd])
  have hallW' : ∀ v, WPc (Function.update s.pcs w .unlockT v) := by
    intro v
    by_cases hvw : v = w
    · subst hvw; rw [Function.update_same]; trivial
    · rw [Function.update_noteq hvw]; exact hallW v
  exact
    { hK := h.hK
      nrEq := h.nrEq
      qshape := h.qshape
      dt := dt_transfer h.dt w .unlockT (by rw [hpc]; simp [IdlePc])
      lk1 := hlk.1
      lk2 := hlk.2
      tokens := fun hnd' => absurd hwd (hnd' w)
      scanF := by
        intro v i' hv
        obtain ⟨_, hpq⟩ := hsa v _ hv (by trivial)
        exact Pc.noConfusion hpq
      setDoneF := fun v _ => hqe
      declF := by
        intro v i' hv
        obtain ⟨_, hpq⟩ := hsa v _ hv (by trivial)
        exact Pc.noConfusion hpq
      rdF := by
        intro v hv
        obtain ⟨_, hpq⟩ := hsa v _ hv (by trivial)
        exact Pc.noConfusion hpq
      uwF := by
        intro v hv
        obtain ⟨_, hpq⟩ := hsa v _ hv (by trivial)
        exact Pc.noConfusion hpq
      doneSrc := fun _ => Or.inl ⟨w, hwit⟩
      ts := fun u _ => ⟨hallW', hdone, hqe⟩
      dinv := by
        intro u _
        show waitCount (Function.update s.pcs w .unlockT) ≤
          s.available_sem + declRem (Function.update s.pcs w .unlockT)
        have hpre := h.dinv w hDecl
        unfold declRem at hpre ⊢
        rw [hwaits]
        omega
      ns := ns_of_nonwait w _ (by simp)
      acc := acc_transfer h w .unlockT (by intro r'; rw [hpc]; simp [wRest])
      errI := errI_transfer h w .unlockT (by rw [hpc]; simp [wErr])
      ghost := h.ghost
      dcl0 := ⟨fun hz => absurd hz hdne, fun hx => absurd hwd (hx w)⟩
      dcl1 := h.dcl1 }

/-- Preservation for the declarer's unlock and exit (lines 166-167). -/
theorem inv_unlockT {K : Nat} {j : Junk} {roots : List Entry} {s : St K}
    (h : Inv K j roots s) (w : Fin K) (hpc : s.pcs w = .unlockT) :
    Inv K j roots
      { s with lockHolder := none, pcs := Function.update s.pcs w .term } := by
  have hDecl : DeclPc (s.pcs w) := by rw [hpc]; trivial
  have hcsw : CSPc (s.pcs w) := by rw [hpc]; trivial
  obtain ⟨hallW, hdone, hqe⟩ := h.ts w hDecl
  have hsa := shape_absent s.pcs w .term (cs_only h hcsw)
  have hwd : DeclPc (Function.update s.pcs w .term w) := by
    rw [Function.update_same]
    trivial
  have htm : Function.update s.pcs w .term w = .term := by
    rw [Function.update_same]
  have hdne : ¬ s.declares = 0 := fun hz => (h.dcl0.mp hz) w hDecl
  have hdrem := sum_update_nat (declRemOf K) s.pcs w .term
  rw [hpc] at hdrem
  rw [show declRemOf K Pc.unlockT = 0 from by simp [declRemOf],
    show declRemOf K Pc.term = 0 from by simp [declRemOf]] at hdrem
  have hwaits : waitCount (Function.update s.pcs w .term) = waitCount s.pcs := by
    unfold waitCount
    exact sum_update_eq waitInd s.pcs w _ (by rw [hpc]; simp [waitInd])
  have hallW' : ∀ v, WPc (Function.update s.pcs w .term v) := by
    intro v
    by_cases hvw : v = w
    · subst hvw; rw [Function.update_same]; trivial
    · rw [Function.update_noteq hvw]; exact hallW v
  have hlk2' : ∀ v, CSPc (Function.update s.pcs w .term v) →
      (none : Option (Fin K)) = some v := by
    intro v hv
    by_cases hvw : v = w
    · subst hvw
      rw [Function.update_same] at hv
      exact absurd hv (by simp [CSPc])
    · rw [Function.update_noteq hvw] at hv
      exact absurd (cs_eq h hv hcsw) hvw
  exact
    { hK := h.hK
      nrEq := h.nrEq
      qshape := h.qshape
      dt := dt_transfer h.dt w .term (by rw [hpc]; simp [IdlePc])
      lk1 := fun v hv => Option.noConfusion hv
      lk2 := hlk2'
      tokens := fun hnd' => absurd hwd (hnd' w)
      scanF := by
        intro v i' hv
        obtain ⟨_, hpq⟩ := hsa v _ hv (by trivial)
        exact Pc.noConfusion hpq
      setDoneF := fun v _ => hqe
      declF := by
        intro v i' hv
        obtain ⟨_, hpq⟩ := hsa v _ hv (by trivial)
        exact Pc.noConfusion hpq
      rdF := by
        intro v hv
        obtain ⟨_, hpq⟩ := hsa v _ hv (by trivial)
        exact Pc.noConfusion hpq
      uwF := by
        intro v hv
        obtain ⟨_, hpq⟩ := hsa v _ hv (by trivial)
        exact Pc.noConfusion hpq
      doneSrc := fun _ => Or.inr ⟨w, htm⟩
      ts := fun u _ => ⟨hallW', hdone, hqe⟩
      dinv := by
        intro u _
        show waitCount (Function.update s.pcs w .term) ≤
          s.available_sem + declRem (Function.update s.pcs w .term)
        have hpre := h.dinv w hDecl
        unfold declRem at hpre ⊢
        rw [hwaits]
        omega
      ns := ns_of_nonwait w _ (by simp)
      acc := acc_transfer h w .term (by intro r'; rw [hpc]; simp [wRest])
      errI := errI_transfer h w .term (by rw [hpc]; simp [wErr])
      ghost := h.ghost
      dcl0 := ⟨fun hz => absurd hz hdne, fun hx => absurd hwd (hx w)⟩
      dcl1 := h.dcl1 }

/-- Preservation for the done := false write at line 156 after the scan found a busy worker. -/
theorem inv_resetDone {K : Nat} {j : Junk} {roots : List Entry} {s : St K}
    (h : Inv K j roots s) (w : Fin K) (hpc : s.pcs w = .resetDone) :
    Inv K j roots { s with done := false, pcs := Function.update s.pcs w .unlockW } := by
  obtain ⟨hqe, hex⟩ := h.rdF w hpc
  have hcsw : CSPc (s.pcs w) := by rw [hpc]; trivial
  have hnd : NoDecl s := noDecl_of_nonW h w (by rw [hpc]; simp [WPc])
  have hsa := shape_absent s.pcs w .unlockW (cs_only h hcsw)
  have hndt := ndt_of hnd w .unlockW (by simp [DeclPc])
  have hlk := lk_transfer h w .unlockW (by rw [hpc]; simp [CSPc])
  exact
    { hK := h.hK
      nrEq := h.nrEq
      qshape := h.qshape
      dt := dt_transfer h.dt w .unlockW (by rw [hpc]; simp [IdlePc])
      lk1 := hlk.1
      lk2 := hlk.2
      tokens := counts_transfer h w .unlockW (by rw [hpc]; simp [winInd])
        (by rw [hpc]; simp [pendInd]) hnd
      scanF := by
        intro v i' hv
        obtain ⟨_, hpq⟩ := hsa v _ hv (by trivial)
        exact Pc.noConfusion hpq
      setDoneF := fun v _ => hqe
      declF := by
        intro v i' hv
        obtain ⟨_, hpq⟩ := hsa v _ hv (by trivial)
        exact Pc.noConfusion hpq
      rdF := by
        intro v hv
        obtain ⟨_, hpq⟩ := hsa v _ hv (by trivial)
        exact Pc.noConfusion hpq
      uwF := fun v _ => Or.inr hex
      doneSrc := fun hd => absurd hd Bool.false_ne_true
      ts := fun u hu => absurd hu (hndt u)
      dinv := fun u hu => absurd hu (hndt u)
      ns := fun hall => ns_any s.pcs w .unlockW (by simp) hall
      acc := acc_transfer h w .unlockW (by intro r'; rw [hpc]; simp [wRest])
      errI := errI_transfer h w .unlockW (by rw [hpc]; simp [wErr])
      ghost := h.ghost
      dcl0 := dcl0_transfer h w .unlockW (by rw [hpc]; simp [DeclPc])
      dcl1 := h.dcl1 }

/-- Preservation for the unlock at line 170 on the way to sem_wait. -/
theorem inv_unlockW {K : Nat} {j : Junk} {roots : List Entry} {s : St K}
    (h : Inv K j roots s) (w : Fin K) (hpc : s.pcs w = .unlockW) :
    Inv K j roots
      { s with lockHolder := none, pcs := Function.update s.pcs w .wait } := by
  have hcsw : CSPc (s.pcs w) := by rw [hpc]; trivial
  have hnd : NoDecl s := noDecl_of_nonW h w (by rw [hpc]; simp [WPc])
  have hsa := shape_absent s.pcs w .wait (cs_only h hcsw)
  have hndt := ndt_of hnd w .wait (by simp [DeclPc])
  have hlk2' : ∀ v, CSPc (Function.update s.pcs w .wait v) →
      (none : Option (Fin K)) = some v := by
    intro v hv
    by_cases hvw : v = w
    · subst hvw
      rw [Function.update_same] at hv
      exact absurd hv (by simp [CSPc])
    · rw [Function.update_noteq hvw] at hv
      exact absurd (cs_eq h hv hcsw) hvw
  have hds : s.done = true →
      (∃ v, ScanLike (Function.update s.pcs w .wait v)) ∨
        (∃ v, Function.update s.pcs w .wait v = .term) := by
    intro hd
    refine doneSrc_transfer w _ (h.doneSrc hd) ?_
    rw [hpc]
    rintro (hx | hx) <;> simp [ScanLike] at hx
  have hns : (∀ v, Function.update s.pcs w .wait v = .wait) →
      s.available_files ≠ [] ∨ s.available_sem ≠ 0 := by
    intro hall
    rcases h.uwF w hpc with hne | ⟨u, hu⟩
    · exact Or.inl hne
    · exfalso
      by_cases huw : u = w
      · subst huw
        have hT : s.done_threads u = true := (h.dt u).mpr (by rw [hpc]; trivial)
        rw [hu] at hT
        exact Bool.noConfusion hT
      · have h2 := hall u
        rw [Function.update_noteq huw] at h2
        have hT : s.done_threads u = true := (h.dt u).mpr (by rw [h2]; trivial)
        rw [hu] at hT
        exact Bool.noConfusion hT
  exact
    { hK := h.hK
      nrEq := h.nrEq
      qshape := h.qshape
      dt := dt_transfer h.dt w .wait (by rw [hpc]; simp [IdlePc])
      lk1 := fun v hv => Option.noConfusion hv
      lk2 := hlk2'
      tokens := counts_transfer h w .wait (by rw [hpc]; simp [winInd])
        (by rw [hpc]; simp [pendInd]) hnd
      scanF := by
        intro v i' hv
        obtain ⟨_, hpq⟩ := hsa v _ hv (by trivial)
        exact Pc.noConfusion hpq
      setDoneF := by
        intro v hv
        obtain ⟨_, hpq⟩ := hsa v _ hv (by trivial)
        exact Pc.noConfusion hpq
      declF := by
        intro v i' hv
        obtain ⟨_, hpq⟩ := hsa v _ hv (by trivial)
        exact Pc.noConfusion hpq
      rdF := by
        intro v hv
        obtain ⟨_, hpq⟩ := hsa v _ hv (by trivial)
        exact Pc.noConfusion hpq
      uwF := by
        intro v hv
        obtain ⟨_, hpq⟩ := hsa v _ hv (by trivial)
        exact Pc.noConfusion hpq
      doneSrc := hds
      ts := fun u hu => absurd hu (hndt u)
      dinv := fun u hu => absurd hu (hndt u)
      ns := hns
      acc := acc_transfer h w .wait (by intro r'; rw [hpc]; simp [wRest])
      errI := errI_transfer h w .wait (by rw [hpc]; simp [wErr])
      ghost := h.ghost
      dcl0 := dcl0_transfer h w .wait (by rw [hpc]; simp [DeclPc])
      dcl1 := h.dcl1 }

/-- Preservation for a successful sem_wait at line 172. -/
theorem inv_semWait {K : Nat} {j : Junk} {roots : List Entry} {s : St K}
    (h : Inv K j roots s) (w : Fin K)
    (hpc : s.pcs w = .wait) (hs : 0 < s.available_sem) :
    Inv K j roots
      { s with available_sem := s.available_sem - 1
               pcs := Function.update s.pcs w .checkDone } := by
  have hfive := five_transfer h w .checkDone (by simp) (by simp) (by simp) (by simp) (by simp)
  have hlk := lk_transfer h w .checkDone (by rw [hpc]; simp [CSPc])
  have hwin := sum_update_nat winInd s.pcs w .checkDone
  rw [hpc] at hwin
  rw [show winInd Pc.wait = 0 from by simp [winInd],
    show winInd Pc.checkDone = 1 from by simp [winInd]] at hwin
  have hwaits := sum_update_nat waitInd s.pcs w .checkDone
  rw [hpc] at hwaits
  rw [show waitInd Pc.wait = 1 from by simp [waitInd],
    show waitInd Pc.checkDone = 0 from by simp [waitInd]] at hwaits
  have hdrem : (Finset.univ.sum fun v => declRemOf K (Function.update s.pcs w .checkDone v))
      = Finset.univ.sum fun v => declRemOf K (s.pcs v) := by
    refine sum_update_eq (declRemOf K) s.pcs w .checkDone ?_
    rw [hpc]
    simp [declRemOf]
  have htok : (∀ v, ¬ DeclPc (Function.update s.pcs w .checkDone v)) →
      s.available_sem - 1 + pendCount (Function.update s.pcs w .checkDone)
        + winCount (Function.update s.pcs w .checkDone) = s.available_files.length := by
    intro hnd'
    have hndS : NoDecl s :=
      (noDecl_update_congr s.pcs w .checkDone (by rw [hpc]; simp [DeclPc])).mp hnd'
    have hpre := h.tokens hndS
    have hpc2 : pendCount (Function.update s.pcs w .checkDone) = pendCount s.pcs := by
      unfold pendCount
      refine sum_update_eq pendInd s.pcs w .checkDone ?_
      rw [hpc]
      simp [pendInd]
    unfold winCount at hpre ⊢
    unfold pendCount at hpre hpc2 ⊢
    omega
  have hts : ∀ u, DeclPc (Function.update s.pcs w .checkDone u) →
      (∀ v, WPc (Function.update s.pcs w .checkDone v)) ∧ s.done = true ∧
        s.available_files = [] := by
    intro u hu
    by_cases huw : u = w
    · subst huw
      rw [Function.update_same] at hu
      exact absurd hu (by simp [DeclPc])
    · rw [Function.update_noteq huw] at hu
      obtain ⟨hallW, hdone, hqe⟩ := h.ts u hu
      refine ⟨?_, hdone, hqe⟩
      intro v
      by_cases hvw : v = w
      · subst hvw; rw [Function.update_same]; trivial
      · rw [Function.update_noteq hvw]; exact hallW v
  have hdinv : ∀ u, DeclPc (Function.update s.pcs w .checkDone u) →
      waitCount (Function.update s.pcs w .checkDone) ≤
        s.available_sem - 1 + declRem (Function.update s.pcs w .checkDone) := by
    intro u hu
    by_cases huw : u = w
    · subst huw
      rw [Function.update_same] at hu
      exact absurd hu (by simp [DeclPc])
    · rw [Function.update_noteq huw] at hu
      have hpre := h.dinv u hu
      unfold declRem at hpre ⊢
      unfold waitCount at hpre ⊢
      omega
  have hds : s.done = true →
      (∃ v, ScanLike (Function.update s.pcs w .checkDone v)) ∨
        (∃ v, Function.update s.pcs w .checkDone v = .term) := by
    intro hd
    refine doneSrc_transfer w _ (h.doneSrc hd) ?_
    rw [hpc]
    rintro (hx | hx) <;> simp [ScanLike] at hx
  exact
    { hK := h.hK
      nrEq := h.nrEq
      qshape := h.qshape
      dt := dt_transfer h.dt w .checkDone (by rw [hpc]; simp [IdlePc])
      lk1 := hlk.1
      lk2 := hlk.2
      tokens := htok
      scanF := hfive.1
      setDoneF := hfive.2.1
      declF := hfive.2.2.1
      rdF := hfive.2.2.2.1
      uwF := hfive.2.2.2.2
      doneSrc := hds
      ts := hts
      dinv := hdinv
      ns := fun hall => ns_any s.pcs w .checkDone (by simp) hall
      acc := acc_transfer h w .checkDone (by intro r'; rw [hpc]; simp [wRest])
      errI := errI_transfer h w .checkDone (by rw [hpc]; simp [wErr])
      ghost := h.ghost
      dcl0 := dcl0_transfer h w .checkDone (by rw [hpc]; simp [DeclPc])
      dcl1 := h.dcl1 }

/-- Preservation for a woken worker that reads done = true at line 174 and exits. -/
theorem inv_checkDoneTrue {K : Nat} {j : Junk} {roots : List Entry} {s : St K}
    (h : Inv K j roots s) (w : Fin K)
    (hpc : s.pcs w = .checkDone) (hd : s.done = true) :
    Inv K j roots { s with pcs := Function.update s.pcs w .term } := by
  have hwin1 : winInd (s.pcs w) = 1 := by rw [hpc]; simp [winInd]
  have hdecl : ∃ u, DeclPc (s.pcs u) := by
    by_contra hno
    push_neg at hno
    have hnd : NoDecl s := hno
    rcases h.doneSrc hd with ⟨v, hv⟩ | ⟨v, hv⟩
    · have hqe : s.available_files = [] := by
        cases hsv : s.pcs v <;>
          first
            | exact (h.scanF v _ hsv).2.1
            | exact (h.rdF v hsv).1
            | (rw [hsv] at hv; exact absurd hv id)
            | (have hdv := hnd v; rw [hsv] at hdv; exact absurd True.intro hdv)
      have h0 := ((empty_tokens h hnd hqe).2 w).1
      omega
    · exact absurd (show DeclPc (s.pcs v) by rw [hv]; trivial) (hno v)
  obtain ⟨u, hu⟩ := hdecl
  obtain ⟨hallW, hdone, hqe⟩ := h.ts u hu
  have hfive := five_transfer h w .term (by simp) (by simp) (by simp) (by simp) (by simp)
  have hlk := lk_transfer h w .term (by rw [hpc]; simp [CSPc])
  have htm : Function.update s.pcs w .term w = .term := by
    rw [Function.update_same]
  have hwd : DeclPc (Function.update s.pcs w .term w) := by
    rw [Function.update_same]
    trivial
  have hdne : ¬ s.declares = 0 := fun hz => absurd hu ((h.dcl0.mp hz) u)
  have hwaits : waitCount (Function.update s.pcs w .term) = waitCount s.pcs := by
    unfold waitCount
    refine sum_update_eq waitInd s.pcs w .term ?_
    rw [hpc]
    simp [waitInd]
  have hdrem : declRem (Function.update s.pcs w .term) = declRem s.pcs := by
    unfold declRem
    refine sum_update_eq (declRemOf K) s.pcs w .term ?_
    rw [hpc]
    simp [declRemOf]
  have hallW' : ∀ v, WPc (Function.update s.pcs w .term v) := by
    intro v
    by_cases hvw : v = w
    · subst hvw; rw [Function.update_same]; trivial
    · rw [Function.update_noteq hvw]; exact hallW v
  exact
    { hK := h.hK
      nrEq := h.nrEq
      qshape := h.qshape
      dt := dt_transfer h.dt w .term (by rw [hpc]; simp [IdlePc])
      lk1 := hlk.1
      lk2 := hlk.2
      tokens := fun hnd' => absurd hwd (hnd' w)
      scanF := hfive.1
      setDoneF := hfive.2.1
      declF := hfive.2.2.1
      rdF := hfive.2.2.2.1
      uwF := hfive.2.2.2.2
      doneSrc := fun _ => Or.inr ⟨w, htm⟩
      ts := fun u' _ => ⟨hallW', hdone, hqe⟩
      dinv := by
        intro u' _
        have hpre := h.dinv u hu
        rw [hwaits, hdrem]
        exact hpre
      ns := fun hall => ns_any s.pcs w .term (by simp) hall
      acc := acc_transfer h w .term (by intro r'; rw [hpc]; simp [wRest])
      errI := errI_transfer h w .term (by rw [hpc]; simp [wErr])
      ghost := h.ghost
      dcl0 := ⟨fun hz => absurd hz hdne, fun hx => absurd hwd (hx w)⟩
      dcl1 := h.dcl1 }

/-- Preservation for a woken worker that reads done = false at line 174 and goes back to work. -/
theorem inv_checkDoneFalse {K : Nat} {j : Junk} {roots : List Entry} {s : St K}
    (h : Inv K j roots s) (w : Fin K)
    (hpc : s.pcs w = .checkDone) (hd : s.done = false) :
    Inv K j roots { s with pcs := Function.update s.pcs w .markBusy } := by
  have hnd : NoDecl s := by
    intro u hu
    have hT := (h.ts u hu).2.1
    rw [hd] at hT
    exact Bool.noConfusion hT
  have hfive := five_transfer h w .markBusy (by simp) (by simp) (by simp) (by simp) (by simp)
  have hlk := lk_transfer h w .markBusy (by rw [hpc]; simp [CSPc])
  have hndt := ndt_of hnd w .markBusy (by simp [DeclPc])
  exact
    { hK := h.hK
      nrEq := h.nrEq
      qshape := h.qshape
      dt := dt_transfer h.dt w .markBusy (by rw [hpc]; simp [IdlePc])
      lk1 := hlk.1
      lk2 := hlk.2
      tokens := counts_transfer h w .markBusy (by rw [hpc]; simp [winInd])
        (by rw [hpc]; simp [pendInd]) hnd
      scanF := hfive.1
      setDoneF := hfive.2.1
      declF := hfive.2.2.1
      rdF := hfive.2.2.2.1
      uwF := hfive.2.2.2.2
      doneSrc := fun hdx => absurd (hd ▸ hdx) Bool.false_ne_true
      ts := fun u hu => absurd hu (hndt u)
      dinv := fun u hu => absurd hu (hndt u)
      ns := fun hall => ns_any s.pcs w .markBusy (by simp) hall
      acc := acc_transfer h w .markBusy (by intro r'; rw [hpc]; simp [wRest])
      errI := errI_transfer h w .markBusy (by rw [hpc]; simp [wErr])
      ghost := h.ghost
      dcl0 := dcl0_transfer h w .markBusy (by rw [hpc]; simp [DeclPc])
      dcl1 := h.dcl1 }

/-- Preservation for the lock-free done_threads := false write at line 178. -/
theorem inv_markBusy {K : Nat} {j : Junk} {roots : List Entry} {s : St K}
    (h : Inv K j roots s) (w : Fin K) (hpc : s.pcs w = .markBusy) :
    Inv K j roots
      { s with done_threads := Function.update s.done_threads w false
               pcs := Function.update s.pcs w .pop } := by
  have hnd : NoDecl s := noDecl_of_nonW h w (by rw [hpc]; simp [WPc])
  have hlk := lk_transfer h w .pop (by rw [hpc]; simp [CSPc])
  have hndt := ndt_of hnd w .pop (by simp [DeclPc])
  have hwfalse : Function.update s.done_threads w false w = false := by
    rw [Function.update_same]
  have hdt : ∀ v, Function.update s.done_threads w false v = true ↔
      IdlePc (Function.update s.pcs w .pop v) := by
    intro v
    by_cases hvw : v = w
    · subst hvw
      rw [Function.update_same, Function.update_same]
      constructor
      · intro hx; exact absurd hx (by simp)
      · intro hx; exact absurd hx id
    · rw [Function.update_noteq hvw, Function.update_noteq hvw]
      exact h.dt v
  have hds : s.done = true →
      (∃ v, ScanLike (Function.update s.pcs w .pop v)) ∨
        (∃ v, Function.update s.pcs w .pop v = .term) := by
    intro hd
    refine doneSrc_transfer w _ (h.doneSrc hd) ?_
    rw [hpc]
    rintro (hx | hx) <;> simp [ScanLike] at hx
  have hscanF : ∀ v i, Function.update s.pcs w .pop v = .scan i →
      i ≤ K ∧ s.available_files = [] ∧ s.done = true ∧
        ∀ u : Fin K, (u : Nat) < i → Function.update s.done_threads w false u = true := by
    intro v i hv
    by_cases hvw : v = w
    · subst hvw
      rw [Function.update_same] at hv
      exact Pc.noConfusion hv
    · rw [Function.update_noteq hvw] at hv
      have hqe := (h.scanF v i hv).2.1
      have h0 := ((empty_tokens h hnd hqe).2 w).1
      rw [hpc] at h0
      simp [winInd] at h0
  have hsetDoneF : ∀ v, Function.update s.pcs w .pop v = .setDone →
      s.available_files = [] := by
    intro v hv
    by_cases hvw : v = w
    · subst hvw
      rw [Function.update_same] at hv
      exact Pc.noConfusion hv
    · rw [Function.update_noteq hvw] at hv
      exact h.setDoneF v hv
  have hdeclF : ∀ v i, Function.update s.pcs w .pop v = .declare i → i ≤ K := by
    intro v i hv
    by_cases hvw : v = w
    · subst hvw
      rw [Function.update_same] at hv
      exact Pc.noConfusion hv
    · rw [Function.update_noteq hvw] at hv
      exact h.declF v i hv
  have hrdF : ∀ v, Function.update s.pcs w .pop v = .resetDone →
      s.available_files = [] ∧ ∃ u, Function.update s.done_threads w false u = false := by
    intro v hv
    by_cases hvw : v = w
    · subst hvw
      rw [Function.update_same] at hv
      exact Pc.noConfusion hv
    · rw [Function.update_noteq hvw] at hv
      exact ⟨(h.rdF v hv).1, ⟨w, hwfalse⟩⟩
  exact
    { hK := h.hK
      nrEq := h.nrEq
      qshape := h.qshape
      dt := hdt
      lk1 := hlk.1
      lk2 := hlk.2
      tokens := counts_transfer h w .pop (by rw [hpc]; simp [winInd])
        (by rw [hpc]; simp [pendInd]) hnd
      scanF := hscanF
      setDoneF := hsetDoneF
      declF := hdeclF
      rdF := hrdF
      uwF := fun v _ => Or.inr ⟨w, hwfalse⟩
      doneSrc := hds
      ts := fun u hu => absurd hu (hndt u)
      dinv := fun u hu => absurd hu (hndt u)
      ns := fun hall => ns_any s.pcs w .pop (by simp) hall
      acc := acc_transfer h w .pop (by intro r'; rw [hpc]; simp [wRest])
      errI := errI_transfer h w .pop (by rw [hpc]; simp [wErr])
      ghost := h.ghost
      dcl0 := dcl0_transfer h w .pop (by rw [hpc]; simp [DeclPc])
      dcl1 := h.dcl1 }

/-- Scan-like program counters lie inside the critical section. -/
theorem scanlike_cs : ∀ q : Pc, ScanLike q → CSPc q := by
  intro q hq
  cases q <;> first | exact absurd hq id | trivial

/-- Preservation for popping an expandable directory item (lines 181 and 256-266, with both syscalls succeeding). -/
theorem inv_popDir {K : Nat} {j : Junk} {roots : List Entry} {s : St K}
    (h : Inv K j roots s) (w : Fin K) (r : Nat) (n : String) (b : Nat) (co : Bool)
    (es : List Entry) (rest : List Item)
    (hpc : s.pcs w = .pop) (hl : s.lockHolder = none)
    (hq : s.available_files = (r, .dir n b true true co es) :: rest) :
    Inv K j roots
      { s with available_files := rest
               nr_available_files := s.nr_available_files - 1
               popped := s.popped + {(r, .dir n b true true co es)}
               pcs := Function.update s.pcs w (.work r es 0 co) } := by
  have hnd : NoDecl s := noDecl_of_nonW h w (by rw [hpc]; simp [WPc])
  have hnoCS := five_noCS h hl
  have habs : ∀ v q', Function.update s.pcs w (.work r es 0 co) v = q' → CSPc q' → False := by
    intro v q' hv hq'
    by_cases hvw : v = w
    · subst hvw
      rw [Function.update_same] at hv
      rw [← hv] at hq'
      exact absurd hq' (by simp [CSPc])
    · rw [Function.update_noteq hvw] at hv
      exact hnoCS v (by rw [hv]; exact hq')
  have hndt := ndt_of hnd w (.work r es 0 co) (by simp [DeclPc])
  have hnr : s.nr_available_files - 1 = (rest.length : Int) := by
    have h0 := h.nrEq
    rw [hq] at h0
    simp only [List.length_cons] at h0
    push_cast at h0 ⊢
    omega
  have hqs : ∀ it ∈ rest, isFileE it.2 = false := by
    intro it hit
    exact h.qshape it (by rw [hq]; exact List.mem_cons_of_mem _ hit)
  have hlk1 : ∀ v, s.lockHolder = some v →
      CSPc (Function.update s.pcs w (.work r es 0 co) v) := by
    intro v hv
    rw [hl] at hv
    exact Option.noConfusion hv
  have hlk2 : ∀ v, CSPc (Function.update s.pcs w (.work r es 0 co) v) →
      s.lockHolder = some v :=
    fun v hv => (habs v _ rfl hv).elim
  have htok : (∀ v, ¬ DeclPc (Function.update s.pcs w (.work r es 0 co) v)) →
      s.available_sem + pendCount (Function.update s.pcs w (.work r es 0 co))
        + winCount (Function.update s.pcs w (.work r es 0 co)) = rest.length := by
    intro _
    have hpre := h.tokens hnd
    rw [hq] at hpre
    simp only [List.length_cons] at hpre
    have hwin := sum_update_nat winInd s.pcs w (.work r es 0 co)
    rw [hpc, show winInd Pc.pop = 1 from by simp [winInd],
      show winInd (Pc.work r es 0 co) = 0 from by simp [winInd]] at hwin
    have hpend : pendCount (Function.update s.pcs w (.work r es 0 co)) = pendCount s.pcs :=
      sum_update_eq pendInd s.pcs w _ (by rw [hpc]; simp [pendInd])
    unfold winCount at hpre ⊢
    unfold pendCount at hpre hpend ⊢
    omega
  have hds : s.done = true →
      (∃ v, ScanLike (Function.update s.pcs w (.work r es 0 co) v)) ∨
        (∃ v, Function.update s.pcs w (.work r es 0 co) v = .term) := by
    intro hd
    rcases h.doneSrc hd with ⟨v, hv⟩ | ⟨v, hv⟩
    · exact absurd (scanlike_cs _ hv) (hnoCS v)
    · right
      have hvw : v ≠ w := by
        intro he
        rw [he, hpc] at hv
        exact Pc.noConfusion hv
      exact ⟨v, by rw [Function.update_noteq hvw]; exact hv⟩
  have hacc : ∀ R, s.total_sizes R + queueSum R rest
      + workerSum R (Function.update s.pcs w (.work r es 0 co)) = targets j roots R := by
    intro R
    have hpre := h.acc R
    rw [hq] at hpre
    have hws := sum_update_nat (wRest R) s.pcs w (.work r es 0 co)
    rw [hpc, show wRest R Pc.pop = 0 from by simp [wRest],
      show wRest R (Pc.work r es 0 co) = if r = R then listSum es else 0 from by
        simp [wRest]] at hws
    rw [show queueSum R ((r, Entry.dir n b true true co es) :: rest)
        = (if r = R then listSum es else 0) + queueSum R rest from by
      simp [queueSum, procOf, dirSum]] at hpre
    unfold workerSum at hpre ⊢
    omega
  have herr : (s.exit_status = true ∨ queueErr rest = true ∨
      ∃ v, wErr (Function.update s.pcs w (.work r es 0 co) v) = true) ↔
      targetErr j roots = true := by
    rw [exists_bool_update wErr s.pcs w (.work r es 0 co)]
    rw [← h.errI, hq, exists_bool_split wErr s.pcs w,
      show wErr (s.pcs w) = false from by rw [hpc]; simp [wErr],
      show wErr (Pc.work r es 0 co) = (listErr es || !co) from by simp [wErr],
      show queueErr ((r, Entry.dir n b true true co es) :: rest)
        = ((listErr es || !co) || queueErr rest) from by simp [queueErr, entryErr, dirErr]]
    simp only [Bool.or_eq_true, Bool.false_eq_true]
    tauto
  have hg : seedsMS j roots + s.pushed
      = (s.popped + {(r, Entry.dir n b true true co es)}) + (rest : Multiset Item) := by
    have hpre := h.ghost
    rw [hq] at hpre
    rw [show (((r, Entry.dir n b true true co es) :: rest : List Item) : Multiset Item)
        = {(r, Entry.dir n b true true co es)} + (rest : Multiset Item) from rfl] at hpre
    rw [hpre]
    abel
  exact
    { hK := h.hK
      nrEq := hnr
      qshape := hqs
      dt := dt_transfer h.dt w (.work r es 0 co) (by rw [hpc]; simp [IdlePc])
      lk1 := hlk1
      lk2 := hlk2
      tokens := htok
      scanF := fun v i hv => (habs v _ hv (by trivial)).elim
      setDoneF := fun v hv => (habs v _ hv (by trivial)).elim
      declF := fun v i hv => (habs v _ hv (by trivial)).elim
      rdF := fun v hv => (habs v _ hv (by trivial)).elim
      uwF := fun v hv => (habs v _ hv (by trivial)).elim
      doneSrc := hds
      ts := fun u hu => absurd hu (hndt u)
      dinv := fun u hu => absurd hu (hndt u)
      ns := fun hall => ns_any s.pcs w (.work r es 0 co) (by simp) hall
      acc := hacc
      errI := herr
      ghost := hg
      dcl0 := dcl0_transfer h w (.work r es 0 co) (by rw [hpc]; simp [DeclPc])
      dcl1 := h.dcl1 }

/-- Preservation for popping a directory item whose re-stat or opendir fails (lines 181, 256-266, error branch). -/
theorem inv_popDirFail {K : Nat} {j : Junk} {roots : List Entry} {s : St K}
    (h : Inv K j roots s) (w : Fin K) (r : Nat) (n : String) (b : Nat)
    (ro oo co : Bool) (es : List Entry) (rest : List Item)
    (hpc : s.pcs w = .pop) (hl : s.lockHolder = none)
    (hq : s.available_files = (r, .dir n b ro oo co es) :: rest)
    (hbad : (ro && oo) = false) :
    Inv K j roots
      { s with available_files := rest
               nr_available_files := s.nr_available_files - 1
               popped := s.popped + {(r, .dir n b ro oo co es)}
               pcs := Function.update s.pcs w (.errItem r) } := by
  have hnd : NoDecl s := noDecl_of_nonW h w (by rw [hpc]; simp [WPc])
  have hnoCS := five_noCS h hl
  have habs : ∀ v q', Function.update s.pcs w (.errItem r) v = q' → CSPc q' → False := by
    intro v q' hv hq'
    by_cases hvw : v = w
    · subst hvw
      rw [Function.update_same] at hv
      rw [← hv] at hq'
      exact absurd hq' (by simp [CSPc])
    · rw [Function.update_noteq hvw] at hv
      exact hnoCS v (by rw [hv]; exact hq')
  have hndt := ndt_of hnd w (.errItem r) (by simp [DeclPc])
  have hde : dirErr ro oo co es = true := by
    cases ro <;> cases oo <;> simp_all [dirErr]
  have hps : procOf (Entry.dir n b ro oo co es) = 0 := by
    simp [procOf, dirSum, hbad]
  have hnr : s.nr_available_files - 1 = (rest.length : Int) := by
    have h0 := h.nrEq
    rw [hq] at h0
    simp only [List.length_cons] at h0
    push_cast at h0 ⊢
    omega
  have hqs : ∀ it ∈ rest, isFileE it.2 = false := by
    intro it hit
    exact h.qshape it (by rw [hq]; exact List.mem_cons_of_mem _ hit)
  have hlk1 : ∀ v, s.lockHolder = some v →
      CSPc (Function.update s.pcs w (.errItem r) v) := by
    intro v hv
    rw [hl] at hv
    exact Option.noConfusion hv
  have hlk2 : ∀ v, CSPc (Function.update s.pcs w (.errItem r) v) →
      s.lockHolder = some v :=
    fun v hv => (habs v _ rfl hv).elim
  have htok : (∀ v, ¬ DeclPc (Function.update s.pcs w (.errItem r) v)) →
      s.available_sem + pendCount (Function.update s.pcs w (.errItem r))
        + winCount (Function.update s.pcs w (.errItem r)) = rest.length := by
    intro _
    have hpre := h.tokens hnd
    rw [hq] at hpre
    simp only [List.length_cons] at hpre
    have hwin := sum_update_nat winInd s.pcs w (.errItem r)
    rw [hpc, show winInd Pc.pop = 1 from by simp [winInd],
      show winInd (Pc.errItem r) = 0 from by simp [winInd]] at hwin
    have hpend : pendCount (Function.update s.pcs w (.errItem r)) = pendCount s.pcs :=
      sum_update_eq pendInd s.pcs w _ (by rw [hpc]; simp [pendInd])
    unfold winCount at hpre ⊢
    unfold pendCount at hpre hpend ⊢
    omega
  have hds : s.done = true →
      (∃ v, ScanLike (Function.update s.pcs w (.errItem r) v)) ∨
        (∃ v, Function.update s.pcs w (.errItem r) v = .term) := by
    intro hd
    rcases h.doneSrc hd with ⟨v, hv⟩ | ⟨v, hv⟩
    · exact absurd (scanlike_cs _ hv) (hnoCS v)
    · right
      have hvw : v ≠ w := by
        intro he
        rw [he, hpc] at hv
        exact Pc.noConfusion hv
      exact ⟨v, by rw [Function.update_noteq hvw]; exact hv⟩
  have hacc : ∀ R, s.total_sizes R + queueSum R rest
      + workerSum R (Function.update s.pcs w (.errItem r)) = targets j roots R := by
    intro R
    have hpre := h.acc R
    rw [hq] at hpre
    have hws := sum_update_nat (wRest R) s.pcs w (.errItem r)
    rw [hpc, show wRest R Pc.pop = 0 from by simp [wRest],
      show wRest R (Pc.errItem r) = 0 from by simp [wRest]] at hws
    rw [show queueSum R ((r, Entry.dir n b ro oo co es) :: rest)
        = queueSum R rest from by simp [queueSum, hps]] at hpre
    unfold workerSum at hpre ⊢
    omega
  have herr : (s.exit_status = true ∨ queueErr rest = true ∨
      ∃ v, wErr (Function.update s.pcs w (.errItem r) v) = true) ↔
      targetErr j roots = true := by
    rw [exists_bool_update wErr s.pcs w (.errItem r)]
    rw [← h.errI, hq, exists_bool_split wErr s.pcs w,
      show wErr (s.pcs w) = false from by rw [hpc]; simp [wErr],
      show wErr (Pc.errItem r) = true from by simp [wErr],
      show queueErr ((r, Entry.dir n b ro oo co es) :: rest)
        = (true || queueErr rest) from by simp [queueErr, entryErr, hde]]
    simp only [Bool.or_eq_true, Bool.false_eq_true]
    tauto
  have hg : seedsMS j roots + s.pushed
      = (s.popped + {(r, Entry.dir n b ro oo co es)}) + (rest : Multiset Item) := by
    have hpre := h.ghost
    rw [hq] at hpre
    rw [show (((r, Entry.dir n b ro oo co es) :: rest : List Item) : Multiset Item)
        = {(r, Entry.dir n b ro oo co es)} + (rest : Multiset Item) from rfl] at hpre
    rw [hpre]
    abel
  exact
    { hK := h.hK
      nrEq := hnr
      qshape := hqs
      dt := dt_transfer h.dt w (.errItem r) (by rw [hpc]; simp [IdlePc])
      lk1 := hlk1
      lk2 := hlk2
      tokens := htok
      scanF := fun v i hv => (habs v _ hv (by trivial)).elim
      setDoneF := fun v hv => (habs v _ hv (by trivial)).elim
      declF := fun v i hv => (habs v _ hv (by trivial)).elim
      rdF := fun v hv => (habs v _ hv (by trivial)).elim
      uwF := fun v hv => (habs v _ hv (by trivial)).elim
      doneSrc := hds
      ts := fun u hu => absurd hu (hndt u)
      dinv := fun u hu => absurd hu (hndt u)
      ns := fun hall => ns_any s.pcs w (.errItem r) (by simp) hall
      acc := hacc
      errI := herr
      ghost := hg
      dcl0 := dcl0_transfer h w (.errItem r) (by rw [hpc]; simp [DeclPc])
      dcl1 := h.dcl1 }

/-- Preservation for popping an item whose seeding lstat had failed (line 181 followed by the lstat failure at lines 268-276 for the re-stat of the queued path). -/
theorem inv_popStatFail {K : Nat} {j : Junk} {roots : List Entry} {s : St K}
    (h : Inv K j roots s) (w : Fin K) (r : Nat) (n : String) (rest : List Item)
    (hpc : s.pcs w = .pop) (hl : s.lockHolder = none)
    (hq : s.available_files = (r, .statFail n) :: rest) :
    Inv K j roots
      { s with available_files := rest
               nr_available_files := s.nr_available_files - 1
               popped := s.popped + {(r, .statFail n)}
               pcs := Function.update s.pcs w (.errItem r) } := by
  have hnd : NoDecl s := noDecl_of_nonW h w (by rw [hpc]; simp [WPc])
  have hnoCS := five_noCS h hl
  have habs : ∀ v q', Function.update s.pcs w (.errItem r) v = q' → CSPc q' → False := by
    intro v q' hv hq'
    by_cases hvw : v = w
    · subst hvw
      rw [Function.update_same] at hv
      rw [← hv] at hq'
      exact absurd hq' (by simp [CSPc])
    · rw [Function.update_noteq hvw] at hv
      exact hnoCS v (by rw [hv]; exact hq')
  have hndt := ndt_of hnd w (.errItem r) (by simp [DeclPc])
  have hnr : s.nr_available_files - 1 = (rest.length : Int) := by
    have h0 := h.nrEq
    rw [hq] at h0
    simp only [List.length_cons] at h0
    push_cast at h0 ⊢
    omega
  have hqs : ∀ it ∈ rest, isFileE it.2 = false := by
    intro it hit
    exact h.qshape it (by rw [hq]; exact List.mem_cons_of_mem _ hit)
  have hlk1 : ∀ v, s.lockHolder = some v →
      CSPc (Function.update s.pcs w (.errItem r) v) := by
    intro v hv
    rw [hl] at hv
    exact Option.noConfusion hv
  have hlk2 : ∀ v, CSPc (Function.update s.pcs w (.errItem r) v) →
      s.lockHolder = some v :=
    fun v hv => (habs v _ rfl hv).elim
  have htok : (∀ v, ¬ DeclPc (Function.update s.pcs w (.errItem r) v)) →
      s.available_sem + pendCount (Function.update s.pcs w (.errItem r))
        + winCount (Function.update s.pcs w (.errItem r)) = rest.length := by
    intro _
    have hpre := h.tokens hnd
    rw [hq] at hpre
    simp only [List.length_cons] at hpre
    have hwin := sum_update_nat winInd s.pcs w (.errItem r)
    rw [hpc, show winInd Pc.pop = 1 from by simp [winInd],
      show winInd (Pc.errItem r) = 0 from by simp [winInd]] at hwin
    have hpend : pendCount (Function.update s.pcs w (.errItem r)) = pendCount s.pcs :=
      sum_update_eq pendInd s.pcs w _ (by rw [hpc]; simp [pendInd])
    unfold winCount at hpre ⊢
    unfold pendCount at hpre hpend ⊢
    omega
  have hds : s.done = true →
      (∃ v, ScanLike (Function.update s.pcs w (.errItem r) v)) ∨
        (∃ v, Function.update s.pcs w (.errItem r) v = .term) := by
    intro hd
    rcases h.doneSrc hd with ⟨v, hv⟩ | ⟨v, hv⟩
    · exact absurd (scanlike_cs _ hv) (hnoCS v)
    · right
      have hvw : v ≠ w := by
        intro he
        rw [he, hpc] at hv
        exact Pc.noConfusion hv
      exact ⟨v, by rw [Function.update_noteq hvw]; exact hv⟩
  have hacc : ∀ R, s.total_sizes R + queueSum R rest
      + workerSum R (Function.update s.pcs w (.errItem r)) = targets j roots R := by
    intro R
    have hpre := h.acc R
    rw [hq] at hpre
    have hws := sum_update_nat (wRest R) s.pcs w (.errItem r)
    rw [hpc, show wRest R Pc.pop = 0 from by simp [wRest],
      show wRest R (Pc.errItem r) = 0 from by simp [wRest]] at hws
    rw [show queueSum R ((r, Entry.statFail n) :: rest)
        = queueSum R rest from by simp [queueSum, procOf]] at hpre
    unfold workerSum at hpre ⊢
    omega
  have herr : (s.exit_status = true ∨ queueErr rest = true ∨
      ∃ v, wErr (Function.update s.pcs w (.errItem r) v) = true) ↔
      targetErr j roots = true := by
    rw [exists_bool_update wErr s.pcs w (.errItem r)]
    rw [← h.errI, hq, exists_bool_split wErr s.pcs w,
      show wErr (s.pcs w) = false from by rw [hpc]; simp [wErr],
      show wErr (Pc.errItem r) = true from by simp [wErr],
      show queueErr ((r, Entry.statFail n) :: rest)
        = (true || queueErr rest) from by simp [queueErr, entryErr]]
    simp only [Bool.or_eq_true, Bool.false_eq_true]
    tauto
  have hg : seedsMS j roots + s.pushed
      = (s.popped + {(r, Entry.statFail n)}) + (rest : Multiset Item) := by
    have hpre := h.ghost
    rw [hq] at hpre
    rw [show (((r, Entry.statFail n) :: rest : List Item) : Multiset Item)
        = {(r, Entry.statFail n)} + (rest : Multiset Item) from rfl] at hpre
    rw [hpre]
    abel
  exact
    { hK := h.hK
      nrEq := hnr
      qshape := hqs
      dt := dt_transfer h.dt w (.errItem r) (by rw [hpc]; simp [IdlePc])
      lk1 := hlk1
      lk2 := hlk2
      tokens := htok
      scanF := fun v i hv => (habs v _ hv (by trivial)).elim
      setDoneF := fun v hv => (habs v _ hv (by trivial)).elim
      declF := fun v i hv => (habs v _ hv (by trivial)).elim
      rdF := fun v hv => (habs v _ hv (by trivial)).elim
      uwF := fun v hv => (habs v _ hv (by trivial)).elim
      doneSrc := hds
      ts := fun u hu => absurd hu (hndt u)
      dinv := fun u hu => absurd hu (hndt u)
      ns := fun hall => ns_any s.pcs w (.errItem r) (by simp) hall
      acc := hacc
      errI := herr
      ghost := hg
      dcl0 := dcl0_transfer h w (.errItem r) (by rw [hpc]; simp [DeclPc])
      dcl1 := h.dcl1 }

/-- Preservation for pushing a directory child onto the work queue (lines 283-287). -/
theorem inv_workPush {K : Nat} {j : Junk} {roots : List Entry} {s : St K}
    (h : Inv K j roots s) (w : Fin K) (r : Nat) (n : String) (b : Nat)
    (ro oo co : Bool) (es : List Entry)
    (rem : List Entry) (acc : Nat) (c : Bool)
    (hpc : s.pcs w = .work r (.dir n b ro oo co es :: rem) acc c)
    (hl : s.lockHolder = none) :
    Inv K j roots
      { s with available_files :=
                 set_available_file (r, .dir n b ro oo co es) s.available_files
               nr_available_files := s.nr_available_files + 1
               pushed := s.pushed + {(r, .dir n b ro oo co es)}
               pcs := Function.update s.pcs w (.postPending r rem (acc + b) c) } := by
  have hnd : NoDecl s := noDecl_of_nonW h w (by rw [hpc]; simp [WPc])
  have hnoCS := five_noCS h hl
  have habs : ∀ v q', Function.update s.pcs w (.postPending r rem (acc + b) c) v = q' →
      CSPc q' → False := by
    intro v q' hv hq'
    by_cases hvw : v = w
    · subst hvw
      rw [Function.update_same] at hv
      rw [← hv] at hq'
      exact absurd hq' (by simp [CSPc])
    · rw [Function.update_noteq hvw] at hv
      exact hnoCS v (by rw [hv]; exact hq')
  have hndt := ndt_of hnd w (.postPending r rem (acc + b) c) (by simp [DeclPc])
  have hnr : s.nr_available_files + 1
      = ((set_available_file (r, Entry.dir n b ro oo co es) s.available_files).length : Int) := by
    have h0 := h.nrEq
    simp only [set_available_file, List.length_cons]
    push_cast
    omega
  have hqs : ∀ it ∈ set_available_file (r, Entry.dir n b ro oo co es) s.available_files,
      isFileE it.2 = false := by
    intro it hit
    rcases List.mem_cons.mp hit with heq | hmem
    · subst heq
      simp [isFileE]
    · exact h.qshape it hmem
  have hlk1 : ∀ v, s.lockHolder = some v →
      CSPc (Function.update s.pcs w (.postPending r rem (acc + b) c) v) := by
    intro v hv
    rw [hl] at hv
    exact Option.noConfusion hv
  have hlk2 : ∀ v, CSPc (Function.update s.pcs w (.postPending r rem (acc + b) c) v) →
      s.lockHolder = some v :=
    fun v hv => (habs v _ rfl hv).elim
  have htok : (∀ v, ¬ DeclPc (Function.update s.pcs w (.postPending r rem (acc + b) c) v)) →
      s.available_sem + pendCount (Function.update s.pcs w (.postPending r rem (acc + b) c))
        + winCount (Function.update s.pcs w (.postPending r rem (acc + b) c))
        = (set_available_file (r, Entry.dir n b ro oo co es) s.available_files).length := by
    intro _
    have hpre := h.tokens hnd
    have hpend := sum_update_nat pendInd s.pcs w (.postPending r rem (acc + b) c)
    rw [hpc, show pendInd (Pc.work r (Entry.dir n b ro oo co es :: rem) acc c) = 0 from by
        simp [pendInd],
      show pendInd (Pc.postPending r rem (acc + b) c) = 1 from by simp [pendInd]] at hpend
    have hwin : winCount (Function.update s.pcs w (.postPending r rem (acc + b) c))
        = winCount s.pcs :=
      sum_update_eq winInd s.pcs w _ (by rw [hpc]; simp [winInd])
    simp only [set_available_file, List.length_cons]
    unfold pendCount at hpre ⊢
    unfold winCount at hpre hwin ⊢
    omega
  have hds : s.done = true →
      (∃ v, ScanLike (Function.update s.pcs w (.postPending r rem (acc + b) c) v)) ∨
        (∃ v, Function.update s.pcs w (.postPending r rem (acc + b) c) v = .term) := by
    intro hd
    rcases h.doneSrc hd with ⟨v, hv⟩ | ⟨v, hv⟩
    · exact absurd (scanlike_cs _ hv) (hnoCS v)
    · right
      have hvw : v ≠ w := by
        intro he
        rw [he, hpc] at hv
        exact Pc.noConfusion hv
      exact ⟨v, by rw [Function.update_noteq hvw]; exact hv⟩
  have hacc : ∀ R, s.total_sizes R
      + queueSum R (set_available_file (r, Entry.dir n b ro oo co es) s.available_files)
      + workerSum R (Function.update s.pcs w (.postPending r rem (acc + b) c))
      = targets j roots R := by
    intro R
    have hpre := h.acc R
    have hws := sum_update_nat (wRest R) s.pcs w (.postPending r rem (acc + b) c)
    rw [hpc,
      show wRest R (Pc.work r (Entry.dir n b ro oo co es :: rem) acc c)
        = if r = R then acc + (b + dirSum ro oo es + listSum rem) else 0 from by
        simp [wRest, listSum, entrySum],
      show wRest R (Pc.postPending r rem (acc + b) c)
        = if r = R then acc + b + listSum rem else 0 from by simp [wRest]] at hws
    rw [show queueSum R (set_available_file (r, Entry.dir n b ro oo co es) s.available_files)
        = (if r = R then dirSum ro oo es else 0) + queueSum R s.available_files from by
      simp [set_available_file, queueSum, procOf]]
    unfold workerSum at hpre ⊢
    by_cases hrR : r = R
    · simp only [if_pos hrR] at hws ⊢
      omega
    · simp only [if_neg hrR] at hws ⊢
      omega
  have herr : (s.exit_status = true ∨
      queueErr (set_available_file (r, Entry.dir n b ro oo co es) s.available_files) = true ∨
      ∃ v, wErr (Function.update s.pcs w (.postPending r rem (acc + b) c) v) = true) ↔
      targetErr j roots = true := by
    rw [exists_bool_update wErr s.pcs w (.postPending r rem (acc + b) c)]
    rw [← h.errI, exists_bool_split wErr s.pcs w,
      show wErr (s.pcs w)
        = ((dirErr ro oo co es || listErr rem) || !c) from by rw [hpc]; simp [wErr, listErr, entryErr],
      show wErr (Pc.postPending r rem (acc + b) c) = (listErr rem || !c) from by simp [wErr],
      show queueErr (set_available_file (r, Entry.dir n b ro oo co es) s.available_files)
        = (dirErr ro oo co es || queueErr s.available_files) from by
        simp [set_available_file, queueErr, entryErr]]
    simp only [Bool.or_eq_true]
    tauto
  have hg : seedsMS j roots + (s.pushed + {(r, Entry.dir n b ro oo co es)})
      = s.popped +
        ((set_available_file (r, Entry.dir n b ro oo co es) s.available_files : List Item) :
          Multiset Item) := by
    have hpre := h.ghost
    rw [show ((set_available_file (r, Entry.dir n b ro oo co es) s.available_files :
          List Item) : Multiset Item)
        = {(r, Entry.dir n b ro oo co es)} + (s.available_files : Multiset Item) from rfl]
    rw [← add_assoc, hpre]
    abel
  exact
    { hK := h.hK
      nrEq := hnr
      qshape := hqs
      dt := dt_transfer h.dt w (.postPending r rem (acc + b) c) (by rw [hpc]; simp [IdlePc])
      lk1 := hlk1
      lk2 := hlk2
      tokens := htok
      scanF := fun v i hv => (habs v _ hv (by trivial)).elim
      setDoneF := fun v hv => (habs v _ hv (by trivial)).elim
      declF := fun v i hv => (habs v _ hv (by trivial)).elim
      rdF := fun v hv => (habs v _ hv (by trivial)).elim
      uwF := fun v hv => (habs v _ hv (by trivial)).elim
      doneSrc := hds
      ts := fun u hu => absurd hu (hndt u)
      dinv := fun u hu => absurd hu (hndt u)
      ns := fun hall => ns_any s.pcs w (.postPending r rem (acc + b) c) (by simp) hall
      acc := hacc
      errI := herr
      ghost := hg
      dcl0 := dcl0_transfer h w (.postPending r rem (acc + b) c) (by rw [hpc]; simp [DeclPc])
      dcl1 := h.dcl1 }

/-- Preservation for the sem_post that follows a push (line 288, outside the lock). -/
theorem inv_postStep {K : Nat} {j : Junk} {roots : List Entry} {s : St K}
    (h : Inv K j roots s) (w : Fin K) (r : Nat)
    (rem : List Entry) (acc : Nat) (c : Bool)
    (hpc : s.pcs w = .postPending r rem acc c) :
    Inv K j roots
      { s with available_sem := s.available_sem + 1
               postedReal := s.postedReal + 1
               pcs := Function.update s.pcs w (.work r rem acc c) } := by
  have hnd : NoDecl s := noDecl_of_nonW h w (by rw [hpc]; simp [WPc])
  have hfive := five_transfer h w (.work r rem acc c) (by simp) (by simp) (by simp)
    (by simp) (by simp)
  have hlk := lk_transfer h w (.work r rem acc c) (by rw [hpc]; simp [CSPc])
  have hndt := ndt_of hnd w (.work r rem acc c) (by simp [DeclPc])
  have htok : (∀ v, ¬ DeclPc (Function.update s.pcs w (.work r rem acc c) v)) →
      s.available_sem + 1 + pendCount (Function.update s.pcs w (.work r rem acc c))
        + winCount (Function.update s.pcs w (.work r rem acc c))
        = s.available_files.length := by
    intro _
    have hpre := h.tokens hnd
    have hpend := sum_update_nat pendInd s.pcs w (.work r rem acc c)
    rw [hpc, show pendInd (Pc.postPending r rem acc c) = 1 from by simp [pendInd],
      show pendInd (Pc.work r rem acc c) = 0 from by simp [pendInd]] at hpend
    have hwin : winCount (Function.update s.pcs w (.work r rem acc c)) = winCount s.pcs :=
      sum_update_eq winInd s.pcs w _ (by rw [hpc]; simp [winInd])
    unfold pendCount at hpre ⊢
    unfold winCount at hpre hwin ⊢
    omega
  have hds : s.done = true →
      (∃ v, ScanLike (Function.update s.pcs w (.work r rem acc c) v)) ∨
        (∃ v, Function.update s.pcs w (.work r rem acc c) v = .term) := by
    intro hd
    refine doneSrc_transfer w _ (h.doneSrc hd) ?_
    rw [hpc]
    rintro (hx | hx) <;> simp [ScanLike] at hx
  exact
    { hK := h.hK
      nrEq := h.nrEq
      qshape := h.qshape
      dt := dt_transfer h.dt w (.work r rem acc c) (by rw [hpc]; simp [IdlePc])
      lk1 := hlk.1
      lk2 := hlk.2
      tokens := htok
      scanF := hfive.1
      setDoneF := hfive.2.1
      declF := hfive.2.2.1
      rdF := hfive.2.2.2.1
      uwF := hfive.2.2.2.2
      doneSrc := hds
      ts := fun u hu => absurd hu (hndt u)
      dinv := fun u hu => absurd hu (hndt u)
      ns := fun hall => ns_any s.pcs w (.work r rem acc c) (by simp) hall
      acc := acc_transfer h w (.work r rem acc c) (by intro R; rw [hpc]; simp [wRest])
      errI := errI_transfer h w (.work r rem acc c) (by rw [hpc]; simp [wErr])
      ghost := h.ghost
      dcl0 := dcl0_transfer h w (.work r rem acc c) (by rw [hpc]; simp [DeclPc])
      dcl1 := h.dcl1 }

/-- Preservation for the locked total_sizes[parent_id] += size update (lines 188-190 via line 94-101). -/
theorem inv_addSize {K : Nat} {j : Junk} {roots : List Entry} {s : St K}
    (h : Inv K j roots s) (w : Fin K) (r : Nat) (acc : Nat)
    (hpc : s.pcs w = .addSize r acc) :
    Inv K j roots
      { s with total_sizes := fun x => if x = r then s.total_sizes x + acc else s.total_sizes x
               pcs := Function.update s.pcs w .lock } := by
  have hnd : NoDecl s := noDecl_of_nonW h w (by rw [hpc]; simp [WPc])
  have hfive := five_transfer h w .lock (by simp) (by simp) (by simp) (by simp) (by simp)
  have hlk := lk_transfer h w .lock (by rw [hpc]; simp [CSPc])
  have hndt := ndt_of hnd w .lock (by simp [DeclPc])
  have hds : s.done = true →
      (∃ v, ScanLike (Function.update s.pcs w .lock v)) ∨
        (∃ v, Function.update s.pcs w .lock v = .term) := by
    intro hd
    refine doneSrc_transfer w _ (h.doneSrc hd) ?_
    rw [hpc]
    rintro (hx | hx) <;> simp [ScanLike] at hx
  have hacc : ∀ R, (if R = r then s.total_sizes R + acc else s.total_sizes R)
      + queueSum R s.available_files
      + workerSum R (Function.update s.pcs w .lock) = targets j roots R := by
    intro R
    have hpre := h.acc R
    have hws := sum_update_nat (wRest R) s.pcs w .lock
    rw [hpc, show wRest R Pc.lock = 0 from by simp [wRest]] at hws
    unfold workerSum at hpre ⊢
    by_cases hrR : R = r
    · rw [if_pos hrR]
      rw [show wRest R (Pc.addSize r acc) = acc from by
        simp [wRest, hrR.symm]] at hws
      omega
    · rw [if_neg hrR]
      rw [show wRest R (Pc.addSize r acc) = 0 from by
        simp only [wRest]
        rw [if_neg (fun hx => hrR hx.symm)]] at hws
      omega
  exact
    { hK := h.hK
      nrEq := h.nrEq
      qshape := h.qshape
      dt := dt_transfer h.dt w .lock (by rw [hpc]; simp [IdlePc])
      lk1 := hlk.1
      lk2 := hlk.2
      tokens := counts_transfer h w .lock (by rw [hpc]; simp [winInd])
        (by rw [hpc]; simp [pendInd]) hnd
      scanF := hfive.1
      setDoneF := hfive.2.1
      declF := hfive.2.2.1
      rdF := hfive.2.2.2.1
      uwF := hfive.2.2.2.2
      doneSrc := hds
      ts := fun u hu => absurd hu (hndt u)
      dinv := fun u hu => absurd hu (hndt u)
      ns := fun hall => ns_any s.pcs w .lock (by simp) hall
      acc := hacc
      errI := errI_transfer h w .lock (by rw [hpc]; simp [wErr])
      ghost := h.ghost
      dcl0 := dcl0_transfer h w .lock (by rw [hpc]; simp [DeclPc])
      dcl1 := h.dcl1 }

/-- The state in which the worker pool starts satisfies the invariant. -/
theorem initInv (K : Nat) (j : Junk) (roots : List Entry) (hK : 0 < K) :
    Inv K j roots (initSt K j roots) := by
  refine
    { hK := hK
      nrEq := by simp [initSt]
      qshape := ?_
      dt := fun w => by simp [initSt, IdlePc]
      lk1 := fun w h => by simp [initSt] at h
      lk2 := fun w h => by simp [initSt, CSPc] at h
      tokens := ?_
      scanF := fun w i h => by simp [initSt] at h
      setDoneF := fun w h => by simp [initSt] at h
      declF := fun w i h => by simp [initSt] at h
      rdF := fun w h => by simp [initSt] at h
      uwF := fun w h => by simp [initSt] at h
      doneSrc := fun h => by simp [initSt] at h
      ts := fun w h => by simp [initSt, DeclPc] at h
      dinv := fun w h => by simp [initSt, DeclPc] at h
      ns := ?_
      acc := ?_
      errI := ?_
      ghost := by simp [initSt, seedsMS]
      dcl0 := ?_
      dcl1 := by simp [initSt] }
  · intro it hit
    refine seedLoop_qshape j roots 0
      { total_sizes := [], available_files := [], exit_status := false } ?_ it ?_
    · intro it' hit'
      exact absurd hit' (List.not_mem_nil it')
    · simpa [initSt, seedAll] using hit
  · intro hnd
    simp [initSt, pendCount, winCount, pendInd, winInd]
  · intro h
    have h0 := h ⟨0, hK⟩
    simp [initSt] at h0
  · intro r
    have h := seedLoop_acc j roots
      { total_sizes := [], available_files := [], exit_status := false } r
    have hw : workerSum r (initSt K j roots).pcs = 0 := by
      simp [initSt, workerSum, wRest]
    have h2 : (seedAll j roots).total_sizes.getD r 0
        + queueSum r (seedAll j roots).available_files = targets j roots r := by
      simpa [seedAll, queueSum] using h
    rw [hw]
    simp only [initSt]
    omega
  · have h := seedLoop_err j roots 0
      { total_sizes := [], available_files := [], exit_status := false }
    have h2 : ((seedAll j roots).exit_status
        || queueErr (seedAll j roots).available_files) = targetErr j roots := by
      simpa [seedAll, queueErr, targetErr] using h
    constructor
    · rintro (hx | hx | ⟨w, hwx⟩)
      · rw [← h2]
        simp only [initSt] at hx
        simp [hx]
      · rw [← h2]
        simp only [initSt] at hx
        simp [hx]
      · simp [initSt, wErr] at hwx
    · intro ht
      rw [← h2] at ht
      have ht' : (seedAll j roots).exit_status = true ∨
          queueErr (seedAll j roots).available_files = true := by simpa using ht
      rcases ht' with hx | hx
      · exact Or.inl (by simp [initSt, hx])
      · exact Or.inr (Or.inl (by simp [initSt, hx]))
  · constructor
    · intro _ w
      simp [initSt, DeclPc]
    · intro _
      simp [initSt]

/-- The expansion loop head is outside every synchronisation-sensitive program-counter class. -/
theorem busy_work (K : Nat) (r : Nat) (rem : List Entry) (acc : Nat) (c : Bool) :
    BusyPc K (.work r rem acc c) :=
  ⟨id, id, id, id, id, rfl, rfl, rfl, rfl⟩

/-- The failed-item error write is outside every synchronisation-sensitive program-counter class. -/
theorem busy_errItem (K : Nat) (r : Nat) : BusyPc K (.errItem r) :=
  ⟨id, id, id, id, id, rfl, rfl, rfl, rfl⟩

/-- The closedir-failure error write is outside every synchronisation-sensitive program-counter class. -/
theorem busy_errClose (K : Nat) (r : Nat) (acc : Nat) : BusyPc K (.errClose r acc) :=
  ⟨id, id, id, id, id, rfl, rfl, rfl, rfl⟩

/-- The size-accumulation point is outside every synchronisation-sensitive program-counter class. -/
theorem busy_addSize (K : Nat) (r : Nat) (acc : Nat) : BusyPc K (.addSize r acc) :=
  ⟨id, id, id, id, id, rfl, rfl, rfl, rfl⟩

/-- Every step of the pool preserves the invariant. -/
theorem stepInv {K : Nat} {j : Junk} {roots : List Entry} {s t : St K}
    (h : Inv K j roots s) (hst : Step s t) : Inv K j roots t := by
  cases hst with
  | lockAcq w hpc hl => exact inv_lockAcq h w hpc hl
  | markIdleStep w hpc => exact inv_markIdle h w hpc
  | checkNrZero w hpc h0 => exact inv_checkNrZero h w hpc h0
  | checkNrPos w hpc h0 => exact inv_checkNrPos h w hpc h0
  | setDoneStep w hpc => exact inv_setDone h w hpc
  | scanTrue w i hpc hi ht => exact inv_scanTrue h w i hpc hi ht
  | scanFalse w i hpc hi hf => exact inv_scanFalse h w i hpc hi hf
  | scanDone w hpc => exact inv_scanDone h w hpc
  | declarePost w i hpc hi => exact inv_declarePost h w i hpc hi
  | declareFin w hpc => exact inv_declareFin h w hpc
  | unlockTStep w hpc => exact inv_unlockT h w hpc
  | resetDoneStep w hpc => exact inv_resetDone h w hpc
  | unlockWStep w hpc => exact inv_unlockW h w hpc
  | semWait w hpc hs => exact inv_semWait h w hpc hs
  | checkDoneTrue w hpc hd => exact inv_checkDoneTrue h w hpc hd
  | checkDoneFalse w hpc hd => exact inv_checkDoneFalse h w hpc hd
  | markBusyStep w hpc => exact inv_markBusy h w hpc
  | popDir w r n b co es rest hpc hl hq => exact inv_popDir h w r n b co es rest hpc hl hq
  | popDirFail w r n b ro oo co es rest hpc hl hq hbad =>
      exact inv_popDirFail h w r n b ro oo co es rest hpc hl hq hbad
  | popStatFail w r n rest hpc hl hq => exact inv_popStatFail h w r n rest hpc hl hq
  | workFile w r n b rem acc c hpc =>
      refine inv_localStep h w (.work r rem (acc + b) c) s.exit_status ?_ ?_ ?_ ?_
      · rw [hpc]; exact busy_work K r _ acc c
      · exact busy_work K r rem (acc + b) c
      · intro R
        rw [hpc]
        simp [wRest, listSum, entrySum, Nat.add_assoc]
      · exact Or.inl ⟨rfl, by rw [hpc]; simp [wErr, listErr, entryErr]⟩
  | workStatFail w r n rem acc c hpc =>
      refine inv_localStep h w (.work r rem acc c) true ?_ ?_ ?_ ?_
      · rw [hpc]; exact busy_work K r _ acc c
      · exact busy_work K r rem acc c
      · intro R
        rw [hpc]
        simp [wRest, listSum, entrySum]
      · exact Or.inr ⟨rfl, by rw [hpc]; simp [wErr, listErr, entryErr]⟩
  | workPush w r n b ro oo co es rem acc c hpc hl =>
      exact inv_workPush h w r n b ro oo co es rem acc c hpc hl
  | postStep w r rem acc c hpc => exact inv_postStep h w r rem acc c hpc
  | workClose w r acc hpc =>
      refine inv_localStep h w (.addSize r acc) s.exit_status ?_ ?_ ?_ ?_
      · rw [hpc]; exact busy_work K r [] acc true
      · exact busy_addSize K r acc
      · intro R
        rw [hpc]
        simp [wRest, listSum]
      · exact Or.inl ⟨rfl, by rw [hpc]; simp [wErr, listErr]⟩
  | workCloseFail w r acc hpc =>
      refine inv_localStep h w (.errClose r acc) s.exit_status ?_ ?_ ?_ ?_
      · rw [hpc]; exact busy_work K r [] acc false
      · exact busy_errClose K r acc
      · intro R
        rw [hpc]
        simp [wRest, listSum]
      · exact Or.inl ⟨rfl, by rw [hpc]; simp [wErr, listErr]⟩
  | errCloseStep w r acc hpc =>
      refine inv_localStep h w (.addSize r acc) true ?_ ?_ ?_ ?_
      · rw [hpc]; exact busy_errClose K r acc
      · exact busy_addSize K r acc
      · intro R
        rw [hpc]
        simp [wRest]
      · exact Or.inr ⟨rfl, by rw [hpc]; simp [wErr]⟩
  | errItemStep w r hpc =>
      refine inv_localStep h w (.addSize r 0) true ?_ ?_ ?_ ?_
      · rw [hpc]; exact busy_errItem K r
      · exact busy_addSize K r 0
      · intro R
        rw [hpc]
        simp [wRest]
      · exact Or.inr ⟨rfl, by rw [hpc]; simp [wErr]⟩
  | addSizeStep w r acc hpc => exact inv_addSize h w r acc hpc

/-- Every state the pool can reach from its start satisfies the invariant. -/
theorem reach_inv {K : Nat} {j : Junk} {roots : List Entry} {t : St K}
    (hK : 0 < K) (hre : Reach (initSt K j roots) t) : Inv K j roots t := by
  induction hre with
  | refl => exact initInv K j roots hK
  | tail hab hbc ih => exact stepInv ih hbc

/-- Deadlock freedom: in any invariant state where some worker has not yet exited, some step is enabled. -/
theorem pool_progress {K : Nat} {j : Junk} {roots : List Entry} {s : St K}
    (h : Inv K j roots s) (hnt : ¬ AllTerm s) : ∃ t, Step s t := by
  cases hhold : s.lockHolder with
  | some v =>
      have hcs : CSPc (s.pcs v) := h.lk1 v hhold
      cases hpcv : s.pcs v with
      | markIdle => exact ⟨_, .markIdleStep v hpcv⟩
      | checkNr =>
          by_cases h0 : s.nr_available_files = 0
          · exact ⟨_, .checkNrZero v hpcv h0⟩
          · exact ⟨_, .checkNrPos v hpcv h0⟩
      | setDone => exact ⟨_, .setDoneStep v hpcv⟩
      | scan i =>
          have hiK := (h.scanF v i hpcv).1
          rcases Nat.lt_or_ge i K with hlt | hge
          · cases hdb : s.done_threads ⟨i, hlt⟩ with
            | false => exact ⟨_, .scanFalse v i hpcv hlt hdb⟩
            | true => exact ⟨_, .scanTrue v i hpcv hlt hdb⟩
          · have hik : i = K := Nat.le_antisymm hiK hge
            rw [hik] at hpcv
            exact ⟨_, .scanDone v hpcv⟩
      | resetDone => exact ⟨_, .resetDoneStep v hpcv⟩
      | declare i =>
          have hiK := h.declF v i hpcv
          rcases Nat.lt_or_ge i K with hlt | hge
          · exact ⟨_, .declarePost v i hpcv hlt⟩
          · have hik : i = K := Nat.le_antisymm hiK hge
            rw [hik] at hpcv
            exact ⟨_, .declareFin v hpcv⟩
      | unlockT => exact ⟨_, .unlockTStep v hpcv⟩
      | unlockW => exact ⟨_, .unlockWStep v hpcv⟩
      | lock => rw [hpcv] at hcs; exact absurd hcs id
      | wait => rw [hpcv] at hcs; exact absurd hcs id
      | checkDone => rw [hpcv] at hcs; exact absurd hcs id
      | markBusy => rw [hpcv] at hcs; exact absurd hcs id
      | pop => rw [hpcv] at hcs; exact absurd hcs id
      | errItem r => rw [hpcv] at hcs; exact absurd hcs id
      | work r rem acc c => rw [hpcv] at hcs; exact absurd hcs id
      | postPending r rem acc c => rw [hpcv] at hcs; exact absurd hcs id
      | errClose r acc => rw [hpcv] at hcs; exact absurd hcs id
      | addSize r acc => rw [hpcv] at hcs; exact absurd hcs id
      | term => rw [hpcv] at hcs; exact absurd hcs id
  | none =>
      by_cases hall : ∀ u, s.pcs u = .wait ∨ s.pcs u = .term
      · unfold AllTerm at hnt
        obtain ⟨w, hwneq⟩ := not_forall.mp hnt
        have hw : s.pcs w = .wait := by
          rcases hall w with hx | hx
          · exact hx
          · exact absurd hx hwneq
        by_cases hdec : ∃ u, DeclPc (s.pcs u)
        · obtain ⟨u, hu⟩ := hdec
          have hdi := h.dinv u hu
          have hdr : declRem s.pcs = 0 := by
            unfold declRem
            refine Finset.sum_eq_zero ?_
            intro x _
            rcases hall x with hx | hx <;> rw [hx] <;> simp [declRemOf]
          have hwc : 1 ≤ waitCount s.pcs := by
            have hts := term_le_sum waitInd s.pcs w
            rw [hw] at hts
            simp only [show waitInd Pc.wait = 1 from rfl] at hts
            unfold waitCount
            omega
          rw [hdr] at hdi
          have hsem : 0 < s.available_sem := by omega
          exact ⟨_, .semWait w hw hsem⟩
        · have hnd : NoDecl s := fun u hu => hdec ⟨u, hu⟩
          have hallw : ∀ u, s.pcs u = .wait := by
            intro u
            rcases hall u with hx | hx
            · exact hx
            · exact absurd (show DeclPc (s.pcs u) by rw [hx]; trivial) (hnd u)
          have htk := h.tokens hnd
          by_cases hsem : 0 < s.available_sem
          · exact ⟨_, .semWait w hw hsem⟩
          · exfalso
            have hs0 : s.available_sem = 0 := by omega
            have hpc0 : pendCount s.pcs = 0 := by
              unfold pendCount
              exact Finset.sum_eq_zero (fun x _ => by rw [hallw x]; simp [pendInd])
            have hwc0 : winCount s.pcs = 0 := by
              unfold winCount
              exact Finset.sum_eq_zero (fun x _ => by rw [hallw x]; simp [winInd])
            have hqe : s.available_files = [] := by
              rw [List.length_eq_zero.symm]
              omega
            rcases h.ns hallw with hne | hne
            · exact hne hqe
            · exact hne hs0
      · push_neg at hall
        obtain ⟨v, hv1, hv2⟩ := hall
        cases hpcv : s.pcs v with
        | lock => exact ⟨_, .lockAcq v hpcv hhold⟩
        | markIdle =>
            have := h.lk2 v (by rw [hpcv]; trivial)
            rw [hhold] at this
            exact Option.noConfusion this
        | checkNr =>
            have := h.lk2 v (by rw [hpcv]; trivial)
            rw [hhold] at this
            exact Option.noConfusion this
        | setDone =>
            have := h.lk2 v (by rw [hpcv]; trivial)
            rw [hhold] at this
            exact Option.noConfusion this
        | scan i =>
            have := h.lk2 v (by rw [hpcv]; trivial)
            rw [hhold] at this
            exact Option.noConfusion this
        | resetDone =>
            have := h.lk2 v (by rw [hpcv]; trivial)
            rw [hhold] at this
            exact Option.noConfusion this
        | declare i =>
            have := h.lk2 v (by rw [hpcv]; trivial)
            rw [hhold] at this
            exact Option.noConfusion this
        | unlockT =>
            have := h.lk2 v (by rw [hpcv]; trivial)
            rw [hhold] at this
            exact Option.noConfusion this
        | unlockW =>
            have := h.lk2 v (by rw [hpcv]; trivial)
            rw [hhold] at this
            exact Option.noConfusion this
        | wait => exact absurd hpcv hv1
        | term => exact absurd hpcv hv2
        | checkDone =>
            cases hdd : s.done with
            | false => exact ⟨_, .checkDoneFalse v hpcv hdd⟩
            | true => exact ⟨_, .checkDoneTrue v hpcv hdd⟩
        | markBusy => exact ⟨_, .markBusyStep v hpcv⟩
        | pop =>
            have hnd : NoDecl s := noDecl_of_nonW h v (by rw [hpcv]; simp [WPc])
            have htk := h.tokens hnd
            cases hq : s.available_files with
            | nil =>
                exfalso
                rw [hq] at htk
                simp only [List.length_nil] at htk
                have hts := term_le_sum winInd s.pcs v
                rw [hpcv] at hts
                simp only [show winInd Pc.pop = 1 from rfl] at hts
                unfold winCount at htk
                omega
            | cons it rest =>
                obtain ⟨r, e⟩ := it
                have hsf := h.qshape (r, e) (by rw [hq]; exact List.mem_cons_self _ _)
                cases e with
                | file n b => simp [isFileE] at hsf
                | statFail n => exact ⟨_, .popStatFail v r n rest hpcv hhold hq⟩
                | dir n b ro oo co es =>
                    by_cases hro : (ro && oo) = true
                    · have hro1 : ro = true := by
                        revert hro
                        cases ro <;> cases oo <;> simp
                      have hoo1 : oo = true := by
                        revert hro
                        cases ro <;> cases oo <;> simp
                      subst hro1
                      subst hoo1
                      exact ⟨_, .popDir v r n b co es rest hpcv hhold hq⟩
                    · have hbad : (ro && oo) = false := by
                        revert hro
                        cases (ro && oo) <;> simp
                      exact ⟨_, .popDirFail v r n b ro oo co es rest hpcv hhold hq hbad⟩
        | errItem r => exact ⟨_, .errItemStep v r hpcv⟩
        | errClose r acc => exact ⟨_, .errCloseStep v r acc hpcv⟩
        | work r rem acc c =>
            cases rem with
            | nil =>
                cases c with
                | false => exact ⟨_, .workCloseFail v r acc hpcv⟩
                | true => exact ⟨_, .workClose v r acc hpcv⟩
            | cons e rem' =>
                cases e with
                | file n b => exact ⟨_, .workFile v r n b rem' acc c hpcv⟩
                | statFail n => exact ⟨_, .workStatFail v r n rem' acc c hpcv⟩
                | dir n b ro oo co es =>
                    exact ⟨_, .workPush v r n b ro oo co es rem' acc c hpcv hhold⟩
        | postPending r rem acc c => exact ⟨_, .postStep v r rem acc c hpcv⟩
        | addSize r acc => exact ⟨_, .addSizeStep v r acc hpcv⟩

/-- In a reachable all-terminated state the queue is empty, every slot of total_sizes holds its root's target, and exit_status records exactly whether any error occurred. -/
theorem terminal_state {K : Nat} {j : Junk} {roots : List Entry} {s : St K}
    (hK : 0 < K) (hre : Reach (initSt K j roots) s) (ht : AllTerm s) :
    (∀ r, s.total_sizes r = targets j roots r) ∧
    s.exit_status = targetErr j roots ∧ s.available_files = [] := by
  have h := reach_inv hK hre
  have hd : DeclPc (s.pcs ⟨0, hK⟩) := by rw [ht ⟨0, hK⟩]; trivial
  obtain ⟨hallW, hdone, hqe⟩ := h.ts ⟨0, hK⟩ hd
  have hws : ∀ r, workerSum r s.pcs = 0 := by
    intro r
    unfold workerSum
    exact Finset.sum_eq_zero (fun x _ => by rw [ht x]; rfl)
  refine ⟨?_, ?_, hqe⟩
  · intro r
    have ha := h.acc r
    rw [hqe, hws r] at ha
    simpa [queueSum] using ha
  · have he := h.errI
    rw [hqe] at he
    cases hx : s.exit_status with
    | true => rw [he.mp (Or.inl hx)]
    | false =>
        cases hy : targetErr j roots with
        | false => rfl
        | true =>
            exfalso
            rcases he.mpr hy with hz | hz | ⟨v, hz⟩
            · rw [hx] at hz
              exact Bool.noConfusion hz
            · exact Bool.noConfusion hz
            · rw [ht v] at hz
              exact Bool.noConfusion hz

/-- On a well-formed root the final target equals the spec's reachable sum. -/
theorem rootTarget_wf (j : Junk) (e : Entry) (h : WellFormed e) :
    rootTarget j e = specReachSum e := by
  cases e with
  | file n b => rfl
  | statFail n => exact absurd h id
  | dir n b ro oo co es =>
      obtain ⟨hro, hoo, hco, hes⟩ := h
      subst hro
      subst hoo
      simp [rootTarget, seedBlocks, procOf, specReachSum, dirSum,
        listSum_eq_specListSum es hes]

/-- exit_status is never cleared: every step leaves it or sets it. -/
theorem exit_mono {K : Nat} {s t : St K} (hst : Step s t)
    (hex : s.exit_status = true) : t.exit_status = true := by
  cases hst <;> first | exact hex | rfl

/-- An update that does not change the pending-post indicator leaves the pending-post count unchanged. -/
theorem pendCount_update_eq {K : Nat} (f : Fin K → Pc) (w : Fin K) (p : Pc)
    (hg : pendInd p = pendInd (f w)) :
    pendCount (Function.update f w p) = pendCount f :=
  sum_update_eq pendInd f w p hg

/-- One step preserves the pairing of pushes with their semaphore signals: every pushed item has either had its sem_post issued or is held by a worker between the push of line 287 and the post of line 288. -/
theorem postInv_step {K : Nat} {s t : St K}
    (hp : Multiset.card s.pushed = s.postedReal + pendCount s.pcs)
    (hst : Step s t) :
    Multiset.card t.pushed = t.postedReal + pendCount t.pcs := by
  cases hst with
  | lockAcq w hpc hl =>
      show Multiset.card s.pushed
        = s.postedReal + pendCount (Function.update s.pcs w .markIdle)
      rw [pendCount_update_eq s.pcs w _ (by rw [hpc]; rfl)]
      exact hp
  | markIdleStep w hpc =>
      show Multiset.card s.pushed
        = s.postedReal + pendCount (Function.update s.pcs w .checkNr)
      rw [pendCount_update_eq s.pcs w _ (by rw [hpc]; rfl)]
      exact hp
  | checkNrZero w hpc h0 =>
      show Multiset.card s.pushed
        = s.postedReal + pendCount (Function.update s.pcs w .setDone)
      rw [pendCount_update_eq s.pcs w _ (by rw [hpc]; rfl)]
      exact hp
  | checkNrPos w hpc h0 =>
      show Multiset.card s.pushed
        = s.postedReal + pendCount (Function.update s.pcs w .unlockW)
      rw [pendCount_update_eq s.pcs w _ (by rw [hpc]; rfl)]
      exact hp
  | setDoneStep w hpc =>
      show Multiset.card s.pushed
        = s.postedReal + pendCount (Function.update s.pcs w (.scan 0))
      rw [pendCount_update_eq s.pcs w _ (by rw [hpc]; rfl)]
      exact hp
  | scanTrue w i hpc hi ht =>
      show Multiset.card s.pushed
        = s.postedReal + pendCount (Function.update s.pcs w (.scan (i + 1)))
      rw [pendCount_update_eq s.pcs w _ (by rw [hpc]; rfl)]
      exact hp
  | scanFalse w i hpc hi hf =>
      show Multiset.card s.pushed
        = s.postedReal + pendCount (Function.update s.pcs w .resetDone)
      rw [pendCount_update_eq s.pcs w _ (by rw [hpc]; rfl)]
      exact hp
  | scanDone w hpc =>
      show Multiset.card s.pushed
        = s.postedReal + pendCount (Function.update s.pcs w (.declare 0))
      rw [pendCount_update_eq s.pcs w _ (by rw [hpc]; rfl)]
      exact hp
  | declarePost w i hpc hi =>
      show Multiset.card s.pushed
        = s.postedReal + pendCount (Function.update s.pcs w (.declare (i + 1)))
      rw [pendCount_update_eq s.pcs w _ (by rw [hpc]; rfl)]
      exact hp
  | declareFin w hpc =>
      show Multiset.card s.pushed
        = s.postedReal + pendCount (Function.update s.pcs w .unlockT)
      rw [pendCount_update_eq s.pcs w _ (by rw [hpc]; rfl)]
      exact hp
  | unlockTStep w hpc =>
      show Multiset.card s.pushed
        = s.postedReal + pendCount (Function.update s.pcs w .term)
      rw [pendCount_update_eq s.pcs w _ (by rw [hpc]; rfl)]
      exact hp
  | resetDoneStep w hpc =>
      show Multiset.card s.pushed
        = s.postedReal + pendCount (Function.update s.pcs w .unlockW)
      rw [pendCount_update_eq s.pcs w _ (by rw [hpc]; rfl)]
      exact hp
  | unlockWStep w hpc =>
      show Multiset.card s.pushed
        = s.postedReal + pendCount (Function.update s.pcs w .wait)
      rw [pendCount_update_eq s.pcs w _ (by rw [hpc]; rfl)]
      exact hp
  | semWait w hpc hs =>
      show Multiset.card s.pushed
        = s.postedReal + pendCount (Function.update s.pcs w .checkDone)
      rw [pendCount_update_eq s.pcs w _ (by rw [hpc]; rfl)]
      exact hp
  | checkDoneTrue w hpc hd =>
      show Multiset.card s.pushed
        = s.postedReal + pendCount (Function.update s.pcs w .term)
      rw [pendCount_update_eq s.pcs w _ (by rw [hpc]; rfl)]
      exact hp
  | checkDoneFalse w hpc hd =>
      show Multiset.card s.pushed
        = s.postedReal + pendCount (Function.update s.pcs w .markBusy)
      rw [pendCount_update_eq s.pcs w _ (by rw [hpc]; rfl)]
      exact hp
  | markBusyStep w hpc =>
      show Multiset.card s.pushed
        = s.postedReal + pendCount (Function.update s.pcs w .pop)
      rw [pendCount_update_eq s.pcs w _ (by rw [hpc]; rfl)]
      exact hp
  | popDir w r n b co es rest hpc hl hq =>
      show Multiset.card s.pushed
        = s.postedReal + pendCount (Function.update s.pcs w (.work r es 0 co))
      rw [pendCount_update_eq s.pcs w _ (by rw [hpc]; rfl)]
      exact hp
  | popDirFail w r n b ro oo co es rest hpc hl hq hbad =>
      show Multiset.card s.pushed
        = s.postedReal + pendCount (Function.update s.pcs w (.errItem r))
      rw [pendCount_update_eq s.pcs w _ (by rw [hpc]; rfl)]
      exact hp
  | popStatFail w r n rest hpc hl hq =>
      show Multiset.card s.pushed
        = s.postedReal + pendCount (Function.update s.pcs w (.errItem r))
      rw [pendCount_update_eq s.pcs w _ (by rw [hpc]; rfl)]
      exact hp
  | workFile w r n b rem acc c hpc =>
      show Multiset.card s.pushed
        = s.postedReal + pendCount (Function.update s.pcs w (.work r rem (acc + b) c))
      rw [pendCount_update_eq s.pcs w _ (by rw [hpc]; rfl)]
      exact hp
  | workStatFail w r n rem acc c hpc =>
      show Multiset.card s.pushed
        = s.postedReal + pendCount (Function.update s.pcs w (.work r rem acc c))
      rw [pendCount_update_eq s.pcs w _ (by rw [hpc]; rfl)]
      exact hp
  | workPush w r n b ro oo co es rem acc c hpc hl =>
      show Multiset.card (s.pushed + {(r, Entry.dir n b ro oo co es)})
        = s.postedReal + pendCount (Function.update s.pcs w (.postPending r rem (acc + b) c))
      have hpend := sum_update_nat pendInd s.pcs w (.postPending r rem (acc + b) c)
      rw [hpc, show pendInd (Pc.work r (Entry.dir n b ro oo co es :: rem) acc c) = 0 from rfl,
        show pendInd (Pc.postPending r rem (acc + b) c) = 1 from rfl] at hpend
      rw [Multiset.card_add]
      simp only [Multiset.card_singleton]
      unfold pendCount at hp ⊢
      omega
  | postStep w r rem acc c hpc =>
      show Multiset.card s.pushed
        = s.postedReal + 1 + pendCount (Function.update s.pcs w (.work r rem acc c))
      have hpend := sum_update_nat pendInd s.pcs w (.work r rem acc c)
      rw [hpc, show pendInd (Pc.postPending r rem acc c) = 1 from rfl,
        show pendInd (Pc.work r rem acc c) = 0 from rfl] at hpend
      unfold pendCount at hp ⊢
      omega
  | workClose w r acc hpc =>
      show Multiset.card s.pushed
        = s.postedReal + pendCount (Function.update s.pcs w (.addSize r acc))
      rw [pendCount_update_eq s.pcs w _ (by rw [hpc]; rfl)]
      exact hp
  | workCloseFail w r acc hpc =>
      show Multiset.card s.pushed
        = s.postedReal + pendCount (Function.update s.pcs w (.errClose r acc))
      rw [pendCount_update_eq s.pcs w _ (by rw [hpc]; rfl)]
      exact hp
  | errCloseStep w r acc hpc =>
      show Multiset.card s.pushed
        = s.postedReal + pendCount (Function.update s.pcs w (.addSize r acc))
      rw [pendCount_update_eq s.pcs w _ (by rw [hpc]; rfl)]
      exact hp
  | errItemStep w r hpc =>
      show Multiset.card s.pushed
        = s.postedReal + pendCount (Function.update s.pcs w (.addSize r 0))
      rw [pendCount_update_eq s.pcs w _ (by rw [hpc]; rfl)]
      exact hp
  | addSizeStep w r acc hpc =>
      show Multiset.card s.pushed
        = s.postedReal + pendCount (Function.update s.pcs w .lock)
      rw [pendCount_update_eq s.pcs w _ (by rw [hpc]; rfl)]
      exact hp

/-- In every reachable state, pushes and their semaphore signals are paired one to one. -/
theorem postInv_reach {K : Nat} {j : Junk} {roots : List Entry} {s : St K}
    (hre : Reach (initSt K j roots) s) :
    Multiset.card s.pushed = s.postedReal + pendCount s.pcs := by
  induction hre with
  | refl =>
      show Multiset.card (0 : Multiset Item) = 0 + pendCount (fun _ : Fin K => Pc.lock)
      simp [pendCount, pendInd]
  | tail hab hbc ih => exact postInv_step ih hbc

/-- Concrete run, step 1: the worker takes available_lock (line 150). -/
theorem wit_step1 : Step wit0 wit1 := Step.lockAcq 0 rfl rfl

/-- Concrete run, step 2: done_threads[0] := 1 (line 151). -/
theorem wit_step2 : Step wit1 wit2 := Step.markIdleStep 0 rfl

/-- Concrete run, step 3: nr_available_files reads 0 (line 152). -/
theorem wit_step3 : Step wit2 wit3 := Step.checkNrZero 0 rfl rfl

/-- Concrete run, step 4: done := 1 (line 153). -/
theorem wit_step4 : Step wit3 wit4 := Step.setDoneStep 0 rfl

/-- Concrete run, step 5: the scan finds done_threads[0] set (line 154-159). -/
theorem wit_step5 : Step wit4 wit5 := Step.scanTrue 0 0 rfl Nat.one_pos rfl

/-- Concrete run, step 6: the scan completes and the worker declares termination (line 161). -/
theorem wit_step6 : Step wit5 wit6 := Step.scanDone 0 rfl

/-- Concrete run, step 7: the wake-up signal is posted (line 163-165). -/
theorem wit_step7 : Step wit6 wit7 := Step.declarePost 0 0 rfl Nat.one_pos

/-- Concrete run, step 8: the wake-up loop finishes. -/
theorem wit_step8 : Step wit7 wit8 := Step.declareFin 0 rfl

/-- Concrete run, step 9: the lock is released and the worker exits (line 166-167). -/
theorem wit_step9 : Step wit8 wit9 := Step.unlockTStep 0 rfl

/-- The concrete run reaches the state in which the declaration fires. -/
theorem wit_reach5 : Reach wit0 wit5 :=
  Relation.ReflTransGen.head wit_step1 (Relation.ReflTransGen.head wit_step2
    (Relation.ReflTransGen.head wit_step3 (Relation.ReflTransGen.head wit_step4
      (Relation.ReflTransGen.head wit_step5 Relation.ReflTransGen.refl))))

/-- The concrete run reaches full termination. -/
theorem wit_reach9 : Reach wit0 wit9 :=
  Relation.ReflTransGen.head wit_step1 (Relation.ReflTransGen.head wit_step2
    (Relation.ReflTransGen.head wit_step3 (Relation.ReflTransGen.head wit_step4
      (Relation.ReflTransGen.head wit_step5 (Relation.ReflTransGen.head wit_step6
        (Relation.ReflTransGen.head wit_step7 (Relation.ReflTransGen.head wit_step8
          (Relation.ReflTransGen.head wit_step9 Relation.ReflTransGen.refl))))))))

/-- The end state of the concrete run is fully terminated. -/
theorem wit9_term : AllTerm wit9 := by
  intro w
  fin_cases w
  rfl

/-- Semaphore run, step 1: the worker takes available_lock (line 150). -/
theorem cr_step1 : Step cr0 cr1 := Step.lockAcq 0 rfl rfl

/-- Semaphore run, step 2: done_threads[0] := 1 (line 151). -/
theorem cr_step2 : Step cr1 cr2 := Step.markIdleStep 0 rfl

/-- Semaphore run, step 3: nr_available_files reads 1 (line 152). -/
theorem cr_step3 : Step cr2 cr3 := Step.checkNrPos 0 rfl (by decide)

/-- Semaphore run, step 4: the lock is released (line 170). -/
theorem cr_step4 : Step cr3 cr4 := Step.unlockWStep 0 rfl

/-- Semaphore run, step 5: sem_wait succeeds (line 172). -/
theorem cr_step5 : Step cr4 cr5 := Step.semWait 0 rfl (by decide)

/-- The semaphore run reaches its end state. -/
theorem cr_reach : Reach cr0 cr5 :=
  Relation.ReflTransGen.head cr_step1 (Relation.ReflTransGen.head cr_step2
    (Relation.ReflTransGen.head cr_step3 (Relation.ReflTransGen.head cr_step4
      (Relation.ReflTransGen.head cr_step5 Relation.ReflTransGen.refl))))

/-- Two-worker run, step 1. -/
theorem dw_step1 : Step dw0 dw1 := Step.lockAcq 0 rfl rfl

/-- Two-worker run, step 2. -/
theorem dw_step2 : Step dw1 dw2 := Step.markIdleStep 0 rfl

/-- Two-worker run, step 3. -/
theorem dw_step3 : Step dw2 dw3 := Step.checkNrZero 0 rfl rfl

/-- Two-worker run, step 4. -/
theorem dw_step4 : Step dw3 dw4 := Step.setDoneStep 0 rfl

/-- Two-worker run, step 5. -/
theorem dw_step5 : Step dw4 dw5 := Step.scanTrue 0 0 rfl Nat.zero_lt_two rfl

/-- Two-worker run, step 6: worker 0 finds worker 1 still busy. -/
theorem dw_step6 : Step dw5 dw6 := Step.scanFalse 0 1 rfl Nat.one_lt_two rfl

/-- Two-worker run, step 7. -/
theorem dw_step7 : Step dw6 dw7 := Step.resetDoneStep 0 rfl

/-- Two-worker run, step 8. -/
theorem dw_step8 : Step dw7 dw8 := Step.unlockWStep 0 rfl

/-- Two-worker run, step 9. -/
theorem dw_step9 : Step dw8 dw9 := Step.lockAcq 1 rfl rfl

/-- Two-worker run, step 10. -/
theorem dw_step10 : Step dw9 dw10 := Step.markIdleStep 1 rfl

/-- Two-worker run, step 11. -/
theorem dw_step11 : Step dw10 dw11 := Step.checkNrZero 1 rfl rfl

/-- Two-worker run, step 12. -/
theorem dw_step12 : Step dw11 dw12 := Step.setDoneStep 1 rfl

/-- Two-worker run, step 13. -/
theorem dw_step13 : Step dw12 dw13 := Step.scanTrue 1 0 rfl Nat.zero_lt_two rfl

/-- Two-worker run, step 14. -/
theorem dw_step14 : Step dw13 dw14 := Step.scanTrue 1 1 rfl Nat.one_lt_two rfl

/-- Two-worker run, step 15: worker 1 declares termination. -/
theorem dw_step15 : Step dw14 dw15 := Step.scanDone 1 rfl

/-- Two-worker run, step 16. -/
theorem dw_step16 : Step dw15 dw16 := Step.declarePost 1 0 rfl Nat.zero_lt_two

/-- Two-worker run, step 17. -/
theorem dw_step17 : Step dw16 dw17 := Step.declarePost 1 1 rfl Nat.one_lt_two

/-- Two-worker run, step 18. -/
theorem dw_step18 : Step dw17 dw18 := Step.declareFin 1 rfl

/-- Two-worker run, step 19: worker 1 exits. -/
theorem dw_step19 : Step dw18 dw19 := Step.unlockTStep 1 rfl

/-- Two-worker run, step 20: worker 0 wakes on a declaration signal. -/
theorem dw_step20 : Step dw19 dw20 := Step.semWait 0 rfl (by decide)

/-- Two-worker run, step 21: worker 0 sees done and exits. -/
theorem dw_step21 : Step dw20 dw21 := Step.checkDoneTrue 0 rfl rfl

/-- The two-worker run reaches full termination. -/
theorem dw_reach : Reach dw0 dw21 :=
  Relation.ReflTransGen.head dw_step1 (Relation.ReflTransGen.head dw_step2
    (Relation.ReflTransGen.head dw_step3 (Relation.ReflTransGen.head dw_step4
      (Relation.ReflTransGen.head dw_step5 (Relation.ReflTransGen.head dw_step6
        (Relation.ReflTransGen.head dw_step7 (Relation.ReflTransGen.head dw_step8
          (Relation.ReflTransGen.head dw_step9 (Relation.ReflTransGen.head dw_step10
            (Relation.ReflTransGen.head dw_step11 (Relation.ReflTransGen.head dw_step12
              (Relation.ReflTransGen.head dw_step13 (Relation.ReflTransGen.head dw_step14
                (Relation.ReflTransGen.head dw_step15 (Relation.ReflTransGen.head dw_step16
                  (Relation.ReflTransGen.head dw_step17 (Relation.ReflTransGen.head dw_step18
                    (Relation.ReflTransGen.head dw_step19 (Relation.ReflTransGen.head dw_step20
                      (Relation.ReflTransGen.head dw_step21
                        Relation.ReflTransGen.refl))))))))))))))))))))

/-- The end state of the two-worker run is fully terminated. -/
theorem dw21_term : AllTerm dw21 := by
  intro w
  fin_cases w
  · rfl
  · rfl

/-- A root that stats successfully and is not a directory is not classified as one by the seeder. -/
theorem seedIsDir_false_of (j : Junk) (e : Entry) (h1 : seedErr e = false)
    (h2 : isRealDir e = false) : seedIsDir j e = false := by
  cases e with
  | file n b => rfl
  | statFail n => exact Bool.noConfusion h1
  | dir n b ro oo co es => exact Bool.noConfusion h2

/-- When no root is classified as a directory, the seeding loop leaves the work stack untouched. -/
theorem seedLoop_files_of_nodir (j : Junk) :
    ∀ (es : List Entry) (id : Nat) (st : SeedSt),
      (∀ e ∈ es, seedIsDir j e = false) →
      (seedLoop j id es st).available_files = st.available_files
  | [], id, st, h => rfl
  | e :: es, id, st, h => by
      have hstep : seedLoop j id (e :: es) st
          = seedLoop j (id + 1) es (initialize_files j id e st) := by
        simp [seedLoop]
      rw [hstep, seedLoop_files_of_nodir j es (id + 1) _
        (fun x hx => h x (List.mem_cons_of_mem _ hx))]
      simp [initialize_files, h e (List.mem_cons_self _ _)]

/--
C1: in every all-terminated reachable state over a well-formed forest with
K ≥ 1 workers, each root's accumulator holds the sum of the allocated-block
counts of every entry reachable from it (files once, directories' own cost
once), and the concrete scenario — root a of 8 blocks holding an 8-block
file and an 8-block subdirectory b holding a 16-block file — totals 40
blocks, reported as 20 after the halving of print.
-/
theorem claim_C1 {K : Nat} {j : Junk} {roots : List Entry} {s : St K}
    (hK : 0 < K) (hre : Reach (initSt K j roots) s) (ht : AllTerm s)
    (hwf : ∀ e ∈ roots, WellFormed e) :
    (∀ r e, roots.get? r = some e → s.total_sizes r = specReachSum e) ∧
    (∀ jx : Junk, targets jx
      [Entry.dir "a" 8 true true true
        [Entry.file "f" 8, Entry.dir "b" 8 true true true [Entry.file "g" 16]]] 0
      = 40) ∧
    (40 : Nat) / 2 = 20 := by
  refine ⟨?_, ?_, rfl⟩
  · intro r e hget
    rw [(terminal_state hK hre ht).1 r]
    unfold targets
    rw [hget]
    exact rootTarget_wf j e (hwf e (List.get?_mem hget))
  · intro jx
    simp [targets, rootTarget, seedBlocks, procOf, dirSum, listSum, entrySum]

/-- Witness of C1 at the concrete single-file input. -/
theorem claim_C1_witness :
    (0 < 1) ∧ (∀ e ∈ witRoots, WellFormed e) ∧
    (∀ r e, witRoots.get? r = some e → wit9.total_sizes r = specReachSum e) := by
  have hwf : ∀ e ∈ witRoots, WellFormed e := by
    intro e he
    simp only [witRoots, List.mem_singleton] at he
    subst he
    trivial
  exact ⟨Nat.one_pos, hwf,
    (claim_C1 Nat.one_pos wit_reach9 wit9_term hwf).1⟩

/--
C2: the pool always terminates: from every reachable state that is not yet
fully terminated some worker can take a step (no deadlock, under the weak
fairness any real scheduler provides), and every step strictly decreases a
natural-number measure, so no execution is infinite (no livelock) and every
maximal execution ends with all K workers terminated.
-/
theorem claim_C2 {K : Nat} {j : Junk} {roots : List Entry} {s : St K}
    (hK : 0 < K) (hre : Reach (initSt K j roots) s) :
    (¬ AllTerm s → ∃ t, Step s t) ∧ (∀ t, Step s t → mu t < mu s) :=
  ⟨fun hnt => pool_progress (reach_inv hK hre) hnt, fun _ hst => mu_lt_of_step hst⟩

/-- Witness of C2 at the concrete single-file input, taken at the start state. -/
theorem claim_C2_witness :
    (¬ AllTerm (initSt 1 witJ witRoots) → ∃ t, Step (initSt 1 witJ witRoots) t) ∧
    (∀ t, Step (initSt 1 witJ witRoots) t → mu t < mu (initSt 1 witJ witRoots)) :=
  @claim_C2 1 witJ witRoots (initSt 1 witJ witRoots) Nat.one_pos
    Relation.ReflTransGen.refl

/--
C3: at most one worker ever declares global termination (the declares
counter never exceeds one), and any step that performs the declaration is
taken by a worker that holds available_lock, has completed the idle scan
(all done_threads set) with the queue empty, the semaphore drained and no
push in flight awaiting its signal.
-/
theorem claim_C3 {K : Nat} {j : Junk} {roots : List Entry} {s t : St K}
    (hK : 0 < K) (hre : Reach (initSt K j roots) s) (hst : Step s t)
    (hdecl : t.declares = s.declares + 1) :
    t.declares ≤ 1 ∧
    ∃ w, s.lockHolder = some w ∧ s.pcs w = .scan K ∧ s.available_files = [] ∧
      s.available_sem = 0 ∧ pendCount s.pcs = 0 ∧
      ∀ v, s.done_threads v = true := by
  have h := reach_inv hK hre
  have ht := reach_inv hK (hre.tail hst)
  refine ⟨ht.dcl1, ?_⟩
  cases hst
  case scanDone w hpc =>
    obtain ⟨hKK, hqe, hdone, hpref⟩ := h.scanF w K hpc
    have h0 : s.declares = 0 := by
      have hd1 := ht.dcl1
      simp at hd1
      omega
    have hnd : NoDecl s := h.dcl0.mp h0
    have hemp := empty_tokens h hnd hqe
    have hp0 : pendCount s.pcs = 0 := by
      unfold pendCount
      exact Finset.sum_eq_zero (fun x _ => (hemp.2 x).2)
    exact ⟨w, h.lk2 w (by rw [hpc]; trivial), hpc, hqe, hemp.1, hp0,
      fun v => hpref v v.isLt⟩
  all_goals simp at hdecl

/-- Witness of C3 at the concrete single-file input: the declaration step of the concrete run. -/
theorem claim_C3_witness :
    wit6.declares = wit5.declares + 1 ∧ wit6.declares ≤ 1 ∧
    ∃ w, wit5.lockHolder = some w ∧ wit5.pcs w = .scan 1 ∧
      wit5.available_files = [] ∧ wit5.available_sem = 0 ∧
      pendCount wit5.pcs = 0 ∧ ∀ v, wit5.done_threads v = true := by
  have h := @claim_C3 1 witJ witRoots wit5 wit6 Nat.one_pos wit_reach5 wit_step6 rfl
  exact ⟨rfl, h.1, h.2⟩

/--
C4: work conservation: the outstanding count never goes negative (it always
equals the queue length), the items seeded plus the items pushed always
equal — as multisets, so with multiplicity — the items popped plus the
items still queued (every pop consumes exactly one completed push and no
item is popped twice or lost), and once termination has been declared the
queue is empty and every seeded or pushed item has been popped exactly
once.
-/
theorem claim_C4 {K : Nat} {j : Junk} {roots : List Entry} {s : St K}
    (hK : 0 < K) (hre : Reach (initSt K j roots) s) :
    0 ≤ s.nr_available_files ∧
    s.nr_available_files = (s.available_files.length : Int) ∧
    seedsMS j roots + s.pushed = s.popped + (s.available_files : Multiset Item) ∧
    (s.declares ≠ 0 → s.available_files = [] ∧
      seedsMS j roots + s.pushed = s.popped) := by
  have h := reach_inv hK hre
  refine ⟨by rw [h.nrEq]; exact Int.natCast_nonneg _, h.nrEq, h.ghost, ?_⟩
  intro hdz
  have hnnd : ¬ NoDecl s := fun hnd => hdz (h.dcl0.mpr hnd)
  obtain ⟨u, hu⟩ := not_forall.mp hnnd
  have hu' : DeclPc (s.pcs u) := not_not.mp hu
  obtain ⟨_, _, hqe⟩ := h.ts u hu'
  refine ⟨hqe, ?_⟩
  have hg := h.ghost
  rw [hqe] at hg
  simpa using hg

/-- Witness of C4 at the end of the concrete single-file run, where termination has been declared. -/
theorem claim_C4_witness :
    (0 : Int) ≤ wit9.nr_available_files ∧ wit9.declares ≠ 0 ∧
    wit9.available_files = [] ∧
    seedsMS witJ witRoots + wit9.pushed = wit9.popped := by
  have h := @claim_C4 1 witJ witRoots wit9 Nat.one_pos wit_reach9
  have hd : wit9.declares ≠ 0 := by decide
  exact ⟨h.1, hd, (h.2.2.2 hd).1, (h.2.2.2 hd).2⟩

/--
C5: scheduler and thread-count independence of the totals: any two fully
terminated reachable states over the same input forest — with any two
worker counts K1, K2 ≥ 1 and any two interleavings — agree on every root's
final accumulator value.
-/
theorem claim_C5 {K1 K2 : Nat} {j : Junk} {roots : List Entry}
    {s1 : St K1} {s2 : St K2}
    (h1 : 0 < K1) (h2 : 0 < K2)
    (hr1 : Reach (initSt K1 j roots) s1) (hr2 : Reach (initSt K2 j roots) s2)
    (ht1 : AllTerm s1) (ht2 : AllTerm s2) :
    ∀ r, s1.total_sizes r = s2.total_sizes r := by
  intro r
  rw [(terminal_state h1 hr1 ht1).1 r, (terminal_state h2 hr2 ht2).1 r]

/-- Witness of C5: the K = 1 and K = 2 concrete runs on the same input agree on root 0's total. -/
theorem claim_C5_witness :
    wit9.total_sizes 0 = dw21.total_sizes 0 :=
  claim_C5 Nat.one_pos (by decide) wit_reach9 dw_reach wit9_term dw21_term 0

/--
C6: what the per-entry handler actually does (corrected): a successfully
stat'ed child directory is pushed onto the queue wrapped with the same
owner root id AND its own allocated block count is added to the running
local total (line 295 returns st_blocks for directories too); a
non-directory child only contributes its block count; the claim's "only
for non-directory entries" is refuted.
-/
theorem claim_C6 :
    (∀ rid p n b ro oo co es,
        (get_available_file_size rid p (.dir n b ro oo co es)).pushes
          = [(rid, Entry.dir n b ro oo co es)] ∧
        (get_available_file_size rid p (.dir n b ro oo co es)).size = b) ∧
    (∀ rid p n b, (get_available_file_size rid p (.file n b)).size = b ∧
        (get_available_file_size rid p (.file n b)).pushes = []) ∧
    ¬ (∀ rid p e, isRealDir e = true → (get_available_file_size rid p e).size = 0) := by
  refine ⟨fun rid p n b ro oo co es => ⟨rfl, rfl⟩, fun rid p n b => ⟨rfl, rfl⟩, ?_⟩
  intro hall
  have h8 := hall 0 "p" (.dir "d" 8 true true true []) rfl
  simp [get_available_file_size] at h8

/-- Counterexample for C6's claim that directory children contribute nothing to the local total: an 8-block subdirectory both is pushed and adds its 8 blocks. -/
theorem claim_C6_cex :
    isRealDir (Entry.dir "d" 8 true true true []) = true ∧
    (get_available_file_size 0 "p" (Entry.dir "d" 8 true true true [])).size = 8 ∧
    (get_available_file_size 0 "p" (Entry.dir "d" 8 true true true [])).pushes ≠ [] := by
  refine ⟨rfl, rfl, ?_⟩
  intro h
  exact List.noConfusion h

/--
C7: the semaphore/queue relation that actually holds (corrected): before
any termination declaration the semaphore count plus the number of workers
between a successful sem_wait and their pop plus the number of workers
between a push and its sem_post equals the queue length (the bare equality
"semaphore value = queue length" is refuted by a reachable state), and
every pushed item is paired with exactly one semaphore signal: the number
of worker sem_posts issued plus the pushes whose post is still pending
equals the number of pushes.
-/
theorem claim_C7 {K : Nat} {j : Junk} {roots : List Entry} {s : St K}
    (hK : 0 < K) (hre : Reach (initSt K j roots) s) :
    (NoDecl s →
      s.available_sem + pendCount s.pcs + winCount s.pcs
        = s.available_files.length) ∧
    Multiset.card s.pushed = s.postedReal + pendCount s.pcs :=
  ⟨(reach_inv hK hre).tokens, postInv_reach hre⟩

/-- Witness of C7 at the end of the concrete single-directory run. -/
theorem claim_C7_witness :
    NoDecl cr5 ∧
    cr5.available_sem + pendCount cr5.pcs + winCount cr5.pcs
      = cr5.available_files.length := by
  have h := @claim_C7 1 witJ crRoots cr5 Nat.one_pos cr_reach
  have hnd : NoDecl cr5 := by
    intro u
    fin_cases u
    intro hd
    exact hd
  exact ⟨hnd, h.1 hnd⟩

/-- Counterexample for C7's claimed equality of semaphore count and queue length: a reachable state with the semaphore at 0 and one item queued. -/
theorem claim_C7_cex :
    ∃ s : St 1, Reach (initSt 1 witJ crRoots) s ∧
      ¬ s.available_sem = s.available_files.length := by
  refine ⟨cr5, cr_reach, ?_⟩
  decide

/--
C8: error handling (corrected): in every all-terminated reachable state
exit_status is set exactly when some seeding or traversal error occurred
(so the process exits 1), the flag once set is never cleared by any step,
the totals are still complete for everything actually visited (every slot
equals its root's target, errors or not, so other subtrees and other roots
are unaffected), a failing child lstat logs the PARENT directory's path —
line 272 prints file.name, not the joined child path — sets the flag and
contributes nothing, and a failing closedir logs no path at all, sets the
flag and keeps the directory's accumulated size.
-/
theorem claim_C8 {K : Nat} {j : Junk} {roots : List Entry} {s : St K}
    (hK : 0 < K) (hre : Reach (initSt K j roots) s) (ht : AllTerm s) :
    s.exit_status = targetErr j roots ∧
    (∀ r, s.total_sizes r = targets j roots r) ∧
    (∀ s' t : St K, Step s' t → s'.exit_status = true → t.exit_status = true) ∧
    (∀ rid p n, get_available_file_size rid p (.statFail n)
        = { size := 0, pushes := [], log := [.statErr p], err := true }) ∧
    (∀ rid path es,
        (get_directory_size rid path true true false es).log
          = (readLoop rid path es).log ++ [LogEvent.closeErr] ∧
        (get_directory_size rid path true true false es).err = true ∧
        (get_directory_size rid path true true false es).size
          = (readLoop rid path es).size) := by
  obtain ⟨hts, hex, hqe⟩ := terminal_state hK hre ht
  refine ⟨hex, hts, fun s' t hst hx => exit_mono hst hx,
    fun rid p n => rfl, fun rid path es => ?_⟩
  refine ⟨?_, ?_, ?_⟩ <;> simp [get_directory_size]

/-- Witness of C8 at the end of the concrete single-file run. -/
theorem claim_C8_witness :
    AllTerm wit9 ∧ wit9.exit_status = targetErr witJ witRoots :=
  ⟨wit9_term, (claim_C8 Nat.one_pos wit_reach9 wit9_term).1⟩

/-- Counterexample for C8's claim that a failing child lstat is logged with the offending (child) path: the expansion of directory a with one unstattable child c logs the parent path a, not the child path, and a failing closedir logs no path at all. -/
theorem claim_C8_cex :
    (get_directory_size 0 "a" true true true [Entry.statFail "c"]).log
      = [LogEvent.statErr "a"] ∧
    LogEvent.statErr "a" ≠ LogEvent.statErr "a/c" ∧
    (get_directory_size 0 "a" true true false []).log = [LogEvent.closeErr] := by
  refine ⟨rfl, ?_, rfl⟩
  intro h
  have := LogEvent.statErr.inj h
  exact absurd this (by decide)

/--
C9: the seeder (code bug found): it does assign consecutive root ids in
command-line order, append one accumulator slot per root holding the
block count it read, set the error flag on lstat failure and continue —
but when lstat fails the slot value and the is-directory test come from
the UNINITIALIZED stat buffer (lines 409-421 read file_stat.st_blocks and
file_stat.st_mode after lstat failed), so the recorded value is
indeterminate, not a well-defined best-effort value: two possible contents
of the uninitialized buffer give different totals for the same input.
-/
theorem claim_C9 :
    (∀ j id e st,
        (initialize_files j id e st).total_sizes
          = st.total_sizes ++ [seedBlocks j e] ∧
        (initialize_files j id e st).exit_status
          = (st.exit_status || seedErr e) ∧
        (seedErr e = false → ∀ j' : Junk, seedBlocks j e = seedBlocks j' e)) ∧
    (seedAll ⟨0, false⟩ [Entry.statFail "x"]).total_sizes
      ≠ (seedAll ⟨5, false⟩ [Entry.statFail "x"]).total_sizes := by
  constructor
  · intro j id e st
    refine ⟨rfl, rfl, ?_⟩
    intro hse j'
    cases e with
    | file n b => rfl
    | statFail n => exact Bool.noConfusion hse
    | dir n b ro oo co es => rfl
  · decide

/--
C10: pool-skipping (corrected): when every root path stats successfully
and none is a directory, nothing is enqueued, main skips thread creation
(line 88-90) and each root's reported total is its own halved block count
— but for a root whose lstat FAILS the enqueue decision reads the
uninitialized stat buffer's mode bits, so a run where no root is a real
directory can still create worker threads; the claim's premise must
require that every root stats successfully.
-/
theorem claim_C10 {j : Junk} {roots : List Entry}
    (hok : ∀ e ∈ roots, seedErr e = false)
    (hnd : ∀ e ∈ roots, isRealDir e = false) :
    main_runs_threads j roots = false ∧
    printed_without_pool j roots = roots.map (fun e => seedBlocks j e / 2) := by
  have hfiles : (seedAll j roots).available_files = [] := by
    unfold seedAll
    exact seedLoop_files_of_nodir j roots 0 _
      (fun e he => seedIsDir_false_of j e (hok e he) (hnd e he))
  constructor
  · simp [main_runs_threads, hfiles]
  · unfold printed_without_pool
    rw [show (seedAll j roots).total_sizes = roots.map (seedBlocks j) from by
      unfold seedAll
      have h := seedLoop_totals j roots 0
        { total_sizes := [], available_files := [], exit_status := false }
      simpa using h]
    rw [List.map_map]
    rfl

/-- Witness of C10 at the concrete single-file input. -/
theorem claim_C10_witness :
    (∀ e ∈ witRoots, seedErr e = false) ∧ (∀ e ∈ witRoots, isRealDir e = false) ∧
    main_runs_threads witJ witRoots = false ∧
    printed_without_pool witJ witRoots
      = witRoots.map (fun e => seedBlocks witJ e / 2) := by
  have h1 : ∀ e ∈ witRoots, seedErr e = false := by
    intro e he
    simp only [witRoots, List.mem_singleton] at he
    subst he
    rfl
  have h2 : ∀ e ∈ witRoots, isRealDir e = false := by
    intro e he
    simp only [witRoots, List.mem_singleton] at he
    subst he
    rfl
  exact ⟨h1, h2, (claim_C10 h1 h2).1, (claim_C10 h1 h2).2⟩

/-- Counterexample for C10's claim that no threads are created when no root is a directory: with an unstattable root and garbage mode bits that classify it as a directory, the pool does run. -/
theorem claim_C10_cex :
    (∀ e ∈ [Entry.statFail "x"], isRealDir e = false) ∧
    main_runs_threads ⟨0, true⟩ [Entry.statFail "x"] = true := by
  constructor
  · intro e he
    simp only [List.mem_singleton] at he
    subst he
    rfl
  · rfl

end Mdu
